import Mathlib

/-!
# Verification of snap-db's persistent red-black tree and compaction engine

This file is a shallow embedding, in Lean 4, of the two source files of the
repository:

* `src/bin/rbtree.js` — a persistent (path-copying) red-black tree with
  order statistics (a compiled port of `functional-red-black-tree`);
* `src/unnamed/part_000` — the `SnapCompactor` worker (`_runCompaction`,
  `hasOlderValues`, `loadFile`).

Two embeddings of the tree are given:

1. a **pure functional embedding** (`SnapDB.RBNode`, `SnapDB.RedBlackTree`).
   The JS code mutates nodes during a single operation, but (as the
   persistence theorem for the heap model below makes precise) it only ever
   mutates nodes allocated during that same operation, so each operation is
   extensionally a pure function from trees to trees.  The imperative
   ancestor stacks of the source are represented by lists of `Frame`s
   (a frame is an ancestor node minus its on-path child, plus the direction
   the path takes), exactly the information the source keeps in
   `n_stack`/`d_stack`/`cstack`; the source's reference-equality tests
   (`p.left === n` etc.) read back the direction recorded when the stack
   was built, which is what `Frame.dir` stores.

2. a **heap embedding** (`SnapDB.Heap`, `insertH`, `removeH`, `updateH`)
   in which nodes live at addresses in an allocation list and every field
   assignment of the source is an explicit store write.  This model is used
   for the persistence/no-mutation claim.

The compaction engine's filesystem interactions are modelled by explicit
data (manifest structures, a bloom-filter oracle, file contents as values).
-/

namespace SnapDB

/-- Node colors; `RED = 0`, `BLACK = 1` in the source. -/
inductive Color where
  | red
  | black
deriving DecidableEq, Repr

/-- A tree node (`RBNode` in the source): color, key, value, two children and
the stored subtree size `_count`.  `nil` is the source's `null`. -/
inductive RBNode (α β : Type) where
  | nil
  | node (color : Color) (key : α) (value : β) (left : RBNode α β) (right : RBNode α β)
      (count : Nat)
deriving Repr, DecidableEq

namespace RBNode

variable {α β : Type}

/-- Color of a possibly-null node.  The source only reads `_color` of non-null
nodes; tests of the form `y && y._color === RED` are `y.color = .red` here,
which agrees because `nil.color = black ≠ red`. -/
def color : RBNode α β → Color
  | nil => .black
  | node c _ _ _ _ _ => c

/-- The stored `_count` field; `null` contributes `0`
(the source guards with `node.left ? node.left._count : 0`). -/
def count : RBNode α β → Nat
  | nil => 0
  | node _ _ _ _ _ cnt => cnt

/-- Structural size of a subtree (number of nodes actually present). -/
def size : RBNode α β → Nat
  | nil => 0
  | node _ _ _ l r _ => 1 + l.size + r.size

/-- In-order list of (key, value) pairs, as produced by `doVisitFull` with a
collecting visitor that never short-circuits (this is how `keys()` and
`values()` traverse). -/
def toList : RBNode α β → List (α × β)
  | nil => []
  | node _ k v l r _ => l.toList ++ (k, v) :: r.toList

/-- The keys of a subtree in in-order. -/
def keysN (n : RBNode α β) : List α := n.toList.map Prod.fst

/-- `node.left._count` with the null guard of the source. -/
def leftCount : RBNode α β → Nat
  | nil => 0
  | node _ _ _ l _ _ => l.count

end RBNode

/-- Direction from a stack node to the next node on the path.  In the source
this information is implicit: `d_stack[s] <= 0` during insert, and recovered
by reference comparisons (`n.left === stack[i+1]`) elsewhere. -/
inductive Dir where
  | left
  | right
deriving DecidableEq, Repr

/-- One ancestor entry of an imperative node stack: the node's fields minus
its on-path child, plus the direction the path continues.  A list of frames
(deepest ancestor first) together with a current subtree represents
`n_stack`/`cstack` of the source. -/
structure Frame (α β : Type) where
  color : Color
  key : α
  value : β
  other : RBNode α β
  count : Nat
  dir : Dir
deriving Repr, DecidableEq

namespace Frame

variable {α β : Type}

/-- Reattach a path child to an ancestor frame, yielding the ancestor node. -/
def fill (f : Frame α β) (child : RBNode α β) : RBNode α β :=
  match f.dir with
  | .left => .node f.color f.key f.value child f.other f.count
  | .right => .node f.color f.key f.value f.other child f.count

end Frame

variable {α β : Type}

/-- Rebuild a tree from a current subtree and its ancestor stack
(deepest frame first).  This is `return new RedBlackTree(cmp, n_stack[0])`
after the stack entries have been linked. -/
def assemble (x : RBNode α β) : List (Frame α β) → RBNode α β
  | [] => x
  | f :: rest => assemble (f.fill x) rest

/-- `new RBNode(c, k, v, l, r, _)` followed by `recount`: the count is
recomputed from the children's stored counts. -/
def mkRecount (c : Color) (k : α) (v : β) (l r : RBNode α β) : RBNode α β :=
  .node c k v l r (1 + l.count + r.count)

/-- The source's `repaint(color, node)` (creates a recolored copy);
extended to `nil` (unused there) as the identity. -/
def repaint (c : Color) : RBNode α β → RBNode α β
  | .nil => .nil
  | .node _ k v l r cnt => .node c k v l r cnt

/-- The search loop plus the path-rebuild loop of `insert`: descend comparing
`d = cmp(key, n.key)` (`d <= 0` goes left), and record each ancestor as a
frame whose count is already incremented (`n._count + 1`), deepest first.
The result is `n_stack` just before the rebalance loop, minus the new leaf. -/
def buildStack (cmp : α → α → Int) (key : α) :
    RBNode α β → List (Frame α β) → List (Frame α β)
  | .nil, acc => acc
  | .node c k v l r cnt, acc =>
    if cmp key k ≤ 0 then
      buildStack cmp key l
        ({ color := c, key := k, value := v, other := r, count := cnt + 1, dir := .left } :: acc)
    else
      buildStack cmp key r
        ({ color := c, key := k, value := v, other := l, count := cnt + 1, dir := .right } :: acc)

/-- Red-uncle recolor step shared by the four `…r` cases of the insert
rebalance loop: `p._color = BLACK; pp.right/left = repaint(BLACK, y);
pp._color = RED`, after which the loop continues two levels up with `pp`. -/
def fillRecolor (pp : Frame α β) (pchild : RBNode α β) : RBNode α β :=
  match pp.dir with
  | .left => .node .red pp.key pp.value pchild (repaint .black pp.other) pp.count
  | .right => .node .red pp.key pp.value (repaint .black pp.other) pchild pp.count

/-- The rebalance loop of `insert` (`for (var s = n_stack.length - 1; s > 1; --s)`).
`n` is `n_stack[s]`, the frames are the ancestors above it, deepest first.
The loop stops when fewer than two ancestors remain (`s > 1` fails), when
`p` or `n` is black, or after a rotation (`break`); stopping assembles the
remaining stack unchanged. -/
def rebalance : RBNode α β → List (Frame α β) → RBNode α β
  | n, [] => n
  | n, [p] => p.fill n
  | n, p :: pp :: rest =>
    if p.color = .black ∨ n.color = .black then
      assemble n (p :: pp :: rest)
    else
      match pp.dir, p.dir with
      | .left, .left =>
        if pp.other.color = .red then
          -- LLr: recolor and continue from pp
          rebalance (fillRecolor pp (Frame.fill { p with color := .black } n)) rest
        else
          -- LLb: pp._color = RED; pp.left = p.right; p._color = BLACK; p.right = pp
          let ppN := mkRecount .red pp.key pp.value p.other pp.other
          assemble (mkRecount .black p.key p.value n ppN) rest
      | .left, .right =>
        if pp.other.color = .red then
          -- LRr
          rebalance (fillRecolor pp (Frame.fill { p with color := .black } n)) rest
        else
          -- LRb: p.right = n.left; pp.left = n.right; n.left = p; n.right = pp
          match n with
          | .nil => assemble n (p :: pp :: rest)  -- unreachable: n is red here, hence a node
          | .node _ nk nv nl nr _ =>
            let pN := mkRecount p.color p.key p.value p.other nl
            let ppN := mkRecount .red pp.key pp.value nr pp.other
            assemble (mkRecount .black nk nv pN ppN) rest
      | .right, .right =>
        if pp.other.color = .red then
          -- RRr
          rebalance (fillRecolor pp (Frame.fill { p with color := .black } n)) rest
        else
          -- RRb: pp._color = RED; pp.right = p.left; p._color = BLACK; p.left = pp
          let ppN := mkRecount .red pp.key pp.value pp.other p.other
          assemble (mkRecount .black p.key p.value ppN n) rest
      | .right, .left =>
        if pp.other.color = .red then
          -- RLr
          rebalance (fillRecolor pp (Frame.fill { p with color := .black } n)) rest
        else
          -- RLb: p.left = n.right; pp.right = n.left; n.right = p; n.left = pp
          match n with
          | .nil => assemble n (p :: pp :: rest)  -- unreachable: n is red here, hence a node
          | .node _ nk nv nl nr _ =>
            let pN := mkRecount p.color p.key p.value nr p.other
            let ppN := mkRecount .red pp.key pp.value pp.other nl
            assemble (mkRecount .black nk nv ppN pN) rest

/-- An immutable tree handle: comparator plus root (`RedBlackTree` of the
source). -/
structure RedBlackTree (α β : Type) where
  compare : α → α → Int
  root : RBNode α β

/-- `createRBTree(compare)`. -/
def createRBTree (cmp : α → α → Int) : RedBlackTree α β := ⟨cmp, .nil⟩

/-- The default comparator used when `createRBTree()` is called without an
argument (as the compactor does). -/
def defaultCompare [LinearOrder α] (a b : α) : Int :=
  if a < b then -1 else if b < a then 1 else 0

namespace RedBlackTree

/-- `RedBlackTree.prototype.insert`: search, rebuild the path with
incremented counts, push a new red leaf, rebalance, and repaint the root
black (`n_stack[0]._color = BLACK`). -/
def insert (t : RedBlackTree α β) (key : α) (value : β) : RedBlackTree α β :=
  let frames := buildStack t.compare key t.root []
  ⟨t.compare, repaint .black (rebalance (.node .red key value .nil .nil 1) frames)⟩

/-- `RedBlackTree.prototype.length`: `root ? root._count : 0`. -/
def length (t : RedBlackTree α β) : Nat := t.root.count

/-- `RedBlackTree.prototype.keys`: `forEach` with a collecting visitor. -/
def keys (t : RedBlackTree α β) : List α := t.root.keysN

end RedBlackTree

/-- Search loop of `RedBlackTree.prototype.get`: `d === 0` returns the value,
else `d <= 0` goes left, otherwise right. -/
def getGo (cmp : α → α → Int) (key : α) : RBNode α β → Option β
  | .nil => none
  | .node _ k v l r _ =>
    let d := cmp key k
    if d = 0 then some v
    else if d ≤ 0 then getGo cmp key l
    else getGo cmp key r

/-- `RedBlackTree.prototype.get`. -/
def RedBlackTree.get (t : RedBlackTree α β) (key : α) : Option β :=
  getGo t.compare key t.root

/-- Truthiness of a node pointer (`if (n.left)` etc.). -/
def RBNode.isNil : RBNode α β → Bool
  | .nil => true
  | .node _ _ _ _ _ _ => false

/-- An iterator (`RedBlackTreeIterator`): either the invalid/past-the-end
iterator (empty `_stack`) or a stack of ancestor frames (deepest first) plus
the current node (`_stack[_stack.length - 1]`). -/
inductive Cursor (α β : Type) where
  | invalid
  | valid (frames : List (Frame α β)) (cur : RBNode α β)
deriving Repr, DecidableEq

/-- `RedBlackTreeIterator.prototype.index`: for the empty stack,
`root._count` (or 0); otherwise the current node's left count plus, for each
ancestor reached through its right child, `1 + left._count`. -/
def Cursor.index (root : RBNode α β) : Cursor α β → Nat
  | .invalid => root.count
  | .valid frames cur =>
    frames.foldl
      (fun idx f =>
        match f.dir with
        | .right => idx + 1 + f.other.count
        | .left => idx)
      cur.leftCount

/-- The `while (true)` descent loop of `RedBlackTree.prototype.at`, entered
with a non-null `n`.  Returning `.invalid` corresponds to the two `break`
paths that fall through to `new RedBlackTreeIterator(this, [])`. -/
def atLoop : RBNode α β → Int → List (Frame α β) → Cursor α β
  | .nil, _, _ => .invalid  -- unreachable: the loop never descends to null
  | .node c k v l r cnt, idx, acc =>
    if ¬ l.isNil ∧ idx < (l.count : Int) then
      atLoop l idx
        ({ color := c, key := k, value := v, other := r, count := cnt, dir := .left } :: acc)
    else
      -- after the left block the source has executed `idx -= n.left._count`
      -- exactly when `n.left` exists
      if (if l.isNil then idx else idx - l.count) = 0 then .valid acc (.node c k v l r cnt)
      else if ¬ r.isNil ∧ (if l.isNil then idx else idx - l.count) - 1 < (r.count : Int) then
        atLoop r ((if l.isNil then idx else idx - l.count) - 1)
          ({ color := c, key := k, value := v, other := l, count := cnt, dir := .right } :: acc)
      else .invalid

/-- `RedBlackTree.prototype.at`: a negative index returns the invalid
iterator before the root is touched; otherwise the loop starts at
`this.root`, and on the empty tree it dereferences `null.left` — a
TypeError, modelled as `none`. -/
def RedBlackTree.atIndex (t : RedBlackTree α β) (idx : Int) : Option (Cursor α β) :=
  if idx < 0 then some .invalid
  else
    match t.root with
    | .nil => none
    | .node c k v l r cnt => some (atLoop (.node c k v l r cnt) idx [])

/-- `RedBlackTree.prototype.find`: descend with `d = cmp(key, n.key)`,
returning the stack at the first exact match, the invalid iterator if the
search reaches null. -/
def findGo (cmp : α → α → Int) (key : α) : RBNode α β → List (Frame α β) → Cursor α β
  | .nil, _ => .invalid
  | .node c k v l r cnt, acc =>
    let d := cmp key k
    if d = 0 then .valid acc (.node c k v l r cnt)
    else if d ≤ 0 then
      findGo cmp key l
        ({ color := c, key := k, value := v, other := r, count := cnt, dir := .left } :: acc)
    else
      findGo cmp key r
        ({ color := c, key := k, value := v, other := l, count := cnt, dir := .right } :: acc)

/-- `RedBlackTree.prototype.find`. -/
def RedBlackTree.find (t : RedBlackTree α β) (key : α) : Cursor α β :=
  findGo t.compare key t.root []

/-- The walk-to-predecessor loop of `RedBlackTreeIterator.prototype.remove`
(`n = n.left; while (n.right) { cstack.push(n); n = n.right }` followed by the
copy-fixup loop): collects the intermediate nodes as frames (their right
child is on the path) and returns the rightmost node.  Called on a non-null
node. -/
def walkRight : RBNode α β → List (Frame α β) → List (Frame α β) × RBNode α β
  | .nil, acc => (acc, .nil)  -- unreachable: called on a non-null node
  | .node c k v l r cnt, acc =>
    match r with
    | .nil => (acc, .node c k v l .nil cnt)
    | .node _ _ _ _ _ _ =>
      walkRight r ({ color := c, key := k, value := v, other := l, count := cnt, dir := .right } :: acc)

/-- Decrement a frame's stored count (the `cstack[i]._count--` loops). -/
def decFrame (f : Frame α β) : Frame α β := { f with count := f.count - 1 }

/-- Assemble while decrementing every ancestor's count. -/
def assembleD (x : RBNode α β) : List (Frame α β) → RBNode α β
  | [] => x
  | f :: rest => assembleD ((decFrame f).fill x) rest

/-- Termination measure for `fixDoubleBlack`: the red-sibling rotation
(case 3) replaces one frame carrying sibling `s` by two frames carrying
`s.left` and `s.right`, which strictly decreases this weight; the
black-sibling recursion drops a frame. -/
def fixMeasure : List (Frame α β) → Nat
  | [] => 0
  | f :: rest => 1 + 2 * f.other.size + fixMeasure rest

/-- `fixDoubleBlack(stack)`: `n` is the double-black node (the removed leaf's
position enters as `nil`: the source leaves the dummy node linked, never
reads its fields again, and detaches it right after the call — passing `nil`
directly yields the same tree).  The frame list is the ancestor stack,
deepest first, with counts already decremented.  Each source case either
`return`s (assembling the remaining stack) or continues the loop, which is
the recursion here; case 3 pushes the rotated parent back as new frames and
re-examines the same `n`. -/
def fixDB : RBNode α β → List (Frame α β) → RBNode α β
  | n, [] => repaint .black n
  | n, pf :: rest =>
    match pf.dir with
    | .left =>
      match hs : pf.other with
      | .nil =>
        -- the source dereferences the null sibling here (TypeError); unreachable for
        -- valid red-black trees (the double-black side has positive black height).
        -- Modelled as the black-sibling case with an empty repainted sibling.
        if pf.color = .red then
          assemble (.node .black pf.key pf.value n .nil pf.count) rest
        else
          fixDB (.node .black pf.key pf.value n .nil pf.count) rest
      | .node sc sk sv sl sr scnt =>
        if sr.color = .red then
          -- case 1, right nephew red: rotate s into p's place and stop
          let pN := mkRecount .black pf.key pf.value (repaint .black n) sl
          assemble (mkRecount pf.color sk sv pN (repaint .black sr)) rest
        else
          match sl with
          | .node .red zk zv zl zr _ =>
            -- case 1, left nephew red: double rotation and stop
            let pN := mkRecount .black pf.key pf.value (repaint .black n) zl
            let sN := mkRecount .black sk sv zr sr
            assemble (mkRecount pf.color zk zv pN sN) rest
          | _ =>
            if sc = .black then
              if pf.color = .red then
                -- case 2, black sibling, red parent: recolor and stop
                assemble (.node .black pf.key pf.value n (.node .red sk sv sl sr scnt) pf.count) rest
              else
                -- case 2, black sibling, black parent: recolor and bubble up
                fixDB (.node .black pf.key pf.value n (.node .red sk sv sl sr scnt) pf.count) rest
            else
              -- case 3, red sibling: rotate s above p and re-examine n under the new p
              fixDB n
                ({ color := .red, key := pf.key, value := pf.value, other := sl,
                   count := 1 + n.count + sl.count, dir := .left } ::
                 { color := pf.color, key := sk, value := sv, other := sr,
                   count := 1 + (1 + n.count + sl.count) + sr.count, dir := .left } :: rest)
    | .right =>
      match hs : pf.other with
      | .nil =>
        -- unreachable null sibling, as in the left branch
        if pf.color = .red then
          assemble (.node .black pf.key pf.value .nil n pf.count) rest
        else
          fixDB (.node .black pf.key pf.value .nil n pf.count) rest
      | .node sc sk sv sl sr scnt =>
        if sl.color = .red then
          -- case 1, left nephew red: rotate s into p's place and stop
          let pN := mkRecount .black pf.key pf.value sr (repaint .black n)
          assemble (mkRecount pf.color sk sv (repaint .black sl) pN) rest
        else
          match sr with
          | .node .red zk zv zl zr _ =>
            -- case 1, right nephew red: double rotation and stop
            let pN := mkRecount .black pf.key pf.value zr (repaint .black n)
            let sN := mkRecount .black sk sv sl zl
            assemble (mkRecount pf.color zk zv sN pN) rest
          | _ =>
            if sc = .black then
              if pf.color = .red then
                assemble (.node .black pf.key pf.value (.node .red sk sv sl sr scnt) n pf.count) rest
              else
                fixDB (.node .black pf.key pf.value (.node .red sk sv sl sr scnt) n pf.count) rest
            else
              -- case 3, red sibling
              fixDB n
                ({ color := .red, key := pf.key, value := pf.value, other := sr,
                   count := 1 + sr.count + n.count, dir := .right } ::
                 { color := pf.color, key := sk, value := sv, other := sl,
                   count := 1 + sl.count + (1 + sr.count + n.count), dir := .right } :: rest)
termination_by n frames => fixMeasure frames
decreasing_by
  all_goals simp_all [fixMeasure, RBNode.size]
  all_goals omega

/-- The leaf-removal part of `RedBlackTreeIterator.prototype.remove`
(after the optional predecessor swap): `cur` has at most one child.
Red leaf: unlink and decrement ancestor counts.  Black node with a single
child: replace by the child repainted black.  Black childless root: empty
tree.  Otherwise decrement every count and run the double-black fixup with
the removed position as a `nil` dummy (the source detaches it from its
parent right after `fixDoubleBlack`). -/
def removeLeaf (cur : RBNode α β) (frames : List (Frame α β)) : RBNode α β :=
  match cur with
  | .nil => assembleD .nil frames  -- unreachable: cursors point at real nodes
  | .node c _ _ l r _ =>
    if c = .red then
      assembleD .nil frames
    else if ¬ l.isNil ∨ ¬ r.isNil then
      assembleD (repaint .black (if l.isNil then r else l)) frames
    else
      match frames with
      | [] => .nil
      | _ :: _ => fixDB .nil (frames.map decFrame)

/-- `RedBlackTreeIterator.prototype.remove` for a valid (non-empty-stack)
iterator.  If the current node has two children it is first swapped with its
in-order predecessor: the deletion point keeps its color/children/count but
takes the predecessor's key and value, the walked spine becomes new frames,
and the node to remove becomes a copy of the predecessor carrying the
deleted key/value (the source builds exactly this node before removing it). -/
def removeAt (cur : RBNode α β) (frames : List (Frame α β)) : RBNode α β :=
  match cur with
  | .nil => assemble .nil frames  -- unreachable: valid cursors hold real nodes
  | .node c k v l r cnt =>
    match l, r with
    | .node lc lk lv ll lr lcnt, .node _ _ _ _ _ _ =>
      let w := walkRight (.node lc lk lv ll lr lcnt) []
      match w.2 with
      | .node pc pk pv pl pr pcnt =>
        removeLeaf (.node pc k v pl pr pcnt)
          (w.1 ++ { color := c, key := pk, value := pv, other := r, count := cnt, dir := .left } :: frames)
      | .nil => assemble .nil frames  -- unreachable: walkRight of a node is a node
    | _, _ => removeLeaf (.node c k v l r cnt) frames

/-- `RedBlackTree.prototype.remove`: `find` then `iter.remove()`; an
invalid iterator returns `this.tree` unchanged. -/
def RedBlackTree.remove (t : RedBlackTree α β) (key : α) : RedBlackTree α β :=
  match t.find key with
  | .invalid => t
  | .valid frames cur => ⟨t.compare, removeAt cur frames⟩

/-! ## Red-black invariants

The structural invariants of §3/§8 of the spec, as executable checkers. -/

/-- Black height: `some h` if every root-to-null path passes through exactly
`h` black nodes, `none` if the tree is black-height-inconsistent. -/
def bh : RBNode α β → Option Nat
  | .nil => some 0
  | .node c _ _ l r _ =>
    match bh l, bh r with
    | some hl, some hr => if hl = hr then some (hl + (if c = .black then 1 else 0)) else none
    | _, _ => none

/-- No red node has a red child. -/
def noRedRedB : RBNode α β → Bool
  | .nil => true
  | .node c _ _ l r _ =>
    (!(c == .red) || (l.color == .black && r.color == .black)) && noRedRedB l && noRedRedB r

/-- Every stored `_count` equals `1 + count(left) + count(right)`. -/
def countOkB : RBNode α β → Bool
  | .nil => true
  | .node _ _ _ l r cnt => (cnt == 1 + l.count + r.count) && countOkB l && countOkB r

/-- The full structural invariant of a published tree root: BLACK root, no
red-red edge, consistent black height, consistent counts. -/
def RBValid (n : RBNode α β) : Prop :=
  n.color = .black ∧ noRedRedB n = true ∧ (bh n).isSome = true ∧ countOkB n = true

instance (n : RBNode α β) : Decidable (RBValid n) := by
  unfold RBValid; infer_instance

/-- Binary-search-tree ordering under a comparator: keys in the left subtree
compare `<= 0` against the node key (where equal keys go, per the insert
tie-break), keys in the right compare `> 0`. -/
def OrderedB (cmp : α → α → Int) : RBNode α β → Bool
  | .nil => true
  | .node _ k _ l r _ =>
    l.keysN.all (fun x => decide (cmp x k ≤ 0)) &&
    r.keysN.all (fun y => decide (0 < cmp y k)) &&
    OrderedB cmp l && OrderedB cmp r

/-- Trees reachable from `createRBTree(cmp)` by `insert`/`remove` calls. -/
inductive Reachable (cmp : α → α → Int) : RedBlackTree α β → Prop
  | empty : Reachable cmp (createRBTree cmp)
  | ins (t : RedBlackTree α β) (k : α) (v : β) : Reachable cmp t → Reachable cmp (t.insert k v)
  | rem (t : RedBlackTree α β) (k : α) : Reachable cmp t → Reachable cmp (t.remove k)

/-! ## Compaction engine (`src/unnamed/part_000`)

The filesystem is externalized: the manifest is data, a file's bloom filter
is an oracle `fileId → key → Bool` (the result of
`BloomFilter.contains(bloom.vData, bloom.nHashFuncs, bloom.nTweak, String(key))`
for that file's loaded `.bom` contents), and a file's `.dta` contents is a
string.  Keys are a linear order (the source compares them with JS `<=`/`>=`
after parsing them as strings or floats according to `keyType`). -/

/-- A manifest file entry `{ i, range }`. -/
structure FileInfo (α : Type) where
  i : Nat
  range0 : α
  range1 : α
deriving Repr, DecidableEq

/-- A manifest level `{ comp, files }`. -/
structure SnapLevel (α : Type) where
  comp : Nat
  files : List (FileInfo α)
deriving Repr, DecidableEq

/-- The manifest `{ inc, lvl }` (the version field plays no role here). -/
structure SnapManifest (α : Type) where
  inc : Nat
  lvl : List (SnapLevel α)
deriving Repr, DecidableEq

/-- The inner `nextLevel` recursion of `hasOlderValues`: scan the files of
`lvl[currentLevel]` in reverse order for one whose range covers the key and
whose bloom filter reports possible membership; recurse into the next level
otherwise; stop with `false` at the first index where `lvl[currentLevel]` is
undefined.  Incrementing `currentLevel` until the list runs out is recursion
over the suffix of remaining levels, which is how it is phrased here. -/
def hasOlderScan [LinearOrder α] (bloom : Nat → α → Bool) (key : α) :
    List (SnapLevel α) → Bool
  | [] => false
  | lvlObj :: rest =>
    (lvlObj.files.reverse.any fun fileInfo =>
      decide (fileInfo.range0 ≤ key) && decide (key ≤ fileInfo.range1) && bloom fileInfo.i key)
    || hasOlderScan bloom key rest

/-- `hasOlderValues(key, level)`: the scan starts at `currentLevel = level + 1`. -/
def hasOlderValues [LinearOrder α] (m : SnapManifest α) (bloom : Nat → α → Bool)
    (key : α) (level : Nat) : Bool :=
  hasOlderScan bloom key (m.lvl.drop (level + 1))

/-- A value in the compaction merge buffer: `.nullbyte` is the `NULLBYTE`
tombstone marker (modelled from the spec: `NULLBYTE` is a one-byte constant
exported by `common.ts`, which is not under `src/`); `.raw` is a slice of a
data file's contents. -/
inductive BufVal where
  | nullbyte
  | raw (s : String)
deriving Repr, DecidableEq

/-- Index clamping of `String.prototype.slice`. -/
def jsSliceIdx (len : Nat) (i : Int) : Nat :=
  if i < 0 then (max ((len : Int) + i) 0).toNat else min i.toNat len

/-- `data.slice(start, stop)`. -/
def jsSlice (s : String) (start stop : Int) : String :=
  let a := jsSliceIdx s.length start
  let b := jsSliceIdx s.length stop
  String.mk ((s.toList.drop a).take (b - a))

/-- One iteration of the `Object.keys(index.keys).forEach` body of
`loadFile`, for a key whose index entry is `[off, len]`: a tombstone
(`off === -1`) is inserted as `NULLBYTE` if `hasOlderValues` finds an older
candidate, otherwise the key is `remove`d from the merge buffer; a live
entry inserts the data slice.  (The parsing of the key via
`keyType === "string" ? key : parseFloat(key)` is upstream of this model:
`key : α` is the parsed key.) -/
def processEntry [LinearOrder α] (m : SnapManifest α) (bloom : Nat → α → Bool) (level : Nat)
    (data : String) (buf : RedBlackTree α BufVal) (key : α) (off len : Int) :
    RedBlackTree α BufVal :=
  if off = -1 then
    if hasOlderValues m bloom key level then buf.insert key .nullbyte
    else buf.remove key
  else
    buf.insert key (.raw (jsSlice data off (off + len)))

/-- `loadFile(fileID, level)` over the parsed index entries of the file. -/
def loadFileEntries [LinearOrder α] (m : SnapManifest α) (bloom : Nat → α → Bool) (level : Nat)
    (data : String) (entries : List (α × Int × Int)) (buf : RedBlackTree α BufVal) :
    RedBlackTree α BufVal :=
  entries.foldl (fun b e => processEntry m bloom level data b e.1 e.2.1 e.2.2) buf

/-- The level ≥ 1 overlap test of `_runCompaction`: the three `if` branches
over `file.range` and `keyRange` (each branch loads the file and schedules
it for deletion, so the three tests act as one disjunction).  Transcribed
literally, including the comparisons of both endpoints against `keyRange[0]`
in the first branch and against `keyRange[1]` in the second. -/
def overlapCheck [LinearOrder α] (f : FileInfo α) (k0 k1 : α) : Bool :=
  (decide (k0 ≤ f.range0) && decide (f.range1 ≤ k0)) ||
  (decide (k1 ≤ f.range0) && decide (f.range1 ≤ k1)) ||
  (decide (k0 ≤ f.range0) && decide (f.range1 ≤ k1))

/-- Modelled from the spec: the intended overlap relation — the file's start
key falls within `[k0, k1]`, or its end key does, or the file's range fully
contains the selected range, or is fully contained in it. -/
def specOverlap [LinearOrder α] (f : FileInfo α) (k0 k1 : α) : Bool :=
  (decide (k0 ≤ f.range0) && decide (f.range0 ≤ k1)) ||
  (decide (k0 ≤ f.range1) && decide (f.range1 ≤ k1)) ||
  (decide (f.range0 ≤ k0) && decide (k1 ≤ f.range1)) ||
  (decide (k0 ≤ f.range0) && decide (f.range1 ≤ k1))

/-- The files of level `i + 1` loaded (and scheduled for deletion) by the
level ≥ 1 branch: exactly those passing `overlapCheck`. -/
def overlappingFiles [LinearOrder α] (files : List (FileInfo α)) (k0 k1 : α) :
    List (FileInfo α) :=
  files.filter (fun f => overlapCheck f k0 k1)

/-- The outcome of the cursor bookkeeping of the level ≥ 1 branch. -/
structure LevelPick (α : Type) where
  keyRange : Option (α × α)
  compAfter : Nat
  ownLoaded : List (FileInfo α)
deriving Repr, DecidableEq

/-- The round-robin selection of the level ≥ 1 branch of `_runCompaction`,
transcribed literally: wrap `lvl.comp` to 0 when it reaches the file count;
read `keyRange` from the file at index `lvl.comp` (a `forEach` keeping the
last match); increment `lvl.comp`; then the “grab newest changes” loop loads
(and schedules for deletion) every file whose index `k` satisfies
`lvl.comp === k` — with the already-incremented cursor. -/
def selectCompaction (lvl : SnapLevel α) : LevelPick α :=
  let comp0 := if lvl.files.length ≤ lvl.comp then 0 else lvl.comp
  let keyRange := lvl.files.enum.foldl
    (fun acc fk => if comp0 = fk.1 then some (fk.2.range0, fk.2.range1) else acc) none
  let comp1 := comp0 + 1
  { keyRange := keyRange
    compAfter := comp1
    ownLoaded := (lvl.files.enum.filter (fun fk => comp1 = fk.1)).map (·.2) }

/-- Errors raised by the manifest read line of `_runCompaction`. -/
inductive JsError where
  | enoent       -- fs.readFileSync throws when the file is missing
  | syntaxError  -- JSON.parse throws on malformed input
deriving Repr, DecidableEq

/-- The literal `'\x7b"inc": 0, "lvl": []\x7d'` fallback text. -/
def defaultManifestText : String := "\x7b\"inc\": 0, \"lvl\": []\x7d"

/-- The manifest-loading line of `_runCompaction`:
`JSON.parse((fs.readFileSync(path) || new Buffer([])).toString("utf-8") || defaultText)`.
`fs.readFileSync` throws (ENOENT) when the file is absent — it never returns
a falsy value, so `|| new Buffer([])` is dead code; a present file's text is
substituted by the default literal only when it is the empty string; and
`JSON.parse` throws on malformed text.  `parse` is the JSON.parse oracle for
manifest documents (`none` models a SyntaxError). -/
def loadManifest (parse : String → Option (SnapManifest α)) :
    Option String → Except JsError (SnapManifest α)
  | none => .error .enoent
  | some s =>
    match parse (if s = "" then defaultManifestText else s) with
    | some m => .ok m
    | none => .error .syntaxError

/-! ## Heap embedding of the tree operations

Here nodes live at addresses of an allocation list (`new RBNode(...)`
appends a cell, a field assignment rewrites a cell) and the source's
reference comparisons (`===`) are address comparisons.  Loops that chase
pointers carry fuel; on the heaps the source actually builds (acyclic,
well-formed) the fuel never runs out, and the persistence theorem holds for
every fuel value.  Writes to freshly allocated nodes that the source
performs field by field before the node is reachable from anywhere old are
collapsed into the allocation of the final record. -/

/-- One heap cell: the fields of an `RBNode`, children as addresses. -/
structure NodeR (α β : Type) where
  color : Color
  key : α
  value : β
  left : Option Nat
  right : Option Nat
  count : Nat
deriving Repr, DecidableEq

/-- The heap: nodes in allocation order; a node's address is its index. -/
abbrev Heap (α β : Type) := List (NodeR α β)

/-- Dereference an address. -/
def readH (h : Heap α β) (a : Nat) : Option (NodeR α β) := h[a]?

/-- Overwrite the cell at an address. -/
def writeH (h : Heap α β) (a : Nat) (r : NodeR α β) : Heap α β := h.set a r

/-- `new RBNode(...)`: append a cell, returning its address. -/
def allocH (h : Heap α β) (r : NodeR α β) : Heap α β × Nat := (h ++ [r], h.length)

/-- `x ? x._count : 0` for a child pointer. -/
def countRef (h : Heap α β) : Option Nat → Nat
  | none => 0
  | some x =>
    match readH h x with
    | some nd => nd.count
    | none => 0

/-- Color of a possibly-null reference (null and dangling read as black, as
in `RBNode.color`). -/
def colorRef (h : Heap α β) : Option Nat → Color
  | none => .black
  | some x =>
    match readH h x with
    | some nd => nd.color
    | none => .black

/-- `recount(node)`. -/
def recountH (h : Heap α β) (a : Nat) : Heap α β :=
  match readH h a with
  | none => h
  | some nd => writeH h a { nd with count := 1 + countRef h nd.left + countRef h nd.right }

/-- The search loop of `insert`: collects `n_stack` (as addresses) and
`d_stack`. -/
def searchH (cmp : α → α → Int) (key : α) (h : Heap α β) :
    Nat → Option Nat → List Nat × List Int → List Nat × List Int
  | 0, _, acc => acc
  | _ + 1, none, acc => acc
  | fuel + 1, some a, acc =>
    match readH h a with
    | none => acc  -- dangling pointer: unreachable on well-formed heaps
    | some nd =>
      let d := cmp key nd.key
      searchH cmp key h fuel (if d ≤ 0 then nd.left else nd.right) (acc.1 ++ [a], acc.2 ++ [d])

/-- The path-rebuild loop of `insert`
(`for (var s = n_stack.length - 2; s >= 0; --s) …`): allocate copies with
the on-path child substituted and the count incremented.  Input pairs
`(address, d)` are deepest-first; the output stack is root-first with the
incoming child's address appended. -/
def rebuildGo (h : Heap α β) : List (Nat × Int) → Nat → Heap α β × List Nat
  | [], childA => (h, [childA])
  | (a, d) :: rest, childA =>
    match readH h a with
    | none => (h, [childA])  -- unreachable on well-formed heaps
    | some nd =>
      let copy := if d ≤ 0 then { nd with left := some childA, count := nd.count + 1 }
                  else { nd with right := some childA, count := nd.count + 1 }
      let p2 := allocH h copy
      let p3 := rebuildGo p2.1 rest p2.2
      (p3.1, p3.2 ++ [childA])

/-- `if (s >= 3) { ppp.left === pp ? ppp.left = x : ppp.right = x }`
(the insert-rebalance epilogue; `i`/`s` is the index of `n`, the relinked
ancestor sits at `i - 3 + 1 = i - 2` below).  `checkLeftFirst` selects the
branch order of the source (`LL`/`LR` compare `ppp.left` first, `RR`/`RL`
compare `ppp.right` first); the two orders only differ on heaps where both
children alias, which well-formed heaps exclude. -/
def relinkH (checkLeftFirst : Bool) (h : Heap α β) (pppA oldA newA : Nat) : Heap α β :=
  match readH h pppA with
  | none => h
  | some ppp =>
    if checkLeftFirst then
      if ppp.left = some oldA then writeH h pppA { ppp with left := some newA }
      else writeH h pppA { ppp with right := some newA }
    else
      if ppp.right = some oldA then writeH h pppA { ppp with right := some newA }
      else writeH h pppA { ppp with left := some newA }

/-- Guarded relink used by both rebalance loops: only fires when an ancestor
exists at `stack[j]`. -/
def relinkAt (checkLeftFirst : Bool) (h : Heap α β) (stack : List Nat) (j : Nat)
    (oldA newA : Nat) : Heap α β :=
  match stack[j]? with
  | none => h
  | some pppA => relinkH checkLeftFirst h pppA oldA newA

/-- The rebalance loop of `insert` on the heap
(`for (var s = n_stack.length - 1; s > 1; --s)`).  Recolor cases continue
two levels up; rotation cases relink and stop. -/
def rebalanceH (h : Heap α β) (stack : List Nat) (s : Nat) : Heap α β × List Nat :=
  if s ≤ 1 then (h, stack)
  else
    match stack[s]?, stack[s - 1]?, stack[s - 2]? with
    | some nA, some pA, some ppA =>
      match readH h nA, readH h pA, readH h ppA with
      | some n, some p, some pp =>
        if p.color = .black ∨ n.color = .black then (h, stack)
        else if pp.left = some pA then
          if p.left = some nA then
            if colorRef h pp.right = .red then
              -- LLr: p._color = BLACK; pp.right = repaint(BLACK, y); pp._color = RED
              let h1 := writeH h pA { p with color := .black }
              let py := match pp.right with
                        | some yA =>
                          match readH h1 yA with
                          | some y => allocH h1 { y with color := .black }
                          | none => (h1, 0)
                        | none => (h1, 0)
              let h3 := writeH py.1 ppA { pp with right := some py.2, color := .red }
              rebalanceH h3 stack (s - 2)
            else
              -- LLb: pp red, pp.left = p.right; p black, p.right = pp; recounts; relink
              let h1 := writeH h ppA { pp with color := .red, left := p.right }
              let h2 := writeH h1 pA { p with color := .black, right := some ppA }
              let h3 := recountH (recountH h2 ppA) pA
              let h4 := if 3 ≤ s then relinkAt true h3 stack (s - 3) ppA pA else h3
              (h4, (stack.set (s - 2) pA).set (s - 1) nA)
          else
            if colorRef h pp.right = .red then
              -- LRr (same recolor step)
              let h1 := writeH h pA { p with color := .black }
              let py := match pp.right with
                        | some yA =>
                          match readH h1 yA with
                          | some y => allocH h1 { y with color := .black }
                          | none => (h1, 0)
                        | none => (h1, 0)
              let h3 := writeH py.1 ppA { pp with right := some py.2, color := .red }
              rebalanceH h3 stack (s - 2)
            else
              -- LRb: p.right = n.left; pp red, pp.left = n.right; n black, n.left = p,
              -- n.right = pp; recounts; relink to n
              let h1 := writeH h pA { p with right := n.left }
              let h2 := writeH h1 ppA { pp with color := .red, left := n.right }
              let h3 := writeH h2 nA { n with color := .black, left := some pA, right := some ppA }
              let h4 := recountH (recountH (recountH h3 ppA) pA) nA
              let h5 := if 3 ≤ s then relinkAt true h4 stack (s - 3) ppA nA else h4
              (h5, (stack.set (s - 2) nA).set (s - 1) pA)
        else
          if p.right = some nA then
            if colorRef h pp.left = .red then
              -- RRr: p._color = BLACK; pp.left = repaint(BLACK, y); pp._color = RED
              let h1 := writeH h pA { p with color := .black }
              let py := match pp.left with
                        | some yA =>
                          match readH h1 yA with
                          | some y => allocH h1 { y with color := .black }
                          | none => (h1, 0)
                        | none => (h1, 0)
              let h3 := writeH py.1 ppA { pp with left := some py.2, color := .red }
              rebalanceH h3 stack (s - 2)
            else
              -- RRb: pp red, pp.right = p.left; p black, p.left = pp; recounts; relink
              let h1 := writeH h ppA { pp with color := .red, right := p.left }
              let h2 := writeH h1 pA { p with color := .black, left := some ppA }
              let h3 := recountH (recountH h2 ppA) pA
              let h4 := if 3 ≤ s then relinkAt false h3 stack (s - 3) ppA pA else h3
              (h4, (stack.set (s - 2) pA).set (s - 1) nA)
          else
            if colorRef h pp.left = .red then
              -- RLr
              let h1 := writeH h pA { p with color := .black }
              let py := match pp.left with
                        | some yA =>
                          match readH h1 yA with
                          | some y => allocH h1 { y with color := .black }
                          | none => (h1, 0)
                        | none => (h1, 0)
              let h3 := writeH py.1 ppA { pp with left := some py.2, color := .red }
              rebalanceH h3 stack (s - 2)
            else
              -- RLb: p.left = n.right; pp red, pp.right = n.left; n black, n.right = p,
              -- n.left = pp; recounts; relink to n
              let h1 := writeH h pA { p with left := n.right }
              let h2 := writeH h1 ppA { pp with color := .red, right := n.left }
              let h3 := writeH h2 nA { n with color := .black, left := some ppA, right := some pA }
              let h4 := recountH (recountH (recountH h3 ppA) pA) nA
              let h5 := if 3 ≤ s then relinkAt false h4 stack (s - 3) ppA nA else h4
              (h5, (stack.set (s - 2) nA).set (s - 1) pA)
      | _, _, _ => (h, stack)  -- unreachable on well-formed heaps
    | _, _, _ => (h, stack)  -- unreachable: the loop range is inside the stack
termination_by s
decreasing_by all_goals omega

/-- `RedBlackTree.prototype.insert` on the heap. -/
def insertH (cmp : α → α → Int) (h : Heap α β) (rootA : Option Nat) (key : α) (value : β) :
    Heap α β × Option Nat :=
  let sd := searchH cmp key h (h.length + 1) rootA ([], [])
  let p1 := allocH h ⟨.red, key, value, none, none, 1⟩
  let p2 := rebuildGo p1.1 ((sd.1.zip sd.2).reverse) p1.2
  let p3 := rebalanceH p2.1 p2.2 (p2.2.length - 1)
  match p3.2[0]? with
  | some a0 =>
    match readH p3.1 a0 with
    | some nd => (writeH p3.1 a0 { nd with color := .black }, some a0)
    | none => (p3.1, some a0)  -- unreachable
  | none => (p3.1, rootA)  -- unreachable: the stack holds at least the new leaf

/-- The path-copy loop shared by `iterator.update` and `iterator.remove`:
copy the stack bottom-up (the deepest node through `f`), substituting the
on-path child, identified by the address comparison
`n.left === stack[i + 1]`.  Returns the copied stack, root first. -/
def copyStackH (h : Heap α β) (f : NodeR α β → NodeR α β) :
    List Nat → Heap α β × List Nat
  | [] => (h, [])
  | [a] =>
    match readH h a with
    | none => (h, [])  -- unreachable
    | some nd =>
      let p := allocH h (f nd)
      (p.1, [p.2])
  | a :: a1 :: rest =>
    let p := copyStackH h f (a1 :: rest)
    match readH h a, p.2.head? with
    | some nd, some newChild =>
      let copy := if nd.left = some a1 then { nd with left := some newChild }
                  else { nd with right := some newChild }
      let q := allocH p.1 copy
      (q.1, q.2 :: p.2)
    | _, _ => (p.1, p.2)  -- unreachable

/-- `RedBlackTreeIterator.prototype.update`: throws on an empty stack
(modelled as result `none` with the heap untouched); otherwise path-copies
with the value replaced at the current node. -/
def updateH (h : Heap α β) (stack : List Nat) (value : β) : Heap α β × Option Nat :=
  match stack with
  | [] => (h, none)
  | _ :: _ =>
    let p := copyStackH h (fun nd => { nd with value := value }) stack
    (p.1, p.2.head?)

/-- `cstack[i]._count--` over a list of addresses. -/
def decCounts (h : Heap α β) : List Nat → Heap α β
  | [] => h
  | a :: rest =>
    match readH h a with
    | some nd => decCounts (writeH h a { nd with count := nd.count - 1 }) rest
    | none => decCounts h rest


/-- The walk-to-predecessor loop of `iterator.remove`
(`n = n.left; while (n.right) { cstack.push(n); n = n.right }`): collects the
intermediate (original) addresses in walk order and returns the rightmost
address. -/
def walkRightH (h : Heap α β) : Nat → Nat → List Nat → List Nat × Nat
  | 0, a, acc => (acc, a)  -- fuel exhausted: unreachable on acyclic heaps
  | fuel + 1, a, acc =>
    match readH h a with
    | none => (acc, a)  -- unreachable on well-formed heaps
    | some nd =>
      match nd.right with
      | none => (acc, a)
      | some rA => walkRightH h fuel rA (acc ++ [a])

/-- The copy-fixup loop after the predecessor walk
(`for (var i = cstack.length - 2; i >= split; --i)
   cstack[i] = new RBNode(n._color, n.key, n.value, n.left, cstack[i + 1], n._count)`):
replace each walked original by a fresh copy whose right child is the next
copy; `bottomA` is the node pushed at `cstack.length - 1`.  Returns the new
addresses in stack order with `bottomA` at the end. -/
def predFixupH (h : Heap α β) (ms : List Nat) (bottomA : Nat) : Heap α β × List Nat :=
  match ms with
  | [] => (h, [bottomA])
  | m :: rest =>
    let p := predFixupH h rest bottomA
    match readH h m, p.2.head? with
    | some nd, some c =>
      let q := allocH p.1 { nd with right := some c }
      (q.1, q.2 :: p.2)
    | _, _ => p  -- unreachable

/-- `fixDoubleBlack(cstack)` on the heap.  `i` is the loop index, `stack`
the (mutable) `cstack`; case 3 rewrites `stack[i-1..i+1]` and re-runs the
loop at `i + 1`, the black-sibling/black-parent case continues at `i - 1`.
Allocations stand for `cloneNode`/`repaint`; every heap write lands on a
stack member or a fresh clone.  Fuel-bounded (sufficient fuel is supplied by
the caller; the persistence theorem holds for every fuel). -/
def fixDBH (h : Heap α β) (stack : List Nat) : Nat → Nat → Heap α β
  | 0, _ => h  -- fuel exhausted: unreachable for well-formed inputs
  | fuel + 1, i =>
    match stack[i]? with
    | none => h  -- unreachable
    | some nA =>
      match readH h nA with
      | none => h  -- unreachable
      | some n =>
        if i = 0 then writeH h nA { n with color := .black }
        else
          match stack[i - 1]? with
          | none => h  -- unreachable
          | some pA =>
            match readH h pA with
            | none => h  -- unreachable
            | some p =>
              if p.left = some nA then
                -- left child: s = p.right
                match p.right with
                | none => h  -- the source throws reading the null sibling; unreachable
                | some sA =>
                  match readH h sA with
                  | none => h  -- unreachable
                  | some s =>
                    if colorRef h s.right = .red then
                      -- case 1: right sibling child red
                      match s.right with
                      | some zA0 =>
                        match readH h zA0 with
                        | some z =>
                          let pz := allocH h { z with color := .black }
                          let ps := allocH pz.1
                            { s with left := some pA, right := some pz.2, color := p.color }
                          let h3 := writeH ps.1 pA { p with right := s.left, color := .black }
                          let h4 := writeH h3 nA { n with color := .black }
                          let h5 := recountH (recountH h4 pA) ps.2
                          if 1 < i then relinkAt true h5 stack (i - 2) pA ps.2 else h5
                        | none => h  -- unreachable
                      | none => h  -- unreachable
                    else if colorRef h s.left = .red then
                      -- case 1: left sibling child red (double rotation)
                      match s.left with
                      | some zA0 =>
                        match readH h zA0 with
                        | some z =>
                          let ps := allocH h { s with left := z.right, color := .black }
                          let pz := allocH ps.1
                            { z with left := some pA, right := some ps.2, color := p.color }
                          let h3 := writeH pz.1 pA { p with right := z.left, color := .black }
                          let h4 := writeH h3 nA { n with color := .black }
                          let h5 := recountH (recountH (recountH h4 pA) ps.2) pz.2
                          if 1 < i then relinkAt true h5 stack (i - 2) pA pz.2 else h5
                        | none => h  -- unreachable
                      | none => h  -- unreachable
                    else if s.color = .black then
                      -- case 2: black sibling; recolor, stop on red parent else bubble up
                      let ps := allocH h { s with color := .red }
                      if p.color = .red then
                        writeH ps.1 pA { p with color := .black, right := some ps.2 }
                      else
                        fixDBH (writeH ps.1 pA { p with right := some ps.2 }) stack fuel (i - 1)
                    else
                      -- case 3: red sibling; rotate s above p and retry at i + 1
                      let ps := allocH h { s with left := some pA, color := p.color }
                      let h2 := writeH ps.1 pA { p with right := s.left, color := .red }
                      let h3 := recountH (recountH h2 pA) ps.2
                      let h4 := if 1 < i then relinkAt true h3 stack (i - 2) pA ps.2 else h3
                      let stack2 := (stack.set (i - 1) ps.2).set i pA
                      let stack3 := if i + 1 < stack2.length then stack2.set (i + 1) nA
                                    else stack2 ++ [nA]
                      fixDBH h4 stack3 fuel (i + 1)
              else
                -- right child: s = p.left
                match p.left with
                | none => h  -- the source throws reading the null sibling; unreachable
                | some sA =>
                  match readH h sA with
                  | none => h  -- unreachable
                  | some s =>
                    if colorRef h s.left = .red then
                      -- case 1: left sibling child red
                      match s.left with
                      | some zA0 =>
                        match readH h zA0 with
                        | some z =>
                          let pz := allocH h { z with color := .black }
                          let ps := allocH pz.1
                            { s with left := some pz.2, right := some pA, color := p.color }
                          let h3 := writeH ps.1 pA { p with left := s.right, color := .black }
                          let h4 := writeH h3 nA { n with color := .black }
                          let h5 := recountH (recountH h4 pA) ps.2
                          if 1 < i then relinkAt false h5 stack (i - 2) pA ps.2 else h5
                        | none => h  -- unreachable
                      | none => h  -- unreachable
                    else if colorRef h s.right = .red then
                      -- case 1: right sibling child red (double rotation)
                      match s.right with
                      | some zA0 =>
                        match readH h zA0 with
                        | some z =>
                          let ps := allocH h { s with right := z.left, color := .black }
                          let pz := allocH ps.1
                            { z with left := some ps.2, right := some pA, color := p.color }
                          let h3 := writeH pz.1 pA { p with left := z.right, color := .black }
                          let h4 := writeH h3 nA { n with color := .black }
                          let h5 := recountH (recountH (recountH h4 pA) ps.2) pz.2
                          if 1 < i then relinkAt false h5 stack (i - 2) pA pz.2 else h5
                        | none => h  -- unreachable
                      | none => h  -- unreachable
                    else if s.color = .black then
                      let ps := allocH h { s with color := .red }
                      if p.color = .red then
                        writeH ps.1 pA { p with color := .black, left := some ps.2 }
                      else
                        fixDBH (writeH ps.1 pA { p with left := some ps.2 }) stack fuel (i - 1)
                    else
                      -- case 3: red sibling
                      let ps := allocH h { s with right := some pA, color := p.color }
                      let h2 := writeH ps.1 pA { p with left := s.right, color := .red }
                      let h3 := recountH (recountH h2 pA) ps.2
                      let h4 := if 1 < i then relinkAt false h3 stack (i - 2) pA ps.2 else h3
                      let stack2 := (stack.set (i - 1) ps.2).set i pA
                      let stack3 := if i + 1 < stack2.length then stack2.set (i + 1) nA
                                    else stack2 ++ [nA]
                      fixDBH h4 stack3 fuel (i + 1)

/-- The leaf-removal cases of `iterator.remove` (after the copy and the
optional predecessor swap); `cs` is the copied stack. -/
def removePhase3 (h : Heap α β) (cs : List Nat) : Heap α β × Option Nat :=
  match cs.getLast? with
  | none => (h, none)  -- unreachable
  | some nA =>
    match readH h nA with
    | none => (h, cs.head?)  -- unreachable
    | some n =>
      if n.color = .red then
        -- red leaf: unlink from the parent, pop, decrement every count
        match cs[cs.length - 2]? with
        | some pA =>
          let h2 :=
            match readH h pA with
            | some p =>
              if p.left = some nA then writeH h pA { p with left := none }
              else if p.right = some nA then writeH h pA { p with right := none }
              else h
            | none => h
          (decCounts h2 (cs.take (cs.length - 1)), cs.head?)
        | none => (h, cs.head?)  -- removing a red root: impossible on valid trees
      else if n.left ≠ none ∨ n.right ≠ none then
        -- black node, single child: swapNode(n, child); n._color = BLACK
        let childA := if n.left ≠ none then n.left else n.right
        let h2 :=
          match childA with
          | some cA =>
            match readH h cA with
            | some cnd => writeH h nA { cnd with color := .black }
            | none => h
          | none => h
        (decCounts h2 (cs.take (cs.length - 1)), cs.head?)
      else if cs.length = 1 then
        (h, none)  -- black childless root: the tree becomes empty
      else
        -- hard case: decrement all counts, run the double-black fixup, then
        -- detach n from the parent captured before the fixup
        let h2 := decCounts h cs
        let h3 := fixDBH h2 cs (2 * h2.length + 8) (cs.length - 1)
        match cs[cs.length - 2]? with
        | some pA =>
          let h4 :=
            match readH h3 pA with
            | some p =>
              if p.left = some nA then writeH h3 pA { p with left := none }
              else writeH h3 pA { p with right := none }
            | none => h3
          (h4, cs.head?)
        | none => (h3, cs.head?)  -- unreachable: cs.length ≥ 2 here

/-- The predecessor-swap phase of `iterator.remove`: if the copied current
node has two children, walk to its in-order predecessor, push a fresh node
carrying the deleted key/value with the predecessor's structure, move the
predecessor's key/value into the deletion point, copy the walked spine, and
relink. -/
def removePhase2 (h : Heap α β) (cs : List Nat) : Heap α β × Option Nat :=
  match cs.getLast? with
  | none => (h, none)  -- unreachable
  | some nA =>
    match readH h nA with
    | none => (h, cs.head?)  -- unreachable
    | some n =>
      match n.left, n.right with
      | some lA, some _ =>
        let w := walkRightH h (h.length + 1) lA []
        match readH h w.2 with
        | none => (h, cs.head?)  -- unreachable
        | some leafnd =>
          let pp := allocH h ⟨leafnd.color, n.key, n.value, leafnd.left, leafnd.right, leafnd.count⟩
          let h3 := writeH pp.1 nA { n with key := leafnd.key, value := leafnd.value }
          let pf := predFixupH h3 w.1 pp.2
          let h5 :=
            match pf.2.head? with
            | some topPred =>
              match readH pf.1 nA with
              | some nd2 => writeH pf.1 nA { nd2 with left := some topPred }
              | none => pf.1
            | none => pf.1  -- unreachable
          removePhase3 h5 (cs ++ pf.2)
      | _, _ => removePhase3 h cs

/-- `RedBlackTreeIterator.prototype.remove` on the heap: an empty stack
returns the tree unchanged; otherwise copy the path and run the removal. -/
def removeH (h : Heap α β) (stack : List Nat) (rootA : Option Nat) : Heap α β × Option Nat :=
  match stack with
  | [] => (h, rootA)
  | _ :: _ =>
    let p := copyStackH h id stack
    removePhase2 p.1 p.2

/-- `get` on the heap (fuel-bounded descent). -/
def getH (cmp : α → α → Int) (key : α) (h : Heap α β) : Nat → Option Nat → Option β
  | 0, _ => none
  | _ + 1, none => none
  | fuel + 1, some a =>
    match readH h a with
    | none => none
    | some nd =>
      let d := cmp key nd.key
      if d = 0 then some nd.value
      else if d ≤ 0 then getH cmp key h fuel nd.left
      else getH cmp key h fuel nd.right

/-- `length` on the heap: `root ? root._count : 0`. -/
def lengthH (h : Heap α β) (rootA : Option Nat) : Nat := countRef h rootA

/-- `keys()` on the heap: in-order traversal. -/
def keysH (h : Heap α β) : Nat → Option Nat → List α
  | 0, _ => []
  | _ + 1, none => []
  | fuel + 1, some a =>
    match readH h a with
    | none => []
    | some nd => keysH h fuel nd.left ++ nd.key :: keysH h fuel nd.right

/-- `find` on the heap: the resulting iterator stack ( `[]` = invalid). -/
def findH (cmp : α → α → Int) (key : α) (h : Heap α β) :
    Nat → Option Nat → List Nat → List Nat
  | 0, _, _ => []
  | _ + 1, none, _ => []
  | fuel + 1, some a, acc =>
    match readH h a with
    | none => []
    | some nd =>
      let d := cmp key nd.key
      if d = 0 then acc ++ [a]
      else if d ≤ 0 then findH cmp key h fuel nd.left (acc ++ [a])
      else findH cmp key h fuel nd.right (acc ++ [a])

/-- A child pointer that stays inside the heap. -/
def okRef (len : Nat) : Option Nat → Bool
  | none => true
  | some x => x < len

/-- Well-formed heap: every stored child pointer is a valid address. -/
def WFHeapB (h : Heap α β) : Bool :=
  h.all fun nd => okRef h.length nd.left && okRef h.length nd.right

/-! ## Proof-support definitions

Path invariants for the ancestor-stack (frame list) representation; these
are the loop invariants of the rebalance and double-black-fixup proofs. -/

/-- Red-red cleanliness of an ancestor stack: each frame's off-path subtree
is clean, a red frame has a black-rooted off-path child, and no two
consecutive frames are both red.  (The edge between the deepest frame and
the current subtree is treated separately by each proof.) -/
def pathRR : List (Frame α β) → Prop
  | [] => True
  | f :: rest =>
    noRedRedB f.other = true ∧ (f.color = .red → f.other.color = .black) ∧
    (∀ g ∈ rest.head?, ¬(f.color = .red ∧ g.color = .red)) ∧ pathRR rest

/-- Head-edge compatibility: the current subtree's root color against the
deepest remaining frame. -/
def pathRRtop (frames : List (Frame α β)) (c : Color) : Prop :=
  ∀ g ∈ frames.head?, ¬(c = .red ∧ g.color = .red)

/-- Black-height consistency of an ancestor stack: `h` is the black height
required of the path child at the current depth; each frame's off-path
subtree matches it, and the requirement grows by one across black frames. -/
def pathBH : List (Frame α β) → Nat → Prop
  | [], _ => True
  | f :: rest, h =>
    bh f.other = some h ∧ pathBH rest (h + (if f.color = .black then 1 else 0))

/-- Count consistency of an ancestor stack: `c` is the stored count of the
path child; each frame's stored count is `1 + c + count(other)` and the
off-path subtree has consistent counts. -/
def pathCount : List (Frame α β) → Nat → Prop
  | [], _ => True
  | f :: rest, c =>
    f.count = 1 + c + f.other.count ∧ countOkB f.other = true ∧ pathCount rest f.count

/-- The color of the outermost frame (the tree root while a stack is open);
`none` for the empty stack. -/
def topColor (frames : List (Frame α β)) : Option Color :=
  frames.getLast?.map Frame.color

/-- Concrete manifest for the tombstone scenario: levels 0 and 1 empty,
level 2 holding file 7 with range `[0, 100]`. -/
def C1manifest : SnapManifest Int :=
  ⟨0, [⟨0, []⟩, ⟨0, []⟩, ⟨0, [⟨7, 0, 100⟩]⟩]⟩

/-- Merge buffer that already holds a value entry for key 5, as produced by
loading an older file's live entry for that key. -/
def C1buf : RedBlackTree Int BufVal :=
  (createRBTree defaultCompare).insert 5 (.raw "v1")

/-- A minimal JSON.parse oracle for manifest documents: it parses exactly
the fallback literal (to the empty manifest) and nothing else. -/
def parseDefaultOnly : String → Option (SnapManifest Int) :=
  fun s => if s = defaultManifestText then some ⟨0, []⟩ else none

/-- `h2` extends `h` without touching the cells below `lo`. -/
def Pres (lo : Nat) (h h2 : Heap α β) : Prop :=
  h.length ≤ h2.length ∧ ∀ a, a < lo → h2[a]? = h[a]?

/-- Every address of the list is at or above `lo` (i.e. freshly allocated
relative to the heap before the operation). -/
def GoodStack (lo : Nat) (stack : List Nat) : Prop := ∀ a ∈ stack, lo ≤ a

/-- The fold computed by `Cursor.index` over an ancestor stack, from a base
rank. -/
def idxSum (frames : List (Frame α β)) (base : Nat) : Nat :=
  frames.foldl
    (fun idx f => match f.dir with | .right => idx + 1 + f.other.count | .left => idx) base

/-- Total size carried by an ancestor stack: one node per frame plus its
off-path subtree. -/
def framesSize : List (Frame α β) → Nat
  | [] => 0
  | f :: rest => 1 + f.other.size + framesSize rest

end SnapDB

namespace SnapDB

/-! ## Theorems -/

/-- A truthy (non-nil) test collapses to equality with `nil`. -/
theorem isNil_true {n : RBNode α β} (h : n.isNil = true) : n = .nil := by
  cases n
  · rfl
  · simp [RBNode.isNil] at h

/-- A nil node has stored count 0. -/
theorem isNil_count {n : RBNode α β} (h : n.isNil = true) : n.count = 0 := by
  rw [isNil_true h]; rfl

/-- The default comparator is reflexive to 0. -/
theorem defaultCompare_self [LinearOrder α] (k : α) : defaultCompare k k = 0 := by
  simp [defaultCompare]

/-- Unfolding of the count invariant at a node. -/
theorem countOkB_node {c : Color} {k : α} {v : β} {l r : RBNode α β} {cnt : Nat} :
    countOkB (.node c k v l r cnt) = true ↔
      cnt = 1 + l.count + r.count ∧ countOkB l = true ∧ countOkB r = true := by
  simp [countOkB, and_assoc]

/-- Claim C9 (code bug): the claim states that an absent or unreadable/corrupt
manifest is not fatal and the pass proceeds with the empty manifest
`{inc: 0, lvl: []}`.  On the code, only a *present but empty* manifest file
takes the `|| '{"inc": 0, "lvl": []}'` fallback; an absent file makes
`fs.readFileSync` throw ENOENT (the `|| new Buffer([])` guard is dead code,
since `readFileSync` never returns a falsy value), and corrupt JSON makes
`JSON.parse` throw — in both cases `_runCompaction` fails.  This theorem
evaluates the manifest-read line at the three file states. -/
theorem C9_manifest_absent_throws :
    loadManifest parseDefaultOnly none = .error .enoent ∧
    loadManifest parseDefaultOnly (some "not json") = .error .syntaxError ∧
    loadManifest parseDefaultOnly (some "") = .ok ⟨0, []⟩ :=
  ⟨rfl, rfl, rfl⟩

/-- Claim C2 (code bug): the claim states a level `i+1` file is loaded iff
its range overlaps the selected file's range (start within, end within, or
containment).  The transcribed test `overlapCheck` compares both of the
file's endpoints against the same bound in its first two branches, so the
file with range `[5, 15]` — whose start key 5 falls inside the selected
range `[0, 10]`, an overlap the claim (and the source's own comments)
require to be loaded — fails all three branches and is skipped. -/
theorem C2_overlap_check_misses_overlapping_file :
    overlapCheck (⟨1, 5, 15⟩ : FileInfo Int) 0 10 = false ∧
    specOverlap (⟨1, 5, 15⟩ : FileInfo Int) 0 10 = true ∧
    overlappingFiles [(⟨1, 5, 15⟩ : FileInfo Int)] 0 10 = [] := by decide

/-- Claim C3 (code bug): the claim states the file selected by the
compaction cursor (whose range drives the overlap search) is itself loaded
last and scheduled for deletion, for every cursor position.  The source
increments `lvl.comp` *before* the “grab newest changes” loop, which
compares `lvl.comp === k`; so with files `[A, B]` and cursor 0 the range of
`A` is used but `B` is the file loaded and deleted, and with the cursor on
the last file no own-level file is loaded at all. -/
theorem C3_cursor_increment_loads_next_file :
    (selectCompaction (⟨0, [⟨10, 0, 4⟩, ⟨11, 5, 9⟩]⟩ : SnapLevel Int)).keyRange = some (0, 4) ∧
    (selectCompaction (⟨0, [⟨10, 0, 4⟩, ⟨11, 5, 9⟩]⟩ : SnapLevel Int)).ownLoaded = [⟨11, 5, 9⟩] ∧
    (selectCompaction (⟨1, [⟨10, 0, 4⟩, ⟨11, 5, 9⟩]⟩ : SnapLevel Int)).ownLoaded = [] := by decide

/-- Claim C1 (code bug): the claim states that a tombstone key is kept in
the merge buffer as a tombstone iff `hasOlderValues` holds, and otherwise
the key is removed entirely so that neither value nor tombstone reaches the
output.  But `insert` on this tree never replaces: when the merge buffer
already holds a value entry for the key (loaded from an older file of the
same merge, here `C1buf` with `5 ↦ raw "v1"`), the kept tombstone is added
as a *second* entry below the value, `get` still answers the old value, and
both entries survive into the written output — the tombstone does not
shadow the value.  (Symmetrically, the `remove` branch deletes at most one
of several duplicate entries.) -/
theorem C1_tombstone_does_not_shadow_existing_value :
    hasOlderValues C1manifest (fun _ _ => true) 5 1 = true ∧
    (processEntry C1manifest (fun _ _ => true) 1 "" C1buf 5 (-1) 0).get 5 = some (.raw "v1") ∧
    (processEntry C1manifest (fun _ _ => true) 1 "" C1buf 5 (-1) 0).root.toList =
      [(5, .nullbyte), (5, .raw "v1")] := by decide

/-- Claim C4, counterexample: the claim asserts `insert(k,v1).insert(k,v2)`
then `get(k)` returns `v2`; on the code (starting from the empty tree with
the default comparator, `k = 0`, `v1 = 1`, `v2 = 2`) `get` returns `v1`. -/
theorem C4_counterexample :
    ¬ ((((createRBTree (defaultCompare : Int → Int → Int)).insert 0 1).insert 0 2).get 0
        = some 2) := by decide

/-- Claim C4, amended: a second insert of the same key does not replace the
stored value — the comparator ties route left, so the new entry is placed
below the old one and `get`, which answers at the first node where the
comparator returns 0, still returns the *first* value: for every key and
pair of values, from the empty tree,
`insert(k,v1).insert(k,v2).get(k) = v1`. -/
theorem C4_last_insert_does_not_win [LinearOrder α] (k : α) (v1 v2 : β) :
    (((createRBTree (defaultCompare : α → α → Int)).insert k v1).insert k v2).get k
      = some v1 := by
  simp [createRBTree, RedBlackTree.insert, RedBlackTree.get, buildStack, rebalance, repaint,
    getGo, Frame.fill, defaultCompare_self]

/-- Claim C8, counterexample: the claim asserts `at` is total on every tree
including the empty one; but on the empty tree with any index ≥ 0 the
descent loop pushes `null` and dereferences `null.left` — a TypeError
(modelled as `none`), not an invalid cursor. -/
theorem C8_counterexample :
    (createRBTree (defaultCompare : Int → Int → Int) : RedBlackTree Int Int).atIndex 0
      = none := by decide

/-- Claim C8, amended: on every *non-empty* tree with consistent counts
`at(idx)` is total and an invalid index (negative, or `≥ length`) yields the
invalid (empty-stack) cursor; on the empty tree only a negative index is
caught before the null root is dereferenced. -/
theorem C8_at_invalid_index_nonempty (t : RedBlackTree α β) (hc : countOkB t.root = true)
    (hne : t.root.isNil = false) (idx : Int)
    (hidx : idx < 0 ∨ (t.length : Int) ≤ idx) :
    t.atIndex idx = some .invalid := by
  rcases hidx with hneg | hge
  · simp [RedBlackTree.atIndex, hneg]
  · match ht : t.root with
    | .nil => rw [ht] at hne; simp [RBNode.isNil] at hne
    | .node c k v l r cnt =>
      rw [RedBlackTree.length, ht] at hge
      rw [ht] at hc
      obtain ⟨hcnt, hcl, hcr⟩ := countOkB_node.mp hc
      simp only [RBNode.count] at hge
      have h0 : ¬ idx < 0 := by omega
      rw [RedBlackTree.atIndex, if_neg h0, ht]
      show some (atLoop (RBNode.node c k v l r cnt) idx []) = some Cursor.invalid
      congr 1
      simp only [atLoop]
      have hln : (if l.isNil then idx else idx - (l.count : Int)) = idx - l.count := by
        by_cases hl : l.isNil = true
        · rw [if_pos hl, isNil_count hl]; simp
        · rw [if_neg hl]
      have h1 : ¬(¬ l.isNil = true ∧ idx < (l.count : Int)) := by
        rintro ⟨-, hlt⟩; omega
      rw [if_neg h1, hln]
      have h2 : ¬ (idx - (l.count : Int)) = 0 := by omega
      rw [if_neg h2]
      have h3 : ¬(¬ r.isNil = true ∧ idx - (l.count : Int) - 1 < (r.count : Int)) := by
        rintro ⟨-, hlt⟩; omega
      rw [if_neg h3]

/-- Witness for the amended C8 theorem at a concrete tree and index. -/
theorem C8_at_invalid_index_nonempty_witness :
    ((createRBTree (defaultCompare : Int → Int → Int)).insert 1 2).atIndex 5
      = some .invalid :=
  C8_at_invalid_index_nonempty _ (by decide) (by decide) 5 (Or.inr (by decide))

/-- One step of the index fold. -/
theorem idxSum_cons (f : Frame α β) (rest : List (Frame α β)) (base : Nat) :
    idxSum (f :: rest) base =
      idxSum rest (match f.dir with | .right => base + 1 + f.other.count | .left => base) := rfl

/-- The index fold over the empty stack. -/
theorem idxSum_nil (base : Nat) : idxSum ([] : List (Frame α β)) base = base := rfl

/-- The index fold is the base plus the frames' contribution. -/
theorem idxSum_base (frames : List (Frame α β)) (base : Nat) :
    idxSum frames base = base + idxSum frames 0 := by
  induction frames generalizing base with
  | nil => rfl
  | cons f rest ih =>
    cases hd : f.dir
    · simp only [idxSum_cons, hd]
      rw [ih]
    · simp only [idxSum_cons, hd]
      rw [ih]
      conv_rhs => rw [ih]
      omega

/-- The index fold over an appended stack. -/
theorem idxSum_append (l1 l2 : List (Frame α β)) (base : Nat) :
    idxSum (l1 ++ l2) base = idxSum l2 (idxSum l1 base) := by
  simp [idxSum, List.foldl_append]

/-- `Cursor.index` of a valid cursor is the index fold from the current
node's left count. -/
theorem index_valid (root : RBNode α β) (frames : List (Frame α β)) (cur : RBNode α β) :
    Cursor.index root (.valid frames cur) = idxSum frames cur.leftCount := rfl

/-- On a count-consistent subtree, the `at` descent with a rank inside the
subtree returns a valid cursor whose accumulated rank is exactly the
requested rank. -/
theorem atLoop_spec (n : RBNode α β) (hc : countOkB n = true) :
    ∀ (idx : Int) (acc : List (Frame α β)), 0 ≤ idx → idx < (n.count : Int) →
    ∃ fs cur, atLoop n idx acc = .valid (fs ++ acc) cur ∧
      (idxSum fs cur.leftCount : Int) = idx := by
  induction n with
  | nil => intro idx acc h0 hlt; simp [RBNode.count] at hlt; omega
  | node c k v l r cnt ihl ihr =>
    intro idx acc h0 hlt
    obtain ⟨hcnt, hcl, hcr⟩ := countOkB_node.mp hc
    simp only [RBNode.count] at hlt
    have hge_lc : ¬(¬ l.isNil = true ∧ idx < (l.count : Int)) → (l.count : Int) ≤ idx := by
      intro hA
      by_cases hl : l.isNil = true
      · rw [isNil_count hl]; omega
      · rcases not_and_or.mp hA with h | h
        · simp [hl] at h
        · omega
    simp only [atLoop]
    by_cases hA : ¬ l.isNil = true ∧ idx < (l.count : Int)
    · rw [if_pos hA]
      obtain ⟨fs, cur, heq, hsum⟩ := ihl hcl idx
        ({ color := c, key := k, value := v, other := r, count := cnt, dir := .left } :: acc)
        h0 hA.2
      refine ⟨fs ++ [{ color := c, key := k, value := v, other := r, count := cnt, dir := .left }],
        cur, ?_, ?_⟩
      · rw [heq, List.append_assoc]; rfl
      · rw [idxSum_append, idxSum_cons]; exact hsum
    · rw [if_neg hA]
      have hlc := hge_lc hA
      have hln : (if l.isNil then idx else idx - (l.count : Int)) = idx - l.count := by
        by_cases hl : l.isNil = true
        · rw [if_pos hl, isNil_count hl]; simp
        · rw [if_neg hl]
      rw [hln]
      by_cases hB : idx - (l.count : Int) = 0
      · rw [if_pos hB]
        refine ⟨[], .node c k v l r cnt, rfl, ?_⟩
        rw [idxSum_nil, RBNode.leftCount]
        omega
      · rw [if_neg hB]
        by_cases hC : ¬ r.isNil = true ∧ idx - (l.count : Int) - 1 < (r.count : Int)
        · rw [if_pos hC]
          obtain ⟨fs, cur, heq, hsum⟩ := ihr hcr (idx - l.count - 1)
            ({ color := c, key := k, value := v, other := l, count := cnt, dir := .right } :: acc)
            (by omega) hC.2
          refine ⟨fs ++ [{ color := c, key := k, value := v, other := l, count := cnt, dir := .right }],
            cur, ?_, ?_⟩
          · rw [heq, List.append_assoc]; rfl
          · rw [idxSum_append, idxSum_cons]
            simp only [idxSum_nil]
            push_cast
            omega
        · exfalso
          rcases not_and_or.mp hC with h | h
          · simp only [not_not] at h
            rw [isNil_count h] at hcnt
            omega
          · omega

/-- Unfolding of the ordering invariant at a node. -/
theorem OrderedB_node {cmp : α → α → Int} {c : Color} {k : α} {v : β} {l r : RBNode α β}
    {cnt : Nat} :
    OrderedB cmp (.node c k v l r cnt) = true ↔
      (∀ x ∈ l.keysN, cmp x k ≤ 0) ∧ (∀ y ∈ r.keysN, 0 < cmp y k) ∧
      OrderedB cmp l = true ∧ OrderedB cmp r = true := by
  simp [OrderedB, List.all_eq_true, and_assoc]

/-- The in-order keys of a node. -/
theorem keysN_node {c : Color} {k : α} {v : β} {l r : RBNode α β} {cnt : Nat} :
    (RBNode.node c k v l r cnt).keysN = l.keysN ++ k :: r.keysN := by
  simp [RBNode.keysN, RBNode.toList]

/-- The in-order key sequence of an order-consistent tree is ascending under
the comparator (given sign-antisymmetry of the comparator, part of the
strict-total-order contract the spec demands of it). -/
theorem keys_sorted (cmp : α → α → Int) (n : RBNode α β) (ho : OrderedB cmp n = true)
    (hflip : ∀ a b, 0 < cmp a b → cmp b a < 0) :
    List.Chain' (fun a b => cmp a b ≤ 0) n.keysN := by
  induction n with
  | nil => simp [RBNode.keysN, RBNode.toList]
  | node c k v l r cnt ihl ihr =>
    obtain ⟨hl, hr, hol, hor⟩ := OrderedB_node.mp ho
    rw [keysN_node, List.chain'_append]
    refine ⟨ihl hol, ?_, ?_⟩
    · rw [List.chain'_cons']
      refine ⟨?_, ihr hor⟩
      intro y hy
      have hmem : y ∈ r.keysN := List.mem_of_mem_head? hy
      have := hflip _ _ (hr y hmem)
      omega
    · intro x hx y hy
      simp only [List.head?_cons, Option.mem_def, Option.some.injEq] at hy
      subst hy
      obtain ⟨hne, rfl⟩ := List.mem_getLast?_eq_getLast hx
      exact hl _ (List.getLast_mem hne)

/-- Sign-antisymmetry of the default comparator. -/
theorem defaultCompare_flip [LinearOrder α] (a b : α) (h : 0 < defaultCompare a b) :
    defaultCompare b a < 0 := by
  unfold defaultCompare at h ⊢
  by_cases h1 : a < b
  · simp [h1] at h
  · by_cases h2 : b < a
    · simp [h2]
    · simp [h1, h2] at h

/-- Claim C7 (confirmed): on a tree with consistent counts and
binary-search ordering under a comparator satisfying the sign-antisymmetry
part of the comparator contract, for every valid index `i < length`:
`at(i)` returns a valid cursor whose `index()` is `i`, and `keys()` is
ascending under the comparator, so `keys()[i]` is the `i`-th key in sorted
order. -/
theorem C7_order_statistics_round_trip (t : RedBlackTree α β) (i : Nat)
    (hc : countOkB t.root = true)
    (ho : OrderedB t.compare t.root = true)
    (hflip : ∀ a b, 0 < t.compare a b → t.compare b a < 0)
    (hi : i < t.length) :
    (∃ fs cur, t.atIndex (i : Int) = some (.valid fs cur) ∧
      Cursor.index t.root (.valid fs cur) = i) ∧
    List.Chain' (fun a b => t.compare a b ≤ 0) t.keys := by
  constructor
  · have h0 : ¬ ((i : Int) < 0) := by omega
    match ht : t.root with
    | .nil =>
      rw [RedBlackTree.length, ht] at hi
      simp [RBNode.count] at hi
    | .node c k v l r cnt =>
      rw [RedBlackTree.length, ht] at hi
      obtain ⟨fs, cur, heq, hsum⟩ := atLoop_spec (RBNode.node c k v l r cnt) (ht ▸ hc)
        (i : Int) [] (by omega) (by simp only [RBNode.count] at hi ⊢; omega)
      rw [List.append_nil] at heq
      refine ⟨fs, cur, ?_, ?_⟩
      · rw [RedBlackTree.atIndex, if_neg h0, ht]
        show some (atLoop (RBNode.node c k v l r cnt) (i : Int) []) = some (.valid fs cur)
        rw [heq]
      · rw [index_valid]
        omega
  · exact keys_sorted _ _ ho hflip

/-- Witness for C7 at a concrete two-element tree and index 1. -/
theorem C7_order_statistics_round_trip_witness :
    (∃ fs cur,
      (((createRBTree (defaultCompare : Int → Int → Int)).insert 1 10).insert 2 20).atIndex
          ((1 : Nat) : Int) = some (.valid fs cur) ∧
      Cursor.index
          (((createRBTree (defaultCompare : Int → Int → Int)).insert 1 10).insert 2 20).root
          (.valid fs cur) = 1) ∧
    List.Chain'
      (fun a b =>
        (((createRBTree (defaultCompare : Int → Int → Int)).insert 1 10).insert 2 20).compare a b
          ≤ 0)
      (((createRBTree (defaultCompare : Int → Int → Int)).insert 1 10).insert 2 20).keys :=
  C7_order_statistics_round_trip _ 1 (by decide) (by decide)
    (fun a b h => defaultCompare_flip a b h) (by decide)


theorem noRedRedB_node {c : Color} {k : α} {v : β} {l r : RBNode α β} {cnt : Nat} :
    noRedRedB (.node c k v l r cnt) = true ↔
      (c = .red → l.color = .black ∧ r.color = .black) ∧
      noRedRedB l = true ∧ noRedRedB r = true := by
  simp [noRedRedB, and_assoc, Decidable.imp_iff_not_or]

theorem color_black_of_ne_red {c : Color} (h : ¬ c = .red) : c = .black := by
  cases c
  · exact absurd rfl h
  · rfl

theorem bh_node_some {c : Color} {k : α} {v : β} {l r : RBNode α β} {cnt : Nat} {h : Nat}
    (hl : bh l = some h) (hr : bh r = some h) :
    bh (.node c k v l r cnt) = some (h + if c = .black then 1 else 0) := by
  simp [bh, hl, hr]

theorem bh_node_inv {c : Color} {k : α} {v : β} {l r : RBNode α β} {cnt : Nat} {h0 : Nat}
    (hn : bh (.node c k v l r cnt) = some h0) :
    ∃ h, bh l = some h ∧ bh r = some h ∧ h0 = h + (if c = .black then 1 else 0) := by
  rw [bh] at hn
  match hl : bh l, hr : bh r with
  | some a, some b =>
    rw [hl, hr] at hn
    by_cases hab : a = b
    · subst hab
      simp at hn
      exact ⟨a, rfl, rfl, hn.symm⟩
    · simp [hab] at hn
  | some a, none => rw [hl, hr] at hn; simp at hn
  | none, _ => rw [hl] at hn; simp at hn

theorem repaint_color (c : Color) (n : RBNode α β) (hn : ¬ n = .nil) :
    (repaint c n).color = c := by
  cases n
  · exact absurd rfl hn
  · rfl

theorem repaint_black_color (n : RBNode α β) : (repaint .black n).color = .black := by
  cases n <;> rfl

theorem repaint_count (c : Color) (n : RBNode α β) : (repaint c n).count = n.count := by
  cases n <;> rfl

theorem repaint_toList (c : Color) (n : RBNode α β) : (repaint c n).toList = n.toList := by
  cases n <;> rfl

theorem noRedRedB_repaint_black {n : RBNode α β} (h : noRedRedB n = true) :
    noRedRedB (repaint .black n) = true := by
  cases n with
  | nil => rfl
  | node c k v l r cnt =>
    rw [repaint, noRedRedB_node]
    obtain ⟨-, h2, h3⟩ := noRedRedB_node.mp h
    exact ⟨fun hc => absurd hc (by decide), h2, h3⟩

theorem noRedRedB_repaint_red {n : RBNode α β} (h : noRedRedB n = true)
    (hl : ∀ c k v l r cnt, n = RBNode.node c k v l r cnt →
      l.color = .black ∧ r.color = .black) :
    noRedRedB (repaint .red n) = true := by
  cases n with
  | nil => rfl
  | node c k v l r cnt =>
    rw [repaint, noRedRedB_node]
    obtain ⟨-, h2, h3⟩ := noRedRedB_node.mp h
    exact ⟨fun _ => hl c k v l r cnt rfl, h2, h3⟩

theorem bh_repaint_black {n : RBNode α β} {h : Nat} (hn : bh n = some h) :
    (bh (repaint .black n)).isSome = true := by
  cases n with
  | nil => rfl
  | node c k v l r cnt =>
    obtain ⟨h1, hl, hr, -⟩ := bh_node_inv hn
    rw [repaint, bh_node_some hl hr]
    rfl

theorem countOkB_repaint (c : Color) {n : RBNode α β} (h : countOkB n = true) :
    countOkB (repaint c n) = true := by
  cases n with
  | nil => rfl
  | node c0 k v l r cnt =>
    rw [repaint, countOkB_node]
    exact countOkB_node.mp h

theorem fill_color (f : Frame α β) (x : RBNode α β) : (f.fill x).color = f.color := by
  cases hd : f.dir <;> simp [Frame.fill, hd, RBNode.color]

theorem fill_count (f : Frame α β) (x : RBNode α β) : (f.fill x).count = f.count := by
  cases hd : f.dir <;> simp [Frame.fill, hd, RBNode.count]

theorem fill_noRedRed (f : Frame α β) (x : RBNode α β)
    (hx : noRedRedB x = true) (ho : noRedRedB f.other = true)
    (hred : f.color = .red → f.other.color = .black ∧ x.color = .black) :
    noRedRedB (f.fill x) = true := by
  cases hd : f.dir <;> simp only [Frame.fill, hd] <;> rw [noRedRedB_node]
  · exact ⟨fun hc => ⟨(hred hc).2, (hred hc).1⟩, hx, ho⟩
  · exact ⟨fun hc => ⟨(hred hc).1, (hred hc).2⟩, ho, hx⟩

theorem fill_bh (f : Frame α β) (x : RBNode α β) {h : Nat}
    (hx : bh x = some h) (ho : bh f.other = some h) :
    bh (f.fill x) = some (h + if f.color = .black then 1 else 0) := by
  cases hd : f.dir <;> simp only [Frame.fill, hd]
  · exact bh_node_some hx ho
  · exact bh_node_some ho hx

theorem fill_countOk (f : Frame α β) (x : RBNode α β)
    (hx : countOkB x = true) (ho : countOkB f.other = true)
    (hcnt : f.count = 1 + x.count + f.other.count) :
    countOkB (f.fill x) = true := by
  cases hd : f.dir <;> simp only [Frame.fill, hd] <;> rw [countOkB_node]
  · exact ⟨hcnt, hx, ho⟩
  · exact ⟨by omega, ho, hx⟩

theorem assemble_noRedRed (frames : List (Frame α β)) :
    ∀ (x : RBNode α β), pathRR frames → noRedRedB x = true →
    pathRRtop frames x.color → noRedRedB (assemble x frames) = true := by
  induction frames with
  | nil => intro x _ hx _; exact hx
  | cons f rest ih =>
    intro x hp hx htop
    obtain ⟨ho, hredo, hpair, hrest⟩ := hp
    rw [assemble]
    refine ih (f.fill x) hrest ?_ ?_
    · refine fill_noRedRed f x hx ho ?_
      intro hred
      refine ⟨hredo hred, ?_⟩
      by_cases hxc : x.color = .red
      · exact absurd ⟨hxc, hred⟩ (htop f rfl)
      · exact color_black_of_ne_red hxc
    · intro g hg
      rw [fill_color]
      exact hpair g hg

theorem assemble_bh (frames : List (Frame α β)) :
    ∀ (x : RBNode α β) (h : Nat), pathBH frames h → bh x = some h →
    (bh (assemble x frames)).isSome = true := by
  induction frames with
  | nil => intro x h _ hx; rw [assemble, hx]; rfl
  | cons f rest ih =>
    intro x h hp hx
    obtain ⟨ho, hrest⟩ := hp
    rw [assemble]
    exact ih (f.fill x) _ hrest (fill_bh f x hx ho)

theorem assemble_countOk (frames : List (Frame α β)) :
    ∀ (x : RBNode α β), pathCount frames x.count → countOkB x = true →
    countOkB (assemble x frames) = true := by
  induction frames with
  | nil => intro x _ hx; exact hx
  | cons f rest ih =>
    intro x hp hx
    obtain ⟨hcnt, ho, hrest⟩ := hp
    rw [assemble]
    refine ih (f.fill x) ?_ (fill_countOk f x hx ho hcnt)
    rw [fill_count]
    exact hrest


theorem color_red_of_ne_black {c : Color} (h : ¬ c = .black) : c = .red := by
  cases c
  · rfl
  · exact absurd rfl h

theorem ite_color_red {c : Color} {x y : Nat} (hc : c = .red) :
    (if c = .black then x else y) = y := by
  rw [hc]; rfl

theorem ite_color_black {c : Color} {x y : Nat} (hc : c = .black) :
    (if c = .black then x else y) = x := by
  rw [hc]; rfl

theorem pathRR_cons {f : Frame α β} {rest : List (Frame α β)} :
    pathRR (f :: rest) ↔
      noRedRedB f.other = true ∧ (f.color = .red → f.other.color = .black) ∧
      (∀ g ∈ rest.head?, ¬(f.color = .red ∧ g.color = .red)) ∧ pathRR rest := Iff.rfl

theorem pathBH_cons {f : Frame α β} {rest : List (Frame α β)} {h : Nat} :
    pathBH (f :: rest) h ↔
      bh f.other = some h ∧ pathBH rest (h + if f.color = .black then 1 else 0) := Iff.rfl

theorem pathCount_cons {f : Frame α β} {rest : List (Frame α β)} {c : Nat} :
    pathCount (f :: rest) c ↔
      f.count = 1 + c + f.other.count ∧ countOkB f.other = true ∧ pathCount rest f.count :=
  Iff.rfl

theorem bh_repaint_black_of_red {n : RBNode α β} {h : Nat} (hc : n.color = .red)
    (hn : bh n = some h) : bh (repaint .black n) = some (h + 1) := by
  cases n with
  | nil => simp [RBNode.color] at hc
  | node c k v l r cnt =>
    obtain ⟨h1, hl, hr, heq⟩ := bh_node_inv hn
    rw [RBNode.color] at hc
    subst hc
    simp at heq
    subst heq
    rw [repaint, bh_node_some hl hr]
    simp

theorem mkRecount_count (c : Color) (k : α) (v : β) (l r : RBNode α β) :
    (mkRecount c k v l r).count = 1 + l.count + r.count := rfl

theorem mkRecount_color (c : Color) (k : α) (v : β) (l r : RBNode α β) :
    (mkRecount c k v l r).color = c := rfl

theorem countOkB_mkRecount {c : Color} {k : α} {v : β} {l r : RBNode α β}
    (hl : countOkB l = true) (hr : countOkB r = true) :
    countOkB (mkRecount c k v l r) = true :=
  countOkB_node.mpr ⟨rfl, hl, hr⟩

theorem repaint_fill (c : Color) (f : Frame α β) (x : RBNode α β) :
    repaint c (f.fill x) = Frame.fill { f with color := c } x := by
  cases hd : f.dir <;> simp [Frame.fill, repaint, hd]

theorem pathRRtop_black (frames : List (Frame α β)) {c : Color} (hc : c = .black) :
    pathRRtop frames c := by
  intro g hg
  rintro ⟨h1, -⟩
  rw [hc] at h1
  cases h1

theorem assemble_paint_valid (x : RBNode α β) (frames : List (Frame α β)) (h : Nat)
    (hrr : noRedRedB x = true) (hp : pathRR frames) (htop : pathRRtop frames x.color)
    (hbh : bh x = some h) (hbhP : pathBH frames h)
    (hc : countOkB x = true) (hcP : pathCount frames x.count) :
    noRedRedB (repaint .black (assemble x frames)) = true ∧
    (bh (repaint .black (assemble x frames))).isSome = true ∧
    countOkB (repaint .black (assemble x frames)) = true := by
  refine ⟨noRedRedB_repaint_black (assemble_noRedRed frames x hp hrr htop), ?_,
    countOkB_repaint _ (assemble_countOk frames x hcP hc)⟩
  obtain ⟨h2, hh2⟩ := Option.isSome_iff_exists.mp (assemble_bh frames x h hbhP hbh)
  exact bh_repaint_black hh2

theorem blackfill_facts (p : Frame α β) (n : RBNode α β) (h : Nat)
    (hrrN : noRedRedB n = true) (hop : noRedRedB p.other = true)
    (hbhN : bh n = some h) (hbhop : bh p.other = some h)
    (hcN : countOkB n = true) (hcop : countOkB p.other = true)
    (hcnt : p.count = 1 + n.count + p.other.count) :
    (Frame.fill { p with color := Color.black } n).color = .black ∧
    noRedRedB (Frame.fill { p with color := Color.black } n) = true ∧
    bh (Frame.fill { p with color := Color.black } n) = some (h + 1) ∧
    countOkB (Frame.fill { p with color := Color.black } n) = true ∧
    (Frame.fill { p with color := Color.black } n).count = p.count := by
  refine ⟨fill_color _ _, fill_noRedRed _ n hrrN hop (fun hc => by cases hc), ?_,
    fill_countOk _ n hcN hcop hcnt, fill_count _ _⟩
  rw [fill_bh { p with color := Color.black } n hbhN hbhop]
  simp

theorem fillRecolor_facts (pp : Frame α β) (pc : RBNode α β) (h : Nat)
    (hpcc : pc.color = .black) (hpcrr : noRedRedB pc = true) (hpcbh : bh pc = some (h + 1))
    (hpccnt : countOkB pc = true)
    (hyred : pp.other.color = .red) (hopp : noRedRedB pp.other = true)
    (hbhy : bh pp.other = some h) (hcoy : countOkB pp.other = true)
    (hcnt : pp.count = 1 + pc.count + pp.other.count) :
    noRedRedB (fillRecolor pp pc) = true ∧
    bh (fillRecolor pp pc) = some (h + 1) ∧
    countOkB (fillRecolor pp pc) = true ∧
    (fillRecolor pp pc).count = pp.count := by
  have hybh := bh_repaint_black_of_red hyred hbhy
  have hyc := repaint_black_color (β := β) pp.other
  cases hd : pp.dir <;> simp only [fillRecolor, hd]
  · refine ⟨noRedRedB_node.mpr ⟨fun _ => ⟨hpcc, hyc⟩, hpcrr, noRedRedB_repaint_black hopp⟩,
      ?_, ?_, rfl⟩
    · rw [bh_node_some hpcbh hybh]; simp
    · refine countOkB_node.mpr ⟨?_, hpccnt, countOkB_repaint _ hcoy⟩
      rw [repaint_count]
      omega
  · refine ⟨noRedRedB_node.mpr ⟨fun _ => ⟨hyc, hpcc⟩, noRedRedB_repaint_black hopp, hpcrr⟩,
      ?_, ?_, rfl⟩
    · rw [bh_node_some hybh hpcbh]; simp
    · refine countOkB_node.mpr ⟨?_, countOkB_repaint _ hcoy, hpccnt⟩
      rw [repaint_count]
      omega

theorem unpack_two {p pp : Frame α β} {rest : List (Frame α β)} {h : Nat} {n : RBNode α β}
    (hguard : ¬(p.color = .black ∨ n.color = .black))
    (hrrP : pathRR (p :: pp :: rest)) (hbhP : pathBH (p :: pp :: rest) h)
    (hcP : pathCount (p :: pp :: rest) n.count) :
    p.color = .red ∧ n.color = .red ∧ pp.color = .black ∧
    noRedRedB p.other = true ∧ p.other.color = .black ∧
    noRedRedB pp.other = true ∧
    pathRR rest ∧
    bh p.other = some h ∧ bh pp.other = some h ∧ pathBH rest (h + 1) ∧
    p.count = 1 + n.count + p.other.count ∧ countOkB p.other = true ∧
    pp.count = 1 + p.count + pp.other.count ∧ countOkB pp.other = true ∧
    pathCount rest pp.count := by
  have hpred : p.color = .red := color_red_of_ne_black (fun hb => hguard (Or.inl hb))
  have hnred : n.color = .red := color_red_of_ne_black (fun hb => hguard (Or.inr hb))
  obtain ⟨hop, hredp, hpairp, hrrP1⟩ := pathRR_cons.mp hrrP
  obtain ⟨hopp, hredpp, hpairpp, hrest⟩ := pathRR_cons.mp hrrP1
  have hppblack : pp.color = .black := by
    have := hpairp pp rfl
    by_cases hb : pp.color = .red
    · exact absurd ⟨hpred, hb⟩ this
    · exact color_black_of_ne_red hb
  obtain ⟨hbhop, hbhP1⟩ := pathBH_cons.mp hbhP
  rw [ite_color_red hpred, Nat.add_zero] at hbhP1
  obtain ⟨hbhoy, hbhP2⟩ := pathBH_cons.mp hbhP1
  rw [ite_color_black hppblack] at hbhP2
  obtain ⟨hcntp, hcop, hcP1⟩ := pathCount_cons.mp hcP
  obtain ⟨hcntpp, hcoy, hcP2⟩ := pathCount_cons.mp hcP1
  exact ⟨hpred, hnred, hppblack, hop, hredp hpred, hopp, hrest, hbhop, hbhoy, hbhP2,
    hcntp, hcop, hcntpp, hcoy, hcP2⟩

theorem bh_mkRecount {c : Color} {k : α} {v : β} {l r : RBNode α β} {h : Nat}
    (hl : bh l = some h) (hr : bh r = some h) :
    bh (mkRecount c k v l r) = some (h + if c = .black then 1 else 0) :=
  bh_node_some hl hr

theorem rebalance_valid (n : RBNode α β) (frames : List (Frame α β)) :
    ∀ (h : Nat), noRedRedB n = true → pathRR frames →
      bh n = some h → pathBH frames h →
      countOkB n = true → pathCount frames n.count →
    noRedRedB (repaint .black (rebalance n frames)) = true ∧
    (bh (repaint .black (rebalance n frames))).isSome = true ∧
    countOkB (repaint .black (rebalance n frames)) = true := by
  induction n, frames using rebalance.induct with
  | case1 n =>
    intro h hrrN hrrP hbhN hbhP hcN hcP
    rw [rebalance]
    exact ⟨noRedRedB_repaint_black hrrN, bh_repaint_black hbhN, countOkB_repaint _ hcN⟩
  | case2 n p =>
    intro h hrrN hrrP hbhN hbhP hcN hcP
    obtain ⟨hop, -, -, -⟩ := pathRR_cons.mp hrrP
    obtain ⟨hbhop, -⟩ := pathBH_cons.mp hbhP
    obtain ⟨hcntp, hcop, -⟩ := pathCount_cons.mp hcP
    rw [rebalance, repaint_fill]
    refine ⟨fill_noRedRed _ n hrrN hop (fun hc => by cases hc), ?_,
      fill_countOk _ n hcN hcop hcntp⟩
    rw [fill_bh { p with color := Color.black } n hbhN hbhop]
    rfl
  | case3 n p pp rest hguard =>
    intro h hrrN hrrP hbhN hbhP hcN hcP
    have heq : rebalance n (p :: pp :: rest) = assemble n (p :: pp :: rest) := by
      conv_lhs => rw [rebalance.eq_def]
      simp only [if_pos hguard]
    rw [heq]
    refine assemble_paint_valid n (p :: pp :: rest) h hrrN hrrP ?_ hbhN hbhP hcN hcP
    intro g hg
    simp only [List.head?_cons, Option.mem_def, Option.some.injEq] at hg
    subst hg
    rintro ⟨h1, h2⟩
    rcases hguard with h3 | h3
    · rw [h3] at h2; cases h2
    · rw [h3] at h1; cases h1
  | case4 n p pp rest hguard hpd hppd hy ih =>
    intro h hrrN hrrP hbhN hbhP hcN hcP
    obtain ⟨hpred, hnred, hppb, hop, hopb, hopp, hrest, hbhop, hbhoy, hbhP2,
      hcntp, hcop, hcntpp, hcoy, hcP2⟩ := unpack_two hguard hrrP hbhP hcP
    obtain ⟨pcc, pcrr, pcbh, pccnt, pccount⟩ :=
      blackfill_facts p n h hrrN hop hbhN hbhop hcN hcop hcntp
    obtain ⟨krr, kbh, kc, kcount⟩ := fillRecolor_facts pp _ h pcc pcrr pcbh pccnt hy hopp
      hbhoy hcoy (by rw [pccount]; exact hcntpp)
    have heq : rebalance n (p :: pp :: rest) =
        rebalance (fillRecolor pp (Frame.fill { p with color := Color.black } n)) rest := by
      conv_lhs => rw [rebalance.eq_def]
      simp only [hppd, hpd, if_neg hguard, if_pos hy]
    rw [heq]
    exact ih (h + 1) krr hrest kbh hbhP2 kc (by rw [kcount]; exact hcP2)
  | case5 n p pp rest hguard hpd hppd hy =>
    intro h hrrN hrrP hbhN hbhP hcN hcP
    obtain ⟨hpred, hnred, hppb, hop, hopb, hopp, hrest, hbhop, hbhoy, hbhP2,
      hcntp, hcop, hcntpp, hcoy, hcP2⟩ := unpack_two hguard hrrP hbhP hcP
    have hyb : pp.other.color = .black := color_black_of_ne_red hy
    have heq : rebalance n (p :: pp :: rest) =
        assemble (mkRecount .black p.key p.value n
          (mkRecount .red pp.key pp.value p.other pp.other)) rest := by
      conv_lhs => rw [rebalance.eq_def]
      simp only [hppd, hpd, if_neg hguard, if_neg hy]
    rw [heq]
    have hppN : bh (mkRecount Color.red pp.key pp.value p.other pp.other) = some h := by
      rw [bh_mkRecount hbhop hbhoy]; simp
    have hX : bh (mkRecount Color.black p.key p.value n
        (mkRecount Color.red pp.key pp.value p.other pp.other)) = some (h + 1) := by
      rw [bh_mkRecount hbhN hppN]; simp
    refine assemble_paint_valid _ rest (h + 1) ?_ hrest (pathRRtop_black rest rfl) hX hbhP2
      ?_ ?_
    · exact noRedRedB_node.mpr ⟨fun hc => absurd hc (by decide), hrrN,
        noRedRedB_node.mpr ⟨fun _ => ⟨hopb, hyb⟩, hop, hopp⟩⟩
    · exact countOkB_mkRecount hcN (countOkB_mkRecount hcop hcoy)
    · have hcc : (mkRecount Color.black p.key p.value n
          (mkRecount Color.red pp.key pp.value p.other pp.other)).count = pp.count := by
        rw [mkRecount_count, mkRecount_count]
        omega
      rw [hcc]
      exact hcP2
  | case6 n p pp rest hguard hpd hppd hy ih =>
    intro h hrrN hrrP hbhN hbhP hcN hcP
    obtain ⟨hpred, hnred, hppb, hop, hopb, hopp, hrest, hbhop, hbhoy, hbhP2,
      hcntp, hcop, hcntpp, hcoy, hcP2⟩ := unpack_two hguard hrrP hbhP hcP
    obtain ⟨pcc, pcrr, pcbh, pccnt, pccount⟩ :=
      blackfill_facts p n h hrrN hop hbhN hbhop hcN hcop hcntp
    obtain ⟨krr, kbh, kc, kcount⟩ := fillRecolor_facts pp _ h pcc pcrr pcbh pccnt hy hopp
      hbhoy hcoy (by rw [pccount]; exact hcntpp)
    have heq : rebalance n (p :: pp :: rest) =
        rebalance (fillRecolor pp (Frame.fill { p with color := Color.black } n)) rest := by
      conv_lhs => rw [rebalance.eq_def]
      simp only [hppd, hpd, if_neg hguard, if_pos hy]
    rw [heq]
    exact ih (h + 1) krr hrest kbh hbhP2 kc (by rw [kcount]; exact hcP2)
  | case7 p pp rest hpd hppd hy hguard =>
    exact absurd (Or.inr rfl) hguard
  | case8 p pp rest hpd hppd hy nc nk nv nl nr ncnt hguard =>
    intro h hrrN hrrP hbhN hbhP hcN hcP
    obtain ⟨hpred, hnred, hppb, hop, hopb, hopp, hrest, hbhop, hbhoy, hbhP2,
      hcntp, hcop, hcntpp, hcoy, hcP2⟩ := unpack_two hguard hrrP hbhP hcP
    have hyb : pp.other.color = .black := color_black_of_ne_red hy
    have hnc : nc = .red := hnred
    obtain ⟨hcred, hrrnl, hrrnr⟩ := noRedRedB_node.mp hrrN
    obtain ⟨hnlb, hnrb⟩ := hcred hnc
    obtain ⟨h1, hbhnl, hbhnr, hheq⟩ := bh_node_inv hbhN
    rw [ite_color_red hnc] at hheq
    rw [show h1 = h by omega] at hbhnl hbhnr
    obtain ⟨hncnt, hcnl, hcnr⟩ := countOkB_node.mp hcN
    have heq : rebalance (RBNode.node nc nk nv nl nr ncnt) (p :: pp :: rest) =
        assemble (mkRecount .black nk nv
          (mkRecount p.color p.key p.value p.other nl)
          (mkRecount .red pp.key pp.value nr pp.other)) rest := by
      conv_lhs => rw [rebalance.eq_def]
      simp only [hppd, hpd, if_neg hguard, if_neg hy]
    rw [heq]
    have hpN : bh (mkRecount p.color p.key p.value p.other nl) = some h := by
      rw [bh_mkRecount hbhop hbhnl, ite_color_red hpred]; simp
    have hppN : bh (mkRecount Color.red pp.key pp.value nr pp.other) = some h := by
      rw [bh_mkRecount hbhnr hbhoy]; simp
    have hX : bh (mkRecount Color.black nk nv
        (mkRecount p.color p.key p.value p.other nl)
        (mkRecount Color.red pp.key pp.value nr pp.other)) = some (h + 1) := by
      rw [bh_mkRecount hpN hppN]; simp
    refine assemble_paint_valid _ rest (h + 1) ?_ hrest (pathRRtop_black rest rfl) hX hbhP2
      ?_ ?_
    · refine noRedRedB_node.mpr ⟨fun hc => absurd hc (by decide), ?_, ?_⟩
      · exact noRedRedB_node.mpr ⟨fun _ => ⟨hopb, hnlb⟩, hop, hrrnl⟩
      · exact noRedRedB_node.mpr ⟨fun _ => ⟨hnrb, hyb⟩, hrrnr, hopp⟩
    · exact countOkB_mkRecount (countOkB_mkRecount hcop hcnl) (countOkB_mkRecount hcnr hcoy)
    · have hcc : (mkRecount Color.black nk nv
          (mkRecount p.color p.key p.value p.other nl)
          (mkRecount Color.red pp.key pp.value nr pp.other)).count = pp.count := by
        rw [mkRecount_count, mkRecount_count, mkRecount_count]
        rw [show (RBNode.node nc nk nv nl nr ncnt).count = ncnt from rfl] at hcntp
        omega
      rw [hcc]
      exact hcP2
  | case9 n p pp rest hguard hpd hppd hy ih =>
    intro h hrrN hrrP hbhN hbhP hcN hcP
    obtain ⟨hpred, hnred, hppb, hop, hopb, hopp, hrest, hbhop, hbhoy, hbhP2,
      hcntp, hcop, hcntpp, hcoy, hcP2⟩ := unpack_two hguard hrrP hbhP hcP
    obtain ⟨pcc, pcrr, pcbh, pccnt, pccount⟩ :=
      blackfill_facts p n h hrrN hop hbhN hbhop hcN hcop hcntp
    obtain ⟨krr, kbh, kc, kcount⟩ := fillRecolor_facts pp _ h pcc pcrr pcbh pccnt hy hopp
      hbhoy hcoy (by rw [pccount]; exact hcntpp)
    have heq : rebalance n (p :: pp :: rest) =
        rebalance (fillRecolor pp (Frame.fill { p with color := Color.black } n)) rest := by
      conv_lhs => rw [rebalance.eq_def]
      simp only [hppd, hpd, if_neg hguard, if_pos hy]
    rw [heq]
    exact ih (h + 1) krr hrest kbh hbhP2 kc (by rw [kcount]; exact hcP2)
  | case10 n p pp rest hguard hpd hppd hy =>
    intro h hrrN hrrP hbhN hbhP hcN hcP
    obtain ⟨hpred, hnred, hppb, hop, hopb, hopp, hrest, hbhop, hbhoy, hbhP2,
      hcntp, hcop, hcntpp, hcoy, hcP2⟩ := unpack_two hguard hrrP hbhP hcP
    have hyb : pp.other.color = .black := color_black_of_ne_red hy
    have heq : rebalance n (p :: pp :: rest) =
        assemble (mkRecount .black p.key p.value
          (mkRecount .red pp.key pp.value pp.other p.other) n) rest := by
      conv_lhs => rw [rebalance.eq_def]
      simp only [hppd, hpd, if_neg hguard, if_neg hy]
    rw [heq]
    have hppN : bh (mkRecount Color.red pp.key pp.value pp.other p.other) = some h := by
      rw [bh_mkRecount hbhoy hbhop]; simp
    have hX : bh (mkRecount Color.black p.key p.value
        (mkRecount Color.red pp.key pp.value pp.other p.other) n) = some (h + 1) := by
      rw [bh_mkRecount hppN hbhN]; simp
    refine assemble_paint_valid _ rest (h + 1) ?_ hrest (pathRRtop_black rest rfl) hX hbhP2
      ?_ ?_
    · exact noRedRedB_node.mpr ⟨fun hc => absurd hc (by decide),
        noRedRedB_node.mpr ⟨fun _ => ⟨hyb, hopb⟩, hopp, hop⟩, hrrN⟩
    · exact countOkB_mkRecount (countOkB_mkRecount hcoy hcop) hcN
    · have hcc : (mkRecount Color.black p.key p.value
          (mkRecount Color.red pp.key pp.value pp.other p.other) n).count = pp.count := by
        rw [mkRecount_count, mkRecount_count]
        omega
      rw [hcc]
      exact hcP2
  | case11 n p pp rest hguard hpd hppd hy ih =>
    intro h hrrN hrrP hbhN hbhP hcN hcP
    obtain ⟨hpred, hnred, hppb, hop, hopb, hopp, hrest, hbhop, hbhoy, hbhP2,
      hcntp, hcop, hcntpp, hcoy, hcP2⟩ := unpack_two hguard hrrP hbhP hcP
    obtain ⟨pcc, pcrr, pcbh, pccnt, pccount⟩ :=
      blackfill_facts p n h hrrN hop hbhN hbhop hcN hcop hcntp
    obtain ⟨krr, kbh, kc, kcount⟩ := fillRecolor_facts pp _ h pcc pcrr pcbh pccnt hy hopp
      hbhoy hcoy (by rw [pccount]; exact hcntpp)
    have heq : rebalance n (p :: pp :: rest) =
        rebalance (fillRecolor pp (Frame.fill { p with color := Color.black } n)) rest := by
      conv_lhs => rw [rebalance.eq_def]
      simp only [hppd, hpd, if_neg hguard, if_pos hy]
    rw [heq]
    exact ih (h + 1) krr hrest kbh hbhP2 kc (by rw [kcount]; exact hcP2)
  | case12 p pp rest hpd hppd hy hguard =>
    exact absurd (Or.inr rfl) hguard
  | case13 p pp rest hpd hppd hy nc nk nv nl nr ncnt hguard =>
    intro h hrrN hrrP hbhN hbhP hcN hcP
    obtain ⟨hpred, hnred, hppb, hop, hopb, hopp, hrest, hbhop, hbhoy, hbhP2,
      hcntp, hcop, hcntpp, hcoy, hcP2⟩ := unpack_two hguard hrrP hbhP hcP
    have hyb : pp.other.color = .black := color_black_of_ne_red hy
    have hnc : nc = .red := hnred
    obtain ⟨hcred, hrrnl, hrrnr⟩ := noRedRedB_node.mp hrrN
    obtain ⟨hnlb, hnrb⟩ := hcred hnc
    obtain ⟨h1, hbhnl, hbhnr, hheq⟩ := bh_node_inv hbhN
    rw [ite_color_red hnc] at hheq
    rw [show h1 = h by omega] at hbhnl hbhnr
    obtain ⟨hncnt, hcnl, hcnr⟩ := countOkB_node.mp hcN
    have heq : rebalance (RBNode.node nc nk nv nl nr ncnt) (p :: pp :: rest) =
        assemble (mkRecount .black nk nv
          (mkRecount .red pp.key pp.value pp.other nl)
          (mkRecount p.color p.key p.value nr p.other)) rest := by
      conv_lhs => rw [rebalance.eq_def]
      simp only [hppd, hpd, if_neg hguard, if_neg hy]
    rw [heq]
    have hppN : bh (mkRecount Color.red pp.key pp.value pp.other nl) = some h := by
      rw [bh_mkRecount hbhoy hbhnl]; simp
    have hpN : bh (mkRecount p.color p.key p.value nr p.other) = some h := by
      rw [bh_mkRecount hbhnr hbhop, ite_color_red hpred]; simp
    have hX : bh (mkRecount Color.black nk nv
        (mkRecount Color.red pp.key pp.value pp.other nl)
        (mkRecount p.color p.key p.value nr p.other)) = some (h + 1) := by
      rw [bh_mkRecount hppN hpN]; simp
    refine assemble_paint_valid _ rest (h + 1) ?_ hrest (pathRRtop_black rest rfl) hX hbhP2
      ?_ ?_
    · refine noRedRedB_node.mpr ⟨fun hc => absurd hc (by decide), ?_, ?_⟩
      · exact noRedRedB_node.mpr ⟨fun _ => ⟨hyb, hnlb⟩, hopp, hrrnl⟩
      · exact noRedRedB_node.mpr ⟨fun _ => ⟨hnrb, hopb⟩, hrrnr, hop⟩
    · exact countOkB_mkRecount (countOkB_mkRecount hcoy hcnl) (countOkB_mkRecount hcnr hcop)
    · have hcc : (mkRecount Color.black nk nv
          (mkRecount Color.red pp.key pp.value pp.other nl)
          (mkRecount p.color p.key p.value nr p.other)).count = pp.count := by
        rw [mkRecount_count, mkRecount_count, mkRecount_count]
        rw [show (RBNode.node nc nk nv nl nr ncnt).count = ncnt from rfl] at hcntp
        omega
      rw [hcc]
      exact hcP2


theorem repaint_black_self {n : RBNode α β} (h : n.color = .black) :
    repaint .black n = n := by
  cases n with
  | nil => rfl
  | node c k v l r cnt => rw [show c = Color.black from h]; rfl

theorem buildStack_invs (cmp : α → α → Int) (key : α) (n : RBNode α β) :
    ∀ (acc : List (Frame α β)) (h : Nat),
      noRedRedB n = true → bh n = some h → countOkB n = true →
      pathRR acc → pathRRtop acc n.color → pathBH acc h → pathCount acc (n.count + 1) →
      pathRR (buildStack cmp key n acc) ∧ pathBH (buildStack cmp key n acc) 0 ∧
        pathCount (buildStack cmp key n acc) 1 := by
  induction n with
  | nil =>
    intro acc h _ hbh _ hrr _ hbhP hcP
    have h0 : h = 0 := by simp [bh] at hbh; omega
    subst h0
    rw [buildStack]
    exact ⟨hrr, hbhP, hcP⟩
  | node c k v l r cnt ihl ihr =>
    intro acc h hrrN hbh hcnt hrr htop hbhP hcP
    obtain ⟨hcred, hrrl, hrrr⟩ := noRedRedB_node.mp hrrN
    obtain ⟨h1, hbhl, hbhr, hheq⟩ := bh_node_inv hbh
    obtain ⟨hc, hcl, hcr⟩ := countOkB_node.mp hcnt
    have hbhP' : pathBH acc (h1 + if c = .black then 1 else 0) := by
      rw [← hheq]; exact hbhP
    rw [buildStack]
    by_cases hcmp : cmp key k ≤ 0
    · rw [if_pos hcmp]
      refine ihl _ h1 hrrl hbhl hcl ⟨hrrr, fun hfc => (hcred hfc).2, htop, hrr⟩ ?_ ⟨hbhr, hbhP'⟩
        ⟨show cnt + 1 = 1 + (l.count + 1) + r.count by omega, hcr, hcP⟩
      intro g hg
      simp only [List.head?_cons, Option.mem_def, Option.some.injEq] at hg
      subst hg
      rintro ⟨hlred, hcc⟩
      exact absurd (hcred hcc).1 (by rw [hlred]; decide)
    · rw [if_neg hcmp]
      refine ihr _ h1 hrrr hbhr hcr ⟨hrrl, fun hfc => (hcred hfc).1, htop, hrr⟩ ?_ ⟨hbhl, hbhP'⟩
        ⟨show cnt + 1 = 1 + (r.count + 1) + l.count by omega, hcl, hcP⟩
      intro g hg
      simp only [List.head?_cons, Option.mem_def, Option.some.injEq] at hg
      subst hg
      rintro ⟨hrred, hcc⟩
      exact absurd (hcred hcc).2 (by rw [hrred]; decide)

theorem insert_valid (t : RedBlackTree α β) (key : α) (value : β)
    (hv : RBValid t.root) : RBValid (t.insert key value).root := by
  obtain ⟨hcol, hrr, hbh, hcnt⟩ := hv
  obtain ⟨h, hh⟩ := Option.isSome_iff_exists.mp hbh
  obtain ⟨hS1, hS2, hS3⟩ := buildStack_invs t.compare key t.root [] h hrr hh hcnt
    trivial (fun g hg => by simp at hg) trivial trivial
  obtain ⟨h1, h2, h3⟩ := rebalance_valid (RBNode.node .red key value .nil .nil 1)
    (buildStack t.compare key t.root []) 0 rfl hS1 rfl hS2 rfl hS3
  exact ⟨repaint_black_color _, h1, h2, h3⟩


theorem lastB_cons (f : Frame α β) (acc : List (Frame α β))
    (hf : acc = [] → f.color = .black) (h : ∀ g ∈ acc.getLast?, g.color = .black) :
    ∀ g ∈ (f :: acc).getLast?, g.color = .black := by
  cases acc with
  | nil =>
    intro g hg
    simp only [List.getLast?_singleton, Option.mem_def, Option.some.injEq] at hg
    subst hg
    exact hf rfl
  | cons a t =>
    intro g hg
    rw [List.getLast?_cons_cons] at hg
    exact h g hg

theorem lastB_tail (f : Frame α β) (acc : List (Frame α β))
    (h : ∀ g ∈ (f :: acc).getLast?, g.color = .black) :
    ∀ g ∈ acc.getLast?, g.color = .black := by
  cases acc with
  | nil => intro g hg; simp at hg
  | cons a t => intro g hg; exact h g (by rw [List.getLast?_cons_cons]; exact hg)


theorem fixDB_cons_left (n : RBNode α β) (pf : Frame α β) (rest : List (Frame α β))
    (hd : pf.dir = Dir.left) :
    fixDB n (pf :: rest) =
      match pf.other with
      | .nil =>
        if pf.color = .red then
          assemble (.node .black pf.key pf.value n .nil pf.count) rest
        else fixDB (.node .black pf.key pf.value n .nil pf.count) rest
      | .node sc sk sv sl sr scnt =>
        if sr.color = .red then
          assemble (mkRecount pf.color sk sv
            (mkRecount .black pf.key pf.value (repaint .black n) sl)
            (repaint .black sr)) rest
        else
          match sl with
          | .node .red zk zv zl zr _ =>
            assemble (mkRecount pf.color zk zv
              (mkRecount .black pf.key pf.value (repaint .black n) zl)
              (mkRecount .black sk sv zr sr)) rest
          | _ =>
            if sc = .black then
              if pf.color = .red then
                assemble (.node .black pf.key pf.value n (.node .red sk sv sl sr scnt) pf.count) rest
              else
                fixDB (.node .black pf.key pf.value n (.node .red sk sv sl sr scnt) pf.count) rest
            else
              fixDB n
                ({ color := .red, key := pf.key, value := pf.value, other := sl,
                   count := 1 + n.count + sl.count, dir := .left } ::
                 { color := pf.color, key := sk, value := sv, other := sr,
                   count := 1 + (1 + n.count + sl.count) + sr.count, dir := .left } :: rest) := by
  obtain ⟨c, k, v, o, cnt, d⟩ := pf
  have hd9 : d = Dir.left := hd
  subst hd9
  conv_lhs => rw [fixDB.eq_def]
  cases o with
  | nil => rfl
  | node sc sk sv sl sr scnt =>
    cases sl with
    | nil => rfl
    | node zc zk zv zl zr zcnt => cases zc <;> rfl

theorem fixDB_cons_right (n : RBNode α β) (pf : Frame α β) (rest : List (Frame α β))
    (hd : pf.dir = Dir.right) :
    fixDB n (pf :: rest) =
      match pf.other with
      | .nil =>
        if pf.color = .red then
          assemble (.node .black pf.key pf.value .nil n pf.count) rest
        else fixDB (.node .black pf.key pf.value .nil n pf.count) rest
      | .node sc sk sv sl sr scnt =>
        if sl.color = .red then
          assemble (mkRecount pf.color sk sv
            (repaint .black sl)
            (mkRecount .black pf.key pf.value sr (repaint .black n))) rest
        else
          match sr with
          | .node .red zk zv zl zr _ =>
            assemble (mkRecount pf.color zk zv
              (mkRecount .black sk sv sl zl)
              (mkRecount .black pf.key pf.value zr (repaint .black n))) rest
          | _ =>
            if sc = .black then
              if pf.color = .red then
                assemble (.node .black pf.key pf.value (.node .red sk sv sl sr scnt) n pf.count) rest
              else
                fixDB (.node .black pf.key pf.value (.node .red sk sv sl sr scnt) n pf.count) rest
            else
              fixDB n
                ({ color := .red, key := pf.key, value := pf.value, other := sr,
                   count := 1 + sr.count + n.count, dir := .right } ::
                 { color := pf.color, key := sk, value := sv, other := sl,
                   count := 1 + sl.count + (1 + sr.count + n.count), dir := .right } :: rest) := by
  obtain ⟨c, k, v, o, cnt, d⟩ := pf
  have hd9 : d = Dir.right := hd
  subst hd9
  conv_lhs => rw [fixDB.eq_def]
  cases o with
  | nil => rfl
  | node sc sk sv sl sr scnt =>
    cases sr with
    | nil => rfl
    | node zc zk zv zl zr zcnt => cases zc <;> rfl


theorem assemble_black (frames : List (Frame α β)) :
    ∀ x : RBNode α β, (frames = [] → x.color = .black) →
      (∀ g ∈ frames.getLast?, g.color = .black) →
      (assemble x frames).color = .black := by
  induction frames with
  | nil => intro x hx _; rw [assemble]; exact hx rfl
  | cons f rest ih =>
    intro x hx hlast
    rw [assemble]
    refine ih (f.fill x) ?_ (lastB_tail f rest hlast)
    intro hr
    subst hr
    rw [fill_color]
    exact hlast f (by simp)


set_option maxHeartbeats 2000000 in
theorem fixDB_valid (n : RBNode α β) (frames : List (Frame α β)) :
    ∀ (hn : Nat), n.color = .black → noRedRedB n = true → bh n = some hn → countOkB n = true →
      pathRR frames → pathBH frames (hn + 1) → pathCount frames n.count →
      (∀ g ∈ frames.getLast?, g.color = .black) →
      (fixDB n frames).color = .black ∧ noRedRedB (fixDB n frames) = true ∧
        (bh (fixDB n frames)).isSome = true ∧ countOkB (fixDB n frames) = true := by
  induction n, frames using fixDB.induct with
  | case1 n =>
    intro hn hcol hrr hbh hcnt _ _ _ _
    have heq : fixDB n [] = repaint .black n := by rw [fixDB.eq_def]
    rw [heq, repaint_black_self hcol]
    exact ⟨hcol, hrr, by rw [hbh]; rfl, hcnt⟩
  | case2 n pf rest hpd hs hpfred =>
    intro hn hcol hrrN hbhN hcN hrrP hbhP hcP hlast
    exfalso
    obtain ⟨hbhs, -⟩ := pathBH_cons.mp hbhP
    rw [hs] at hbhs
    simp only [bh, Option.some.injEq] at hbhs
    omega
  | case3 n pf rest hpd hs hpfred ih =>
    intro hn hcol hrrN hbhN hcN hrrP hbhP hcP hlast
    exfalso
    obtain ⟨hbhs, -⟩ := pathBH_cons.mp hbhP
    rw [hs] at hbhs
    simp only [bh, Option.some.injEq] at hbhs
    omega
  | case4 n pf rest hpd sc sk sv sl sr scnt hs hsr =>
    intro hn hcol hrrN hbhN hcN hrrP hbhP hcP hlast
    obtain ⟨ho, hredo, hpair, hrest⟩ := pathRR_cons.mp hrrP
    obtain ⟨hbhs, hbhrest⟩ := pathBH_cons.mp hbhP
    obtain ⟨hcntpf, hcos, hcrest⟩ := pathCount_cons.mp hcP
    rw [hs] at ho hbhs hcos hcntpf
    obtain ⟨hscred, hrrsl, hrrsr⟩ := noRedRedB_node.mp ho
    obtain ⟨h1, hbhsl, hbhsr, hs_heq⟩ := bh_node_inv hbhs
    obtain ⟨hscnt, hcsl, hcsr⟩ := countOkB_node.mp hcos
    rw [show (RBNode.node sc sk sv sl sr scnt).count = scnt from rfl] at hcntpf
    have hscb : sc = .black := by
      cases sc with
      | black => rfl
      | red => exact absurd (hscred rfl).2 (by rw [hsr]; decide)
    have hh1 : h1 = hn := by rw [hscb] at hs_heq; simp at hs_heq; omega
    rw [hh1] at hbhsl hbhsr
    rw [fixDB_cons_left n pf rest hpd, hs]
    simp only [if_pos hsr]
    rw [repaint_black_self hcol]
    have hpN : bh (mkRecount Color.black pf.key pf.value n sl) = some (hn + 1) := by
      rw [bh_mkRecount hbhN hbhsl]; simp
    have hsrb : bh (repaint .black sr) = some (hn + 1) := bh_repaint_black_of_red hsr hbhsr
    have hX : bh (mkRecount pf.color sk sv
        (mkRecount Color.black pf.key pf.value n sl) (repaint .black sr)) =
        some (hn + 1 + if pf.color = .black then 1 else 0) := by
      rw [bh_mkRecount hpN hsrb]
    refine ⟨?_, ?_, ?_, ?_⟩
    · refine assemble_black rest _ ?_ (lastB_tail pf rest hlast)
      intro hr
      subst hr
      exact hlast pf (by simp)
    · refine assemble_noRedRed rest _ hrest ?_ hpair
      refine noRedRedB_node.mpr ⟨fun _ => ⟨rfl, repaint_black_color _⟩, ?_, ?_⟩
      · exact noRedRedB_node.mpr ⟨fun hc => absurd hc (by decide), hrrN, hrrsl⟩
      · exact noRedRedB_repaint_black hrrsr
    · exact assemble_bh rest _ _ hbhrest hX
    · refine assemble_countOk rest _ ?_ ?_
      · have hXc : (mkRecount pf.color sk sv
            (mkRecount Color.black pf.key pf.value n sl) (repaint .black sr)).count
            = pf.count := by
          rw [mkRecount_count, mkRecount_count, repaint_count]
          omega
        rw [hXc]
        exact hcrest
      · exact countOkB_mkRecount (countOkB_mkRecount hcN hcsl) (countOkB_repaint _ hcsr)
  | case5 n pf rest hpd sc sk sv sr scnt hsr zk zv zl zr zcnt hs hs2 =>
    intro hn hcol hrrN hbhN hcN hrrP hbhP hcP hlast
    obtain ⟨ho, hredo, hpair, hrest⟩ := pathRR_cons.mp hrrP
    obtain ⟨hbhs, hbhrest⟩ := pathBH_cons.mp hbhP
    obtain ⟨hcntpf, hcos, hcrest⟩ := pathCount_cons.mp hcP
    rw [hs] at ho hbhs hcos hcntpf
    obtain ⟨hscred, hrrsl, hrrsr⟩ := noRedRedB_node.mp ho
    obtain ⟨h1, hbhsl, hbhsr, hs_heq⟩ := bh_node_inv hbhs
    obtain ⟨hscnt, hcsl, hcsr⟩ := countOkB_node.mp hcos
    rw [show (RBNode.node sc sk sv (RBNode.node Color.red zk zv zl zr zcnt) sr scnt).count
        = scnt from rfl] at hcntpf
    rw [show (RBNode.node Color.red zk zv zl zr zcnt : RBNode α β).count = zcnt from rfl]
      at hscnt
    have hscb : sc = .black := by
      cases sc with
      | black => rfl
      | red => exact absurd (hscred rfl).1 (by simp [RBNode.color])
    have hh1 : h1 = hn := by rw [hscb] at hs_heq; simp at hs_heq; omega
    rw [hh1] at hbhsl hbhsr
    obtain ⟨hzred, hrrzl, hrrzr⟩ := noRedRedB_node.mp hrrsl
    obtain ⟨hz, hbhzl, hbhzr, hz_heq⟩ := bh_node_inv hbhsl
    obtain ⟨hzcnt, hczl, hczr⟩ := countOkB_node.mp hcsl
    have hhz : hz = hn := by simp at hz_heq; omega
    rw [hhz] at hbhzl hbhzr
    rw [fixDB_cons_left n pf rest hpd, hs]
    simp only [if_neg hsr]
    rw [repaint_black_self hcol]
    have hpN : bh (mkRecount Color.black pf.key pf.value n zl) = some (hn + 1) := by
      rw [bh_mkRecount hbhN hbhzl]; simp
    have hsN : bh (mkRecount Color.black sk sv zr sr) = some (hn + 1) := by
      rw [bh_mkRecount hbhzr hbhsr]; simp
    have hX : bh (mkRecount pf.color zk zv
        (mkRecount Color.black pf.key pf.value n zl)
        (mkRecount Color.black sk sv zr sr)) =
        some (hn + 1 + if pf.color = .black then 1 else 0) := by
      rw [bh_mkRecount hpN hsN]
    refine ⟨?_, ?_, ?_, ?_⟩
    · refine assemble_black rest _ ?_ (lastB_tail pf rest hlast)
      intro hr
      subst hr
      exact hlast pf (by simp)
    · refine assemble_noRedRed rest _ hrest ?_ hpair
      refine noRedRedB_node.mpr ⟨fun _ => ⟨rfl, rfl⟩, ?_, ?_⟩
      · exact noRedRedB_node.mpr ⟨fun hc => absurd hc (by decide), hrrN, hrrzl⟩
      · exact noRedRedB_node.mpr ⟨fun hc => absurd hc (by decide), hrrzr, hrrsr⟩
    · exact assemble_bh rest _ _ hbhrest hX
    · refine assemble_countOk rest _ ?_ ?_
      · have hXc : (mkRecount pf.color zk zv
            (mkRecount Color.black pf.key pf.value n zl)
            (mkRecount Color.black sk sv zr sr)).count = pf.count := by
          rw [mkRecount_count, mkRecount_count, mkRecount_count]
          omega
        rw [hXc]
        exact hcrest
      · exact countOkB_mkRecount (countOkB_mkRecount hcN hczl) (countOkB_mkRecount hczr hcsr)
  | case6 n pf rest hpd sk sv sl sr scnt hsr hpfred hs0 hs hneg =>
    intro hn hcol hrrN hbhN hcN hrrP hbhP hcP hlast
    obtain ⟨ho, hredo, hpair, hrest⟩ := pathRR_cons.mp hrrP
    obtain ⟨hbhs, hbhrest⟩ := pathBH_cons.mp hbhP
    obtain ⟨hcntpf, hcos, hcrest⟩ := pathCount_cons.mp hcP
    rw [hs] at ho hbhs hcos hcntpf
    obtain ⟨hscred, hrrsl, hrrsr⟩ := noRedRedB_node.mp ho
    obtain ⟨h1, hbhsl, hbhsr, hs_heq⟩ := bh_node_inv hbhs
    obtain ⟨hscnt, hcsl, hcsr⟩ := countOkB_node.mp hcos
    rw [show (RBNode.node Color.black sk sv sl sr scnt).count = scnt from rfl] at hcntpf
    have hh1 : h1 = hn := by simp at hs_heq; omega
    rw [hh1] at hbhsl hbhsr
    have srb : sr.color = .black := color_black_of_ne_red hsr
    rw [fixDB_cons_left n pf rest hpd, hs]
    simp only [if_neg hsr]
    split
    · exfalso
      exact hneg _ _ _ _ _ hs rfl (proof_irrel_heq hs hs)
    · rename_i h2
      rw [if_pos hpfred]
      have slb : sl.color = .black := by
        cases hsl : sl with
        | nil => rfl
        | node c0 k0 v0 l0 r0 c0n =>
          cases c0 with
          | black => rfl
          | red => exact (h2 k0 v0 l0 r0 c0n hsl).elim
      have hs'bh : bh (RBNode.node Color.red sk sv sl sr scnt) = some hn := by
        rw [bh_node_some hbhsl hbhsr]; simp
    
      have hX'bh : bh (RBNode.node Color.black pf.key pf.value n
          (RBNode.node Color.red sk sv sl sr scnt) pf.count) = some (hn + 1) := by
        rw [bh_node_some hbhN hs'bh]; simp
      have hX'rr : noRedRedB (RBNode.node Color.black pf.key pf.value n
          (RBNode.node Color.red sk sv sl sr scnt) pf.count) = true := by
        refine noRedRedB_node.mpr ⟨fun hc => absurd hc (by decide), hrrN, ?_⟩
        exact noRedRedB_node.mpr ⟨fun _ => ⟨slb, srb⟩, hrrsl, hrrsr⟩
      have hcX' : countOkB (RBNode.node Color.black pf.key pf.value n
          (RBNode.node Color.red sk sv sl sr scnt) pf.count) = true :=
        countOkB_node.mpr ⟨hcntpf, hcN, countOkB_node.mpr ⟨hscnt, hcsl, hcsr⟩⟩
      rw [ite_color_red hpfred] at hbhrest
      refine ⟨?_, ?_, ?_, ?_⟩
      · exact assemble_black rest _ (fun _ => rfl) (lastB_tail pf rest hlast)
      · exact assemble_noRedRed rest _ hrest hX'rr (pathRRtop_black rest rfl)
      · exact assemble_bh rest _ _ hbhrest hX'bh
      · exact assemble_countOk rest _ hcrest hcX'
  | case7 n pf rest hpd sk sv sl sr scnt hsr hpf hs0 hs hneg ih =>
    intro hn hcol hrrN hbhN hcN hrrP hbhP hcP hlast
    obtain ⟨ho, hredo, hpair, hrest⟩ := pathRR_cons.mp hrrP
    obtain ⟨hbhs, hbhrest⟩ := pathBH_cons.mp hbhP
    obtain ⟨hcntpf, hcos, hcrest⟩ := pathCount_cons.mp hcP
    rw [hs] at ho hbhs hcos hcntpf
    obtain ⟨hscred, hrrsl, hrrsr⟩ := noRedRedB_node.mp ho
    obtain ⟨h1, hbhsl, hbhsr, hs_heq⟩ := bh_node_inv hbhs
    obtain ⟨hscnt, hcsl, hcsr⟩ := countOkB_node.mp hcos
    rw [show (RBNode.node Color.black sk sv sl sr scnt).count = scnt from rfl] at hcntpf
    have hh1 : h1 = hn := by simp at hs_heq; omega
    rw [hh1] at hbhsl hbhsr
    have srb : sr.color = .black := color_black_of_ne_red hsr
    have hpfb : pf.color = .black := color_black_of_ne_red hpf
    rw [fixDB_cons_left n pf rest hpd, hs]
    simp only [if_neg hsr]
    split
    · exfalso
      exact hneg _ _ _ _ _ hs rfl (proof_irrel_heq hs hs)
    · rename_i h2
      rw [if_neg hpf]
      have slb : sl.color = .black := by
        cases hsl : sl with
        | nil => rfl
        | node c0 k0 v0 l0 r0 c0n =>
          cases c0 with
          | black => rfl
          | red => exact (h2 k0 v0 l0 r0 c0n hsl).elim
      have hs'bh : bh (RBNode.node Color.red sk sv sl sr scnt) = some hn := by
        rw [bh_node_some hbhsl hbhsr]; simp
      have hX'bh : bh (RBNode.node Color.black pf.key pf.value n
          (RBNode.node Color.red sk sv sl sr scnt) pf.count) = some (hn + 1) := by
        rw [bh_node_some hbhN hs'bh]; simp
      have hX'rr : noRedRedB (RBNode.node Color.black pf.key pf.value n
          (RBNode.node Color.red sk sv sl sr scnt) pf.count) = true := by
        refine noRedRedB_node.mpr ⟨fun hc => absurd hc (by decide), hrrN, ?_⟩
        exact noRedRedB_node.mpr ⟨fun _ => ⟨slb, srb⟩, hrrsl, hrrsr⟩
      have hcX' : countOkB (RBNode.node Color.black pf.key pf.value n
          (RBNode.node Color.red sk sv sl sr scnt) pf.count) = true :=
        countOkB_node.mpr ⟨hcntpf, hcN, countOkB_node.mpr ⟨hscnt, hcsl, hcsr⟩⟩
      rw [ite_color_black hpfb] at hbhrest
      exact ih (hn + 1) rfl hX'rr hX'bh hcX' hrest hbhrest hcrest
        (lastB_tail pf rest hlast)
  | case8 n pf rest hpd sc sk sv sl sr scnt hs0 hsr hscnb hs hneg ih =>
    intro hn hcol hrrN hbhN hcN hrrP hbhP hcP hlast
    obtain ⟨ho, hredo, hpair, hrest⟩ := pathRR_cons.mp hrrP
    obtain ⟨hbhs, hbhrest⟩ := pathBH_cons.mp hbhP
    obtain ⟨hcntpf, hcos, hcrest⟩ := pathCount_cons.mp hcP
    rw [hs] at ho hbhs hcos hcntpf
    obtain ⟨hscred, hrrsl, hrrsr⟩ := noRedRedB_node.mp ho
    obtain ⟨h1, hbhsl, hbhsr, hs_heq⟩ := bh_node_inv hbhs
    obtain ⟨hscnt, hcsl, hcsr⟩ := countOkB_node.mp hcos
    rw [show (RBNode.node sc sk sv sl sr scnt).count = scnt from rfl] at hcntpf
    have hscr : sc = .red := color_red_of_ne_black hscnb
    obtain ⟨slb, srb⟩ := hscred hscr
    have hh1 : h1 = hn + 1 := by rw [ite_color_red hscr] at hs_heq; omega
    rw [hh1] at hbhsl hbhsr
    have hpfb : pf.color = .black := by
      cases hc : pf.color with
      | black => rfl
      | red =>
        have h9 : sc = Color.black := by
          have := hredo hc
          rw [hs] at this
          exact this
        rw [hscr] at h9
        exact absurd h9 (by decide)
    rw [fixDB_cons_left n pf rest hpd, hs]
    simp only [if_neg hsr]
    split
    · exfalso
      simp [RBNode.color] at slb
    · rename_i h2
      rw [if_neg hscnb]
      refine ih hn hcol hrrN hbhN hcN ⟨hrrsl, fun _ => slb, ?_, hrrsr, ?_, ?_, hrest⟩
        ⟨hbhsl, hbhsr, hbhrest⟩ ⟨rfl, hcsl, rfl, hcsr, ?_⟩ ?_
      · intro g hg
        simp only [List.head?_cons, Option.mem_def, Option.some.injEq] at hg
        subst hg
        rintro ⟨-, h2c⟩
        have h2c' : pf.color = Color.red := h2c
        exact absurd (hpfb.symm.trans h2c') (by decide)
      · intro h2c
        have h2c' : pf.color = Color.red := h2c
        exact absurd (hpfb.symm.trans h2c') (by decide)
      · intro g hg
        rintro ⟨h2c, -⟩
        have h2c' : pf.color = Color.red := h2c
        exact absurd (hpfb.symm.trans h2c') (by decide)
      · show pathCount rest (1 + (1 + n.count + sl.count) + sr.count)
        rw [show (1 + (1 + n.count + sl.count) + sr.count) = pf.count from by omega]
        exact hcrest
      · intro g hg
        rw [List.getLast?_cons_cons] at hg
        cases rest with
        | nil =>
          simp only [List.getLast?_singleton, Option.mem_def, Option.some.injEq] at hg
          subst hg
          exact hpfb
        | cons a t =>
          rw [List.getLast?_cons_cons] at hg
          exact hlast g (by rw [List.getLast?_cons_cons]; exact hg)
  | case9 n pf rest hpd hs hpfred =>
    intro hn hcol hrrN hbhN hcN hrrP hbhP hcP hlast
    exfalso
    obtain ⟨hbhs, -⟩ := pathBH_cons.mp hbhP
    rw [hs] at hbhs
    simp only [bh, Option.some.injEq] at hbhs
    omega
  | case10 n pf rest hpd hs hpfred ih =>
    intro hn hcol hrrN hbhN hcN hrrP hbhP hcP hlast
    exfalso
    obtain ⟨hbhs, -⟩ := pathBH_cons.mp hbhP
    rw [hs] at hbhs
    simp only [bh, Option.some.injEq] at hbhs
    omega
  | case11 n pf rest hpd sc sk sv sl sr scnt hs hsl =>
    intro hn hcol hrrN hbhN hcN hrrP hbhP hcP hlast
    obtain ⟨ho, hredo, hpair, hrest⟩ := pathRR_cons.mp hrrP
    obtain ⟨hbhs, hbhrest⟩ := pathBH_cons.mp hbhP
    obtain ⟨hcntpf, hcos, hcrest⟩ := pathCount_cons.mp hcP
    rw [hs] at ho hbhs hcos hcntpf
    obtain ⟨hscred, hrrsl, hrrsr⟩ := noRedRedB_node.mp ho
    obtain ⟨h1, hbhsl, hbhsr, hs_heq⟩ := bh_node_inv hbhs
    obtain ⟨hscnt, hcsl, hcsr⟩ := countOkB_node.mp hcos
    rw [show (RBNode.node sc sk sv sl sr scnt).count = scnt from rfl] at hcntpf
    have hscb : sc = .black := by
      cases sc with
      | black => rfl
      | red => exact absurd (hscred rfl).1 (by rw [hsl]; decide)
    have hh1 : h1 = hn := by rw [hscb] at hs_heq; simp at hs_heq; omega
    rw [hh1] at hbhsl hbhsr
    rw [fixDB_cons_right n pf rest hpd, hs]
    simp only [if_pos hsl]
    rw [repaint_black_self hcol]
    have hpN : bh (mkRecount Color.black pf.key pf.value sr n) = some (hn + 1) := by
      rw [bh_mkRecount hbhsr hbhN]; simp
    have hslb : bh (repaint .black sl) = some (hn + 1) := bh_repaint_black_of_red hsl hbhsl
    have hX : bh (mkRecount pf.color sk sv
        (repaint .black sl) (mkRecount Color.black pf.key pf.value sr n)) =
        some (hn + 1 + if pf.color = .black then 1 else 0) := by
      rw [bh_mkRecount hslb hpN]
    refine ⟨?_, ?_, ?_, ?_⟩
    · refine assemble_black rest _ ?_ (lastB_tail pf rest hlast)
      intro hr
      subst hr
      exact hlast pf (by simp)
    · refine assemble_noRedRed rest _ hrest ?_ hpair
      refine noRedRedB_node.mpr ⟨fun _ => ⟨repaint_black_color _, rfl⟩, ?_, ?_⟩
      · exact noRedRedB_repaint_black hrrsl
      · exact noRedRedB_node.mpr ⟨fun hc => absurd hc (by decide), hrrsr, hrrN⟩
    · exact assemble_bh rest _ _ hbhrest hX
    · refine assemble_countOk rest _ ?_ ?_
      · have hXc : (mkRecount pf.color sk sv
            (repaint .black sl) (mkRecount Color.black pf.key pf.value sr n)).count
            = pf.count := by
          rw [mkRecount_count, mkRecount_count, repaint_count]
          omega
        rw [hXc]
        exact hcrest
      · exact countOkB_mkRecount (countOkB_repaint _ hcsl) (countOkB_mkRecount hcsr hcN)
  | case12 n pf rest hpd sc sk sv sl scnt hsl zk zv zl zr zcnt hs hs2 =>
    intro hn hcol hrrN hbhN hcN hrrP hbhP hcP hlast
    obtain ⟨ho, hredo, hpair, hrest⟩ := pathRR_cons.mp hrrP
    obtain ⟨hbhs, hbhrest⟩ := pathBH_cons.mp hbhP
    obtain ⟨hcntpf, hcos, hcrest⟩ := pathCount_cons.mp hcP
    rw [hs] at ho hbhs hcos hcntpf
    obtain ⟨hscred, hrrsl, hrrsr⟩ := noRedRedB_node.mp ho
    obtain ⟨h1, hbhsl, hbhsr, hs_heq⟩ := bh_node_inv hbhs
    obtain ⟨hscnt, hcsl, hcsr⟩ := countOkB_node.mp hcos
    rw [show (RBNode.node sc sk sv sl (RBNode.node Color.red zk zv zl zr zcnt) scnt).count
        = scnt from rfl] at hcntpf
    rw [show (RBNode.node Color.red zk zv zl zr zcnt : RBNode α β).count = zcnt from rfl]
      at hscnt
    have hscb : sc = .black := by
      cases sc with
      | black => rfl
      | red => exact absurd (hscred rfl).2 (by simp [RBNode.color])
    have hh1 : h1 = hn := by rw [hscb] at hs_heq; simp at hs_heq; omega
    rw [hh1] at hbhsl hbhsr
    obtain ⟨hzred, hrrzl, hrrzr⟩ := noRedRedB_node.mp hrrsr
    obtain ⟨hz, hbhzl, hbhzr, hz_heq⟩ := bh_node_inv hbhsr
    obtain ⟨hzcnt, hczl, hczr⟩ := countOkB_node.mp hcsr
    have hhz : hz = hn := by simp at hz_heq; omega
    rw [hhz] at hbhzl hbhzr
    rw [fixDB_cons_right n pf rest hpd, hs]
    simp only [if_neg hsl]
    rw [repaint_black_self hcol]
    have hsN : bh (mkRecount Color.black sk sv sl zl) = some (hn + 1) := by
      rw [bh_mkRecount hbhsl hbhzl]; simp
    have hpN : bh (mkRecount Color.black pf.key pf.value zr n) = some (hn + 1) := by
      rw [bh_mkRecount hbhzr hbhN]; simp
    have hX : bh (mkRecount pf.color zk zv
        (mkRecount Color.black sk sv sl zl)
        (mkRecount Color.black pf.key pf.value zr n)) =
        some (hn + 1 + if pf.color = .black then 1 else 0) := by
      rw [bh_mkRecount hsN hpN]
    refine ⟨?_, ?_, ?_, ?_⟩
    · refine assemble_black rest _ ?_ (lastB_tail pf rest hlast)
      intro hr
      subst hr
      exact hlast pf (by simp)
    · refine assemble_noRedRed rest _ hrest ?_ hpair
      refine noRedRedB_node.mpr ⟨fun _ => ⟨rfl, rfl⟩, ?_, ?_⟩
      · exact noRedRedB_node.mpr ⟨fun hc => absurd hc (by decide), hrrsl, hrrzl⟩
      · exact noRedRedB_node.mpr ⟨fun hc => absurd hc (by decide), hrrzr, hrrN⟩
    · exact assemble_bh rest _ _ hbhrest hX
    · refine assemble_countOk rest _ ?_ ?_
      · have hXc : (mkRecount pf.color zk zv
            (mkRecount Color.black sk sv sl zl)
            (mkRecount Color.black pf.key pf.value zr n)).count = pf.count := by
          rw [mkRecount_count, mkRecount_count, mkRecount_count]
          omega
        rw [hXc]
        exact hcrest
      · exact countOkB_mkRecount (countOkB_mkRecount hcsl hczl) (countOkB_mkRecount hczr hcN)
  | case13 n pf rest hpd sk sv sl sr scnt hsl hpfred hs0 hs hneg =>
    intro hn hcol hrrN hbhN hcN hrrP hbhP hcP hlast
    obtain ⟨ho, hredo, hpair, hrest⟩ := pathRR_cons.mp hrrP
    obtain ⟨hbhs, hbhrest⟩ := pathBH_cons.mp hbhP
    obtain ⟨hcntpf, hcos, hcrest⟩ := pathCount_cons.mp hcP
    rw [hs] at ho hbhs hcos hcntpf
    obtain ⟨hscred, hrrsl, hrrsr⟩ := noRedRedB_node.mp ho
    obtain ⟨h1, hbhsl, hbhsr, hs_heq⟩ := bh_node_inv hbhs
    obtain ⟨hscnt, hcsl, hcsr⟩ := countOkB_node.mp hcos
    rw [show (RBNode.node Color.black sk sv sl sr scnt).count = scnt from rfl] at hcntpf
    have hh1 : h1 = hn := by simp at hs_heq; omega
    rw [hh1] at hbhsl hbhsr
    have slb : sl.color = .black := color_black_of_ne_red hsl
    rw [fixDB_cons_right n pf rest hpd, hs]
    simp only [if_neg hsl]
    split
    · exfalso
      exact hneg _ _ _ _ _ hs rfl (proof_irrel_heq hs hs)
    · rename_i h2
      rw [if_pos hpfred]
      have srb : sr.color = .black := by
        cases hsr9 : sr with
        | nil => rfl
        | node c0 k0 v0 l0 r0 c0n =>
          cases c0 with
          | black => rfl
          | red => exact (h2 k0 v0 l0 r0 c0n hsr9).elim
      have hs'bh : bh (RBNode.node Color.red sk sv sl sr scnt) = some hn := by
        rw [bh_node_some hbhsl hbhsr]; simp
      have hX'bh : bh (RBNode.node Color.black pf.key pf.value
          (RBNode.node Color.red sk sv sl sr scnt) n pf.count) = some (hn + 1) := by
        rw [bh_node_some hs'bh hbhN]; simp
      have hX'rr : noRedRedB (RBNode.node Color.black pf.key pf.value
          (RBNode.node Color.red sk sv sl sr scnt) n pf.count) = true := by
        refine noRedRedB_node.mpr ⟨fun hc => absurd hc (by decide), ?_, hrrN⟩
        exact noRedRedB_node.mpr ⟨fun _ => ⟨slb, srb⟩, hrrsl, hrrsr⟩
      have hcX' : countOkB (RBNode.node Color.black pf.key pf.value
          (RBNode.node Color.red sk sv sl sr scnt) n pf.count) = true :=
        countOkB_node.mpr ⟨show pf.count = 1 + scnt + n.count by omega,
          countOkB_node.mpr ⟨hscnt, hcsl, hcsr⟩, hcN⟩
      rw [ite_color_red hpfred] at hbhrest
      refine ⟨?_, ?_, ?_, ?_⟩
      · exact assemble_black rest _ (fun _ => rfl) (lastB_tail pf rest hlast)
      · exact assemble_noRedRed rest _ hrest hX'rr (pathRRtop_black rest rfl)
      · exact assemble_bh rest _ _ hbhrest hX'bh
      · exact assemble_countOk rest _ hcrest hcX'
  | case14 n pf rest hpd sk sv sl sr scnt hsl hpf hs0 hs hneg ih =>
    intro hn hcol hrrN hbhN hcN hrrP hbhP hcP hlast
    obtain ⟨ho, hredo, hpair, hrest⟩ := pathRR_cons.mp hrrP
    obtain ⟨hbhs, hbhrest⟩ := pathBH_cons.mp hbhP
    obtain ⟨hcntpf, hcos, hcrest⟩ := pathCount_cons.mp hcP
    rw [hs] at ho hbhs hcos hcntpf
    obtain ⟨hscred, hrrsl, hrrsr⟩ := noRedRedB_node.mp ho
    obtain ⟨h1, hbhsl, hbhsr, hs_heq⟩ := bh_node_inv hbhs
    obtain ⟨hscnt, hcsl, hcsr⟩ := countOkB_node.mp hcos
    rw [show (RBNode.node Color.black sk sv sl sr scnt).count = scnt from rfl] at hcntpf
    have hh1 : h1 = hn := by simp at hs_heq; omega
    rw [hh1] at hbhsl hbhsr
    have slb : sl.color = .black := color_black_of_ne_red hsl
    have hpfb : pf.color = .black := color_black_of_ne_red hpf
    rw [fixDB_cons_right n pf rest hpd, hs]
    simp only [if_neg hsl]
    split
    · exfalso
      exact hneg _ _ _ _ _ hs rfl (proof_irrel_heq hs hs)
    · rename_i h2
      rw [if_neg hpf]
      have srb : sr.color = .black := by
        cases hsr9 : sr with
        | nil => rfl
        | node c0 k0 v0 l0 r0 c0n =>
          cases c0 with
          | black => rfl
          | red => exact (h2 k0 v0 l0 r0 c0n hsr9).elim
      have hs'bh : bh (RBNode.node Color.red sk sv sl sr scnt) = some hn := by
        rw [bh_node_some hbhsl hbhsr]; simp
      have hX'bh : bh (RBNode.node Color.black pf.key pf.value
          (RBNode.node Color.red sk sv sl sr scnt) n pf.count) = some (hn + 1) := by
        rw [bh_node_some hs'bh hbhN]; simp
      have hX'rr : noRedRedB (RBNode.node Color.black pf.key pf.value
          (RBNode.node Color.red sk sv sl sr scnt) n pf.count) = true := by
        refine noRedRedB_node.mpr ⟨fun hc => absurd hc (by decide), ?_, hrrN⟩
        exact noRedRedB_node.mpr ⟨fun _ => ⟨slb, srb⟩, hrrsl, hrrsr⟩
      have hcX' : countOkB (RBNode.node Color.black pf.key pf.value
          (RBNode.node Color.red sk sv sl sr scnt) n pf.count) = true :=
        countOkB_node.mpr ⟨show pf.count = 1 + scnt + n.count by omega,
          countOkB_node.mpr ⟨hscnt, hcsl, hcsr⟩, hcN⟩
      rw [ite_color_black hpfb] at hbhrest
      exact ih (hn + 1) rfl hX'rr hX'bh hcX' hrest hbhrest hcrest
        (lastB_tail pf rest hlast)
  | case15 n pf rest hpd sc sk sv sl sr scnt hs0 hsl hscnb hs hneg ih =>
    intro hn hcol hrrN hbhN hcN hrrP hbhP hcP hlast
    obtain ⟨ho, hredo, hpair, hrest⟩ := pathRR_cons.mp hrrP
    obtain ⟨hbhs, hbhrest⟩ := pathBH_cons.mp hbhP
    obtain ⟨hcntpf, hcos, hcrest⟩ := pathCount_cons.mp hcP
    rw [hs] at ho hbhs hcos hcntpf
    obtain ⟨hscred, hrrsl, hrrsr⟩ := noRedRedB_node.mp ho
    obtain ⟨h1, hbhsl, hbhsr, hs_heq⟩ := bh_node_inv hbhs
    obtain ⟨hscnt, hcsl, hcsr⟩ := countOkB_node.mp hcos
    rw [show (RBNode.node sc sk sv sl sr scnt).count = scnt from rfl] at hcntpf
    have hscr : sc = .red := color_red_of_ne_black hscnb
    obtain ⟨slb, srb⟩ := hscred hscr
    have hh1 : h1 = hn + 1 := by rw [ite_color_red hscr] at hs_heq; omega
    rw [hh1] at hbhsl hbhsr
    have hpfb : pf.color = .black := by
      cases hc : pf.color with
      | black => rfl
      | red =>
        have h9 : sc = Color.black := by
          have := hredo hc
          rw [hs] at this
          exact this
        rw [hscr] at h9
        exact absurd h9 (by decide)
    rw [fixDB_cons_right n pf rest hpd, hs]
    simp only [if_neg hsl]
    split
    · exfalso
      simp [RBNode.color] at srb
    · rename_i h2
      rw [if_neg hscnb]
      refine ih hn hcol hrrN hbhN hcN ⟨hrrsr, fun _ => srb, ?_, hrrsl, ?_, ?_, hrest⟩
        ⟨hbhsr, hbhsl, hbhrest⟩
        ⟨show 1 + sr.count + n.count = 1 + n.count + sr.count by omega, hcsr,
          show 1 + sl.count + (1 + sr.count + n.count)
            = 1 + (1 + sr.count + n.count) + sl.count by omega, hcsl, ?_⟩ ?_
      · intro g hg
        simp only [List.head?_cons, Option.mem_def, Option.some.injEq] at hg
        subst hg
        rintro ⟨-, h2c⟩
        have h2c' : pf.color = Color.red := h2c
        exact absurd (hpfb.symm.trans h2c') (by decide)
      · intro h2c
        have h2c' : pf.color = Color.red := h2c
        exact absurd (hpfb.symm.trans h2c') (by decide)
      · intro g hg
        rintro ⟨h2c, -⟩
        have h2c' : pf.color = Color.red := h2c
        exact absurd (hpfb.symm.trans h2c') (by decide)
      · show pathCount rest (1 + sl.count + (1 + sr.count + n.count))
        rw [show (1 + sl.count + (1 + sr.count + n.count)) = pf.count from by omega]
        exact hcrest
      · intro g hg
        rw [List.getLast?_cons_cons] at hg
        cases rest with
        | nil =>
          simp only [List.getLast?_singleton, Option.mem_def, Option.some.injEq] at hg
          subst hg
          exact hpfb
        | cons a t =>
          rw [List.getLast?_cons_cons] at hg
          exact hlast g (by rw [List.getLast?_cons_cons]; exact hg)


theorem pathRR_decMap (frames : List (Frame α β)) (h : pathRR frames) :
    pathRR (frames.map decFrame) := by
  induction frames with
  | nil => trivial
  | cons f rest ih =>
    obtain ⟨ho, hred, hpair, hrest⟩ := h
    refine ⟨ho, hred, ?_, ih hrest⟩
    intro g hg
    cases rest with
    | nil => simp at hg
    | cons a t =>
      simp only [List.map_cons, List.head?_cons, Option.mem_def, Option.some.injEq] at hg
      subst hg
      exact hpair a rfl

theorem pathBH_decMap (frames : List (Frame α β)) :
    ∀ h, pathBH frames h → pathBH (frames.map decFrame) h := by
  induction frames with
  | nil => intro h _; trivial
  | cons f rest ih =>
    intro h hp
    obtain ⟨ho, hrest⟩ := hp
    exact ⟨ho, ih _ hrest⟩

theorem pathCount_decMap (frames : List (Frame α β)) :
    ∀ c, pathCount frames (c + 1) → pathCount (frames.map decFrame) c := by
  induction frames with
  | nil => intro c _; trivial
  | cons f rest ih =>
    intro c hp
    obtain ⟨hcnt, ho, hrest⟩ := hp
    refine ⟨show f.count - 1 = 1 + c + f.other.count by omega, ho, ?_⟩
    refine ih (f.count - 1) ?_
    rw [show f.count - 1 + 1 = f.count by omega]
    exact hrest

theorem lastB_decMap (frames : List (Frame α β))
    (h : ∀ g ∈ frames.getLast?, g.color = .black) :
    ∀ g ∈ (frames.map decFrame).getLast?, g.color = .black := by
  induction frames with
  | nil => intro g hg; simp at hg
  | cons f rest ih =>
    cases rest with
    | nil =>
      intro g hg
      simp only [List.map_cons, List.map_nil, List.getLast?_singleton, Option.mem_def,
        Option.some.injEq] at hg
      subst hg
      exact h f (by simp)
    | cons a t =>
      intro g hg
      simp only [List.map_cons, List.getLast?_cons_cons] at hg
      exact ih (lastB_tail f (a :: t) h) g hg

theorem pathRRtop_decMap (frames : List (Frame α β)) (c : Color)
    (h : pathRRtop frames c) : pathRRtop (frames.map decFrame) c := by
  cases frames with
  | nil => intro g hg; simp at hg
  | cons f rest =>
    intro g hg
    simp only [List.map_cons, List.head?_cons, Option.mem_def, Option.some.injEq] at hg
    subst hg
    exact h f rfl

theorem assembleD_eq (frames : List (Frame α β)) :
    ∀ x : RBNode α β, assembleD x frames = assemble x (frames.map decFrame) := by
  induction frames with
  | nil => intro x; rfl
  | cons f rest ih => intro x; rw [assembleD, List.map_cons, assemble, ih]

/-- Combined validity for `assembleD`: assembling a one-node-smaller subtree
while decrementing every ancestor count preserves the invariants. -/
theorem assembleD_valid (frames : List (Frame α β)) (x : RBNode α β) (h : Nat)
    (hrr : noRedRedB x = true) (hbh : bh x = some h) (hc : countOkB x = true)
    (hp : pathRR frames) (htop : pathRRtop frames x.color) (hbhP : pathBH frames h)
    (hcP : pathCount frames (x.count + 1))
    (hx : frames = [] → x.color = .black)
    (hlast : ∀ g ∈ frames.getLast?, g.color = .black) :
    (assembleD x frames).color = .black ∧ noRedRedB (assembleD x frames) = true ∧
      (bh (assembleD x frames)).isSome = true ∧ countOkB (assembleD x frames) = true := by
  rw [assembleD_eq]
  refine ⟨?_, ?_, ?_, ?_⟩
  · refine assemble_black _ _ ?_ (lastB_decMap frames hlast)
    intro hm
    exact hx (by simpa using hm)
  · exact assemble_noRedRed _ _ (pathRR_decMap frames hp) hrr (pathRRtop_decMap frames _ htop)
  · exact assemble_bh _ _ _ (pathBH_decMap frames h hbhP) hbh
  · exact assemble_countOk _ _ (pathCount_decMap frames x.count hcP) hc


theorem removeLeaf_valid (c : Color) (k : α) (v : β) (l r : RBNode α β) (cnt : Nat)
    (frames : List (Frame α β)) (h0 : Nat)
    (hchild : l.isNil = true ∨ r.isNil = true)
    (hrr : noRedRedB (.node c k v l r cnt) = true)
    (hbh : bh (.node c k v l r cnt) = some h0)
    (hcnt : countOkB (.node c k v l r cnt) = true)
    (hp : pathRR frames) (hbhP : pathBH frames h0) (hcP : pathCount frames cnt)
    (hx : frames = [] → c = .black)
    (hlast : ∀ g ∈ frames.getLast?, g.color = .black) :
    (removeLeaf (.node c k v l r cnt) frames).color = .black ∧
      noRedRedB (removeLeaf (.node c k v l r cnt) frames) = true ∧
      (bh (removeLeaf (.node c k v l r cnt) frames)).isSome = true ∧
      countOkB (removeLeaf (.node c k v l r cnt) frames) = true := by
  obtain ⟨hcred, hrrl, hrrr⟩ := noRedRedB_node.mp hrr
  obtain ⟨h1, hbhl, hbhr, hheq⟩ := bh_node_inv hbh
  obtain ⟨hc0, hcl, hcr⟩ := countOkB_node.mp hcnt
  by_cases hcRed : c = .red
  · have heqL : removeLeaf (RBNode.node c k v l r cnt) frames = assembleD .nil frames := by
      rw [removeLeaf.eq_def]
      simp only [if_pos hcRed]
    rw [heqL]
    -- a red node here must be a leaf: its nil child forces black height 0,
    -- and a non-nil sibling would be black with positive black height
    have hln : l = .nil ∧ r = .nil := by
      rcases hchild with hl | hr
      · have hl9 : l = .nil := by
          cases l with
          | nil => rfl
          | node _ _ _ _ _ _ => simp [RBNode.isNil] at hl
        subst hl9
        have h10 : h1 = 0 := by simp [bh] at hbhl; omega
        refine ⟨rfl, ?_⟩
        cases r with
        | nil => rfl
        | node rc rk rv rl rr rcnt =>
          have hrb : rc = .black := (hcred hcRed).2
          obtain ⟨h2, -, -, hh2⟩ := bh_node_inv hbhr
          rw [hrb] at hh2
          simp at hh2
          omega
      · have hr9 : r = .nil := by
          cases r with
          | nil => rfl
          | node _ _ _ _ _ _ => simp [RBNode.isNil] at hr
        subst hr9
        have h10 : h1 = 0 := by simp [bh] at hbhr; omega
        refine ⟨?_, rfl⟩
        cases l with
        | nil => rfl
        | node lc lk lv ll lr lcnt =>
          have hlb : lc = .black := (hcred hcRed).1
          obtain ⟨h2, -, -, hh2⟩ := bh_node_inv hbhl
          rw [hlb] at hh2
          simp at hh2
          omega
    obtain ⟨hl9, hr9⟩ := hln
    subst hl9
    subst hr9
    have hh0 : h0 = 0 := by
      simp [bh] at hbhl
      rw [ite_color_red hcRed] at hheq
      omega
    have hcnt1 : cnt = 1 := by simp [RBNode.count] at hc0; omega
    refine assembleD_valid frames .nil 0 rfl rfl rfl hp (pathRRtop_black frames rfl) ?_ ?_
      (fun _ => rfl) hlast
    · rw [← hh0]; exact hbhP
    · show pathCount frames (0 + 1)
      rw [show 0 + 1 = cnt from by omega]
      exact hcP
  · have hcb : c = .black := color_black_of_ne_red hcRed
    by_cases hone : ¬ l.isNil = true ∨ ¬ r.isNil = true
    · rcases hchild with hl | hr
      · -- left child nil, right child the single (red) child
        have hl9 : l = .nil := by
          cases l with
          | nil => rfl
          | node _ _ _ _ _ _ => simp [RBNode.isNil] at hl
        subst hl9
        have h10 : h1 = 0 := by simp [bh] at hbhl; omega
        have hh0 : h0 = 1 := by rw [ite_color_black hcb] at hheq; omega
        cases r with
        | nil =>
          exfalso
          rcases hone with h | h
          · exact h rfl
          · exact h rfl
        | node rc rk rv rl rr rcnt =>
          have hrc : rc = .red := by
            cases rc with
            | red => rfl
            | black =>
              obtain ⟨h2, -, -, hh2⟩ := bh_node_inv hbhr
              simp at hh2
              omega
          have heqL : removeLeaf (RBNode.node c k v .nil
              (RBNode.node rc rk rv rl rr rcnt) cnt) frames
              = assembleD (repaint .black (RBNode.node rc rk rv rl rr rcnt)) frames := by
            rw [removeLeaf.eq_def]
            simp [hcRed, RBNode.isNil]
          rw [heqL]
          have hrcol : (RBNode.node rc rk rv rl rr rcnt).color = .red := hrc
          have hbhr0 : bh (RBNode.node rc rk rv rl rr rcnt) = some 0 := by
            rw [hbhr, h10]
          refine assembleD_valid frames _ 1 (noRedRedB_repaint_black hrrr)
            (bh_repaint_black_of_red hrcol hbhr0) (countOkB_repaint _ hcr) hp
            (pathRRtop_black frames (repaint_black_color _)) ?_ ?_
            (fun _ => repaint_black_color _) hlast
          · rw [← hh0]; exact hbhP
          · rw [repaint_count]
            show pathCount frames (rcnt + 1)
            rw [show rcnt + 1 = cnt from by simp [RBNode.count] at hc0; omega]
            exact hcP
      · -- right child nil, left child the single (red) child
        have hr9 : r = .nil := by
          cases r with
          | nil => rfl
          | node _ _ _ _ _ _ => simp [RBNode.isNil] at hr
        subst hr9
        have h10 : h1 = 0 := by simp [bh] at hbhr; omega
        have hh0 : h0 = 1 := by rw [ite_color_black hcb] at hheq; omega
        cases l with
        | nil =>
          exfalso
          rcases hone with h | h
          · exact h rfl
          · exact h rfl
        | node lc lk lv ll lr lcnt =>
          have hlc : lc = .red := by
            cases lc with
            | red => rfl
            | black =>
              obtain ⟨h2, -, -, hh2⟩ := bh_node_inv hbhl
              simp at hh2
              omega
          have heqL : removeLeaf (RBNode.node c k v
              (RBNode.node lc lk lv ll lr lcnt) .nil cnt) frames
              = assembleD (repaint .black (RBNode.node lc lk lv ll lr lcnt)) frames := by
            rw [removeLeaf.eq_def]
            simp [hcRed, RBNode.isNil]
          rw [heqL]
          have hlcol : (RBNode.node lc lk lv ll lr lcnt).color = .red := hlc
          have hbhl0 : bh (RBNode.node lc lk lv ll lr lcnt) = some 0 := by
            rw [hbhl, h10]
          refine assembleD_valid frames _ 1 (noRedRedB_repaint_black hrrl)
            (bh_repaint_black_of_red hlcol hbhl0) (countOkB_repaint _ hcl) hp
            (pathRRtop_black frames (repaint_black_color _)) ?_ ?_
            (fun _ => repaint_black_color _) hlast
          · rw [← hh0]; exact hbhP
          · rw [repaint_count]
            show pathCount frames (lcnt + 1)
            rw [show lcnt + 1 = cnt from by simp [RBNode.count] at hc0; omega]
            exact hcP
    · push_neg at hone
      obtain ⟨hl, hr⟩ := hone
      have hl9 : l = .nil := by
        cases l with
        | nil => rfl
        | node _ _ _ _ _ _ => simp [RBNode.isNil] at hl
      have hr9 : r = .nil := by
        cases r with
        | nil => rfl
        | node _ _ _ _ _ _ => simp [RBNode.isNil] at hr
      subst hl9
      subst hr9
      have h10 : h1 = 0 := by simp [bh] at hbhl; omega
      have hh0 : h0 = 1 := by rw [ite_color_black hcb] at hheq; omega
      have hcnt1 : cnt = 1 := by simp [RBNode.count] at hc0; omega
      cases frames with
      | nil =>
        have heqL : removeLeaf (RBNode.node c k v .nil .nil cnt)
            ([] : List (Frame α β)) = .nil := by
          rw [removeLeaf.eq_def]
          simp [hcRed, RBNode.isNil]
        rw [heqL]
        exact ⟨rfl, rfl, rfl, rfl⟩
      | cons f fr =>
        have heqL : removeLeaf (RBNode.node c k v .nil .nil cnt) (f :: fr)
            = fixDB .nil ((f :: fr).map decFrame) := by
          rw [removeLeaf.eq_def]
          simp [hcRed, RBNode.isNil]
        rw [heqL]
        refine fixDB_valid .nil ((f :: fr).map decFrame) 0 rfl rfl rfl rfl
          (pathRR_decMap _ hp) ?_ ?_ (lastB_decMap _ hlast)
        · refine pathBH_decMap _ 1 ?_
          rw [← hh0]
          exact hbhP
        · refine pathCount_decMap _ 0 ?_
          show pathCount (f :: fr) (0 + 1)
          rw [show 0 + 1 = cnt from by omega]
          exact hcP


theorem walkRight_shape (s : RBNode α β) :
    ∀ acc : List (Frame α β), ¬ s.isNil = true →
      ∃ pc pk pv pl pcnt, (walkRight s acc).2 = RBNode.node pc pk pv pl .nil pcnt := by
  induction s with
  | nil => intro acc hs; exact absurd rfl hs
  | node c k v l r cnt ihl ihr =>
    intro acc hs
    cases r with
    | nil => exact ⟨c, k, v, l, cnt, by rw [walkRight]⟩
    | node rc rk rv rl rr rcnt =>
      have heq : walkRight (RBNode.node c k v l (RBNode.node rc rk rv rl rr rcnt) cnt) acc
          = walkRight (RBNode.node rc rk rv rl rr rcnt)
            ({ color := c, key := k, value := v, other := l, count := cnt, dir := .right }
              :: acc) := by
        rw [walkRight]
      rw [heq]
      exact ihr _ (by simp [RBNode.isNil])

theorem walkRight_append (s : RBNode α β) :
    ∀ acc : List (Frame α β),
      walkRight s acc = ((walkRight s []).1 ++ acc, (walkRight s []).2) := by
  induction s with
  | nil => intro acc; simp [walkRight]
  | node c k v l r cnt ihl ihr =>
    intro acc
    cases r with
    | nil => simp [walkRight]
    | node rc rk rv rl rr rcnt =>
      have heq : ∀ a : List (Frame α β),
          walkRight (RBNode.node c k v l (RBNode.node rc rk rv rl rr rcnt) cnt) a
          = walkRight (RBNode.node rc rk rv rl rr rcnt)
            ({ color := c, key := k, value := v, other := l, count := cnt, dir := .right }
              :: a) := by
        intro a
        rw [walkRight]
      rw [heq, heq, ihr ((⟨c, k, v, l, cnt, Dir.right⟩ : Frame α β) :: acc),
        ihr [(⟨c, k, v, l, cnt, Dir.right⟩ : Frame α β)]]
      simp

theorem walkRight_valid (s : RBNode α β) :
    ∀ (acc : List (Frame α β)) (h : Nat),
      ¬ s.isNil = true →
      noRedRedB s = true → bh s = some h → countOkB s = true →
      pathRR acc → pathRRtop acc s.color → pathBH acc h → pathCount acc s.count →
      acc ≠ [] → (∀ g ∈ acc.getLast?, g.color = .black) →
      ∃ h2, noRedRedB (walkRight s acc).2 = true ∧ bh (walkRight s acc).2 = some h2 ∧
        countOkB (walkRight s acc).2 = true ∧
        pathRR (walkRight s acc).1 ∧ pathRRtop (walkRight s acc).1 ((walkRight s acc).2).color ∧
        pathBH (walkRight s acc).1 h2 ∧ pathCount (walkRight s acc).1 ((walkRight s acc).2).count ∧
        (walkRight s acc).1 ≠ [] ∧ (∀ g ∈ (walkRight s acc).1.getLast?, g.color = .black) := by
  induction s with
  | nil => intro acc h hs; exact absurd rfl hs
  | node c k v l r cnt ihl ihr =>
    intro acc h hs hrr hbh hcnt hp htop hbhP hcP hne hlast
    obtain ⟨hcred, hrrl, hrrr⟩ := noRedRedB_node.mp hrr
    obtain ⟨h1, hbhl, hbhr, hheq⟩ := bh_node_inv hbh
    obtain ⟨hc0, hcl, hcr⟩ := countOkB_node.mp hcnt
    cases r with
    | nil =>
      have heq : walkRight (RBNode.node c k v l .nil cnt) acc
          = (acc, RBNode.node c k v l .nil cnt) := by rw [walkRight]
      rw [heq]
      exact ⟨h, hrr, hbh, hcnt, hp, htop, hbhP, hcP, hne, hlast⟩
    | node rc rk rv rl rr rcnt =>
      have heq : walkRight (RBNode.node c k v l (RBNode.node rc rk rv rl rr rcnt) cnt) acc
          = walkRight (RBNode.node rc rk rv rl rr rcnt)
            ({ color := c, key := k, value := v, other := l, count := cnt, dir := .right }
              :: acc) := by
        rw [walkRight]
      rw [heq]
      have hbhP' : pathBH acc (h1 + if c = .black then 1 else 0) := by
        rw [← hheq]; exact hbhP
      refine ihr _ h1 (by simp [RBNode.isNil]) hrrr hbhr hcr
        ⟨hrrl, fun hfc => (hcred hfc).1, htop, hp⟩ ?_ ⟨hbhl, hbhP'⟩
        ⟨show cnt = 1 + (RBNode.node rc rk rv rl rr rcnt).count + l.count from by
          rw [show (RBNode.node rc rk rv rl rr rcnt).count = rcnt from rfl]
          rw [show (RBNode.node rc rk rv rl rr rcnt).count = rcnt from rfl] at hc0
          omega, hcl, hcP⟩
        (by simp) (lastB_cons _ acc (fun ha => absurd ha hne) hlast)
      intro g hg
      simp only [List.head?_cons, Option.mem_def, Option.some.injEq] at hg
      subst hg
      rintro ⟨hrred, hcc⟩
      have hcc' : c = Color.red := hcc
      have hrc : rc = Color.red := hrred
      have hrb : rc = Color.black := (hcred hcc').2
      rw [hrc] at hrb
      exact absurd hrb (by decide)


theorem findGo_valid (cmp : α → α → Int) (key : α) (n : RBNode α β) :
    ∀ (acc : List (Frame α β)) (h : Nat) (frames : List (Frame α β)) (cur : RBNode α β),
      noRedRedB n = true → bh n = some h → countOkB n = true →
      pathRR acc → pathRRtop acc n.color → pathBH acc h → pathCount acc n.count →
      (acc = [] → n.color = .black) → (∀ g ∈ acc.getLast?, g.color = .black) →
      findGo cmp key n acc = .valid frames cur →
      ∃ c k0 v0 l r cnt h2, cur = RBNode.node c k0 v0 l r cnt ∧
        noRedRedB cur = true ∧ bh cur = some h2 ∧ countOkB cur = true ∧
        pathRR frames ∧ pathRRtop frames c ∧ pathBH frames h2 ∧ pathCount frames cnt ∧
        (frames = [] → c = .black) ∧ (∀ g ∈ frames.getLast?, g.color = .black) := by
  induction n with
  | nil =>
    intro acc h frames cur _ _ _ _ _ _ _ _ _ hfind
    rw [show findGo cmp key (RBNode.nil : RBNode α β) acc = Cursor.invalid from rfl] at hfind
    cases hfind
  | node c k v l r cnt ihl ihr =>
    intro acc h frames cur hrr hbh hcnt hp htop hbhP hcP hroot hlast hfind
    obtain ⟨hcred, hrrl, hrrr⟩ := noRedRedB_node.mp hrr
    obtain ⟨h1, hbhl, hbhr, hheq⟩ := bh_node_inv hbh
    obtain ⟨hc0, hcl, hcr⟩ := countOkB_node.mp hcnt
    have hbhP' : pathBH acc (h1 + if c = .black then 1 else 0) := by
      rw [← hheq]; exact hbhP
    rw [show findGo cmp key (RBNode.node c k v l r cnt) acc =
        (if cmp key k = 0 then Cursor.valid acc (RBNode.node c k v l r cnt)
         else if cmp key k ≤ 0 then
           findGo cmp key l
             ({ color := c, key := k, value := v, other := r, count := cnt, dir := .left }
               :: acc)
         else
           findGo cmp key r
             ({ color := c, key := k, value := v, other := l, count := cnt, dir := .right }
               :: acc)) from by rw [findGo]] at hfind
    by_cases hd0 : cmp key k = 0
    · rw [if_pos hd0] at hfind
      cases hfind
      exact ⟨c, k, v, l, r, cnt, h, rfl, hrr, hbh, hcnt, hp, htop, hbhP, hcP, hroot, hlast⟩
    · rw [if_neg hd0] at hfind
      by_cases hdle : cmp key k ≤ 0
      · rw [if_pos hdle] at hfind
        refine ihl ((⟨c, k, v, r, cnt, Dir.left⟩ : Frame α β) :: acc) h1 frames cur
          hrrl hbhl hcl
          ⟨hrrr, fun hfc => (hcred hfc).2, htop, hp⟩ ?_ ⟨hbhr, hbhP'⟩
          ⟨show cnt = 1 + l.count + r.count from hc0, hcr, hcP⟩
          (fun hh => (List.cons_ne_nil _ _ hh).elim)
          (lastB_cons _ acc (fun ha => hroot ha) hlast) hfind
        intro g hg
        simp only [List.head?_cons, Option.mem_def, Option.some.injEq] at hg
        subst hg
        rintro ⟨hlred, hcc⟩
        have hcc' : c = Color.red := hcc
        have hlb := (hcred hcc').1
        rw [hlred] at hlb
        exact absurd hlb (by decide)
      · rw [if_neg hdle] at hfind
        refine ihr ((⟨c, k, v, l, cnt, Dir.right⟩ : Frame α β) :: acc) h1 frames cur
          hrrr hbhr hcr
          ⟨hrrl, fun hfc => (hcred hfc).1, htop, hp⟩ ?_ ⟨hbhl, hbhP'⟩
          ⟨show cnt = 1 + r.count + l.count from by omega, hcl, hcP⟩
          (fun hh => (List.cons_ne_nil _ _ hh).elim)
          (lastB_cons _ acc (fun ha => hroot ha) hlast) hfind
        intro g hg
        simp only [List.head?_cons, Option.mem_def, Option.some.injEq] at hg
        subst hg
        rintro ⟨hrred, hcc⟩
        have hcc' : c = Color.red := hcc
        have hrb := (hcred hcc').2
        rw [hrred] at hrb
        exact absurd hrb (by decide)


set_option maxHeartbeats 1000000 in
theorem removeAt_valid (c : Color) (k : α) (v : β) (l r : RBNode α β) (cnt : Nat)
    (frames : List (Frame α β)) (h0 : Nat)
    (hrr : noRedRedB (.node c k v l r cnt) = true)
    (hbh : bh (.node c k v l r cnt) = some h0)
    (hcnt : countOkB (.node c k v l r cnt) = true)
    (hp : pathRR frames) (htop : pathRRtop frames c) (hbhP : pathBH frames h0)
    (hcP : pathCount frames cnt)
    (hx : frames = [] → c = .black)
    (hlast : ∀ g ∈ frames.getLast?, g.color = .black) :
    (removeAt (.node c k v l r cnt) frames).color = .black ∧
      noRedRedB (removeAt (.node c k v l r cnt) frames) = true ∧
      (bh (removeAt (.node c k v l r cnt) frames)).isSome = true ∧
      countOkB (removeAt (.node c k v l r cnt) frames) = true := by
  cases l with
  | nil =>
    have heq : removeAt (RBNode.node c k v .nil r cnt) frames
        = removeLeaf (RBNode.node c k v .nil r cnt) frames := by
      rw [removeAt.eq_def]
    rw [heq]
    exact removeLeaf_valid c k v .nil r cnt frames h0 (Or.inl rfl) hrr hbh hcnt hp hbhP hcP
      hx hlast
  | node lc lk lv ll lr lcnt =>
    cases r with
    | nil =>
      have heq : removeAt (RBNode.node c k v (RBNode.node lc lk lv ll lr lcnt) .nil cnt) frames
          = removeLeaf (RBNode.node c k v (RBNode.node lc lk lv ll lr lcnt) .nil cnt) frames := by
        rw [removeAt.eq_def]
      rw [heq]
      exact removeLeaf_valid c k v (RBNode.node lc lk lv ll lr lcnt) .nil cnt frames h0
        (Or.inr rfl) hrr hbh hcnt hp hbhP hcP hx hlast
    | node rc rk rv rl rr rcnt =>
      obtain ⟨hcred, hrrl, hrrr⟩ := noRedRedB_node.mp hrr
      obtain ⟨h1, hbhl, hbhr, hheq⟩ := bh_node_inv hbh
      obtain ⟨hc0, hcl, hcr⟩ := countOkB_node.mp hcnt
      rw [show (RBNode.node lc lk lv ll lr lcnt).count = lcnt from rfl,
        show (RBNode.node rc rk rv rl rr rcnt).count = rcnt from rfl] at hc0
      obtain ⟨pc, pk, pv, pl, pcnt, hshape⟩ :=
        walkRight_shape (RBNode.node lc lk lv ll lr lcnt) [] (by simp [RBNode.isNil])
      have hbhP' : pathBH frames (h1 + if c = .black then 1 else 0) := by
        rw [← hheq]; exact hbhP
      obtain ⟨h2, wrr, wbh, wc, wp, wtop, wbhP, wcP, wne, wlast⟩ :=
        walkRight_valid (RBNode.node lc lk lv ll lr lcnt)
          ((⟨c, pk, pv, RBNode.node rc rk rv rl rr rcnt, cnt, Dir.left⟩ : Frame α β) :: frames)
          h1 (by simp [RBNode.isNil]) hrrl hbhl hcl
          ⟨hrrr, fun hfc => (hcred hfc).2, htop, hp⟩
          (by
            intro g hg
            simp only [List.head?_cons, Option.mem_def, Option.some.injEq] at hg
            subst hg
            rintro ⟨hlred, hcc⟩
            have hcc' : c = Color.red := hcc
            have hlb := (hcred hcc').1
            have hlred' : lc = Color.red := hlred
            have hlb' : lc = Color.black := hlb
            rw [hlred'] at hlb'
            exact absurd hlb' (by decide))
          ⟨hbhr, hbhP'⟩
          ⟨show cnt = 1 + lcnt + rcnt from by omega, hcr, hcP⟩
          (fun hh => (List.cons_ne_nil _ _ hh).elim)
          (lastB_cons _ frames (fun ha => hx ha) hlast)
      have hwa := walkRight_append (RBNode.node lc lk lv ll lr lcnt)
        ((⟨c, pk, pv, RBNode.node rc rk rv rl rr rcnt, cnt, Dir.left⟩ : Frame α β) :: frames)
      have hw2 : (walkRight (RBNode.node lc lk lv ll lr lcnt)
          ((⟨c, pk, pv, RBNode.node rc rk rv rl rr rcnt, cnt, Dir.left⟩ : Frame α β)
            :: frames)).2
          = RBNode.node pc pk pv pl .nil pcnt := by
        rw [hwa]
        exact hshape
      have hw1 : (walkRight (RBNode.node lc lk lv ll lr lcnt)
          ((⟨c, pk, pv, RBNode.node rc rk rv rl rr rcnt, cnt, Dir.left⟩ : Frame α β)
            :: frames)).1
          = (walkRight (RBNode.node lc lk lv ll lr lcnt) []).1 ++
            (⟨c, pk, pv, RBNode.node rc rk rv rl rr rcnt, cnt, Dir.left⟩ : Frame α β)
              :: frames := by
        rw [hwa]
      rw [hw2] at wrr wbh wc wtop wcP
      rw [hw1] at wp wtop wbhP wcP wne wlast
      have heq : removeAt (RBNode.node c k v (RBNode.node lc lk lv ll lr lcnt)
          (RBNode.node rc rk rv rl rr rcnt) cnt) frames
          = removeLeaf (RBNode.node pc k v pl .nil pcnt)
            ((walkRight (RBNode.node lc lk lv ll lr lcnt) []).1 ++
              (⟨c, pk, pv, RBNode.node rc rk rv rl rr rcnt, cnt, Dir.left⟩ : Frame α β)
                :: frames) := by
        rw [removeAt.eq_def]
        simp only [hshape]
      rw [heq]
      exact removeLeaf_valid pc k v pl .nil pcnt _ h2 (Or.inr rfl) wrr wbh wc wp wbhP wcP
        (fun hfs => absurd hfs wne) wlast

theorem remove_valid (t : RedBlackTree α β) (key : α) (hv : RBValid t.root) :
    RBValid (t.remove key).root := by
  obtain ⟨hcol, hrr, hbh, hcnt⟩ := hv
  obtain ⟨h, hh⟩ := Option.isSome_iff_exists.mp hbh
  rw [show t.remove key = (match t.find key with
    | .invalid => t
    | .valid frames cur => ⟨t.compare, removeAt cur frames⟩) from by
      rw [RedBlackTree.remove]]
  cases hf : t.find key with
  | invalid => exact ⟨hcol, hrr, hbh, hcnt⟩
  | valid frames cur =>
    have hf' : findGo t.compare key t.root [] = .valid frames cur := hf
    obtain ⟨c, k0, v0, l, r, cnt, h2, hcur, hrrc, hbhc, hcc, hpf, htf, hbhf, hcf, hxf, hlastf⟩ :=
      findGo_valid t.compare key t.root [] h frames cur hrr hh hcnt
        trivial (fun g hg => by simp at hg) trivial trivial
        (fun _ => hcol) (fun g hg => by simp at hg) hf'
    subst hcur
    exact removeAt_valid c k0 v0 l r cnt frames h2 hrrc hbhc hcc hpf htf hbhf hcf hxf hlastf

/-- Claim C5 (confirmed): every tree reachable from the empty tree by any
sequence of `insert` and `remove` operations has a BLACK root, no RED node
with a RED child, a consistent black height on every root-to-null path, and
a stored count equal to `1 + count(left) + count(right)` at every node. -/
theorem C5_reachable_trees_satisfy_invariants (cmp : α → α → Int)
    (t : RedBlackTree α β) (h : Reachable cmp t) : RBValid t.root := by
  induction h with
  | empty => exact ⟨rfl, rfl, rfl, rfl⟩
  | ins t k v _ ih => exact insert_valid t k v ih
  | rem t k _ ih => exact remove_valid t k ih

/-- Witness for C5: a concrete tree built by two inserts and a remove is
reachable and therefore valid. -/
theorem C5_reachable_trees_satisfy_invariants_witness :
    RBValid ((((createRBTree defaultCompare : RedBlackTree Int Int).insert 1 10).insert
      2 20).remove 1).root :=
  C5_reachable_trees_satisfy_invariants defaultCompare _
    (Reachable.rem _ _ (Reachable.ins _ _ _ (Reachable.ins _ _ _ Reachable.empty)))


theorem size_repaint (c : Color) (n : RBNode α β) : (repaint c n).size = n.size := by
  cases n <;> rfl

theorem size_fill (f : Frame α β) (x : RBNode α β) :
    (f.fill x).size = 1 + x.size + f.other.size := by
  cases hd : f.dir <;> simp [Frame.fill, hd, RBNode.size] <;> omega

theorem size_assemble (frames : List (Frame α β)) :
    ∀ x : RBNode α β, (assemble x frames).size = x.size + framesSize frames := by
  induction frames with
  | nil => intro x; rw [assemble, framesSize]; omega
  | cons f rest ih =>
    intro x
    rw [assemble, ih, size_fill, framesSize]
    omega

theorem size_mkRecount (c : Color) (k : α) (v : β) (l r : RBNode α β) :
    (mkRecount c k v l r).size = 1 + l.size + r.size := rfl

theorem size_fillRecolor (pp : Frame α β) (x : RBNode α β) :
    (fillRecolor pp x).size = 1 + x.size + pp.other.size := by
  cases hd : pp.dir <;> simp [fillRecolor, hd, RBNode.size, size_repaint] <;> omega

theorem rebalance_size (n : RBNode α β) (frames : List (Frame α β)) :
    (rebalance n frames).size = n.size + framesSize frames := by
  induction n, frames using rebalance.induct with
  | case1 n => rw [rebalance, framesSize]; omega
  | case2 n p => rw [rebalance, size_fill, framesSize, framesSize]; omega
  | case3 n p pp rest hguard =>
    have heq : rebalance n (p :: pp :: rest) = assemble n (p :: pp :: rest) := by
      conv_lhs => rw [rebalance.eq_def]
      simp only [if_pos hguard]
    rw [heq, size_assemble]
  | case4 n p pp rest hguard hpd hppd hy ih =>
    have heq : rebalance n (p :: pp :: rest) =
        rebalance (fillRecolor pp (Frame.fill { p with color := Color.black } n)) rest := by
      conv_lhs => rw [rebalance.eq_def]
      simp only [hppd, hpd, if_neg hguard, if_pos hy]
    rw [heq, ih, size_fillRecolor, size_fill, framesSize, framesSize,
      show ({ p with color := Color.black } : Frame α β).other = p.other from rfl]
    omega
  | case5 n p pp rest hguard hpd hppd hy =>
    have heq : rebalance n (p :: pp :: rest) =
        assemble (mkRecount .black p.key p.value n
          (mkRecount .red pp.key pp.value p.other pp.other)) rest := by
      conv_lhs => rw [rebalance.eq_def]
      simp only [hppd, hpd, if_neg hguard, if_neg hy]
    rw [heq, size_assemble, size_mkRecount, size_mkRecount, framesSize, framesSize]
    omega
  | case6 n p pp rest hguard hpd hppd hy ih =>
    have heq : rebalance n (p :: pp :: rest) =
        rebalance (fillRecolor pp (Frame.fill { p with color := Color.black } n)) rest := by
      conv_lhs => rw [rebalance.eq_def]
      simp only [hppd, hpd, if_neg hguard, if_pos hy]
    rw [heq, ih, size_fillRecolor, size_fill, framesSize, framesSize,
      show ({ p with color := Color.black } : Frame α β).other = p.other from rfl]
    omega
  | case7 p pp rest hpd hppd hy hguard => exact absurd (Or.inr rfl) hguard
  | case8 p pp rest hpd hppd hy nc nk nv nl nr ncnt hguard =>
    have heq : rebalance (RBNode.node nc nk nv nl nr ncnt) (p :: pp :: rest) =
        assemble (mkRecount .black nk nv
          (mkRecount p.color p.key p.value p.other nl)
          (mkRecount .red pp.key pp.value nr pp.other)) rest := by
      conv_lhs => rw [rebalance.eq_def]
      simp only [hppd, hpd, if_neg hguard, if_neg hy]
    rw [heq, size_assemble, size_mkRecount, size_mkRecount, size_mkRecount, framesSize,
      framesSize]
    rw [show (RBNode.node nc nk nv nl nr ncnt).size = 1 + nl.size + nr.size from rfl]
    omega
  | case9 n p pp rest hguard hpd hppd hy ih =>
    have heq : rebalance n (p :: pp :: rest) =
        rebalance (fillRecolor pp (Frame.fill { p with color := Color.black } n)) rest := by
      conv_lhs => rw [rebalance.eq_def]
      simp only [hppd, hpd, if_neg hguard, if_pos hy]
    rw [heq, ih, size_fillRecolor, size_fill, framesSize, framesSize,
      show ({ p with color := Color.black } : Frame α β).other = p.other from rfl]
    omega
  | case10 n p pp rest hguard hpd hppd hy =>
    have heq : rebalance n (p :: pp :: rest) =
        assemble (mkRecount .black p.key p.value
          (mkRecount .red pp.key pp.value pp.other p.other) n) rest := by
      conv_lhs => rw [rebalance.eq_def]
      simp only [hppd, hpd, if_neg hguard, if_neg hy]
    rw [heq, size_assemble, size_mkRecount, size_mkRecount, framesSize, framesSize]
    omega
  | case11 n p pp rest hguard hpd hppd hy ih =>
    have heq : rebalance n (p :: pp :: rest) =
        rebalance (fillRecolor pp (Frame.fill { p with color := Color.black } n)) rest := by
      conv_lhs => rw [rebalance.eq_def]
      simp only [hppd, hpd, if_neg hguard, if_pos hy]
    rw [heq, ih, size_fillRecolor, size_fill, framesSize, framesSize,
      show ({ p with color := Color.black } : Frame α β).other = p.other from rfl]
    omega
  | case12 p pp rest hpd hppd hy hguard => exact absurd (Or.inr rfl) hguard
  | case13 p pp rest hpd hppd hy nc nk nv nl nr ncnt hguard =>
    have heq : rebalance (RBNode.node nc nk nv nl nr ncnt) (p :: pp :: rest) =
        assemble (mkRecount .black nk nv
          (mkRecount .red pp.key pp.value pp.other nl)
          (mkRecount p.color p.key p.value nr p.other)) rest := by
      conv_lhs => rw [rebalance.eq_def]
      simp only [hppd, hpd, if_neg hguard, if_neg hy]
    rw [heq, size_assemble, size_mkRecount, size_mkRecount, size_mkRecount, framesSize,
      framesSize]
    rw [show (RBNode.node nc nk nv nl nr ncnt).size = 1 + nl.size + nr.size from rfl]
    omega

theorem buildStack_size (cmp : α → α → Int) (key : α) (n : RBNode α β) :
    ∀ acc : List (Frame α β),
      framesSize (buildStack cmp key n acc) = n.size + framesSize acc := by
  induction n with
  | nil => intro acc; rw [buildStack, RBNode.size]; omega
  | node c k v l r cnt ihl ihr =>
    intro acc
    rw [buildStack]
    by_cases hcmp : cmp key k ≤ 0
    · rw [if_pos hcmp, ihl, framesSize, RBNode.size,
        show (⟨c, k, v, r, cnt + 1, Dir.left⟩ : Frame α β).other = r from rfl]
      omega
    · rw [if_neg hcmp, ihr, framesSize, RBNode.size,
        show (⟨c, k, v, l, cnt + 1, Dir.right⟩ : Frame α β).other = l from rfl]
      omega

theorem count_eq_size (n : RBNode α β) (hc : countOkB n = true) : n.count = n.size := by
  induction n with
  | nil => rfl
  | node c k v l r cnt ihl ihr =>
    obtain ⟨hc0, hcl, hcr⟩ := countOkB_node.mp hc
    rw [show (RBNode.node c k v l r cnt).count = cnt from rfl, RBNode.size,
      ← ihl hcl, ← ihr hcr]
    omega

/-- Claim C10 (confirmed): on a structurally valid tree, `insert` adds
exactly one entry: the length grows by one even when the key is already
present (a duplicate entry is created rather than a value replaced). -/
theorem C10_insert_always_adds_one_entry (t : RedBlackTree α β) (k : α) (v : β)
    (hv : RBValid t.root) : (t.insert k v).length = t.length + 1 := by
  obtain ⟨-, -, -, hcnt'⟩ := insert_valid t k v hv
  obtain ⟨-, -, -, hcnt⟩ := hv
  show ((t.insert k v).root).count = t.root.count + 1
  rw [count_eq_size _ hcnt', count_eq_size _ hcnt]
  show (repaint .black (rebalance (.node .red k v .nil .nil 1)
    (buildStack t.compare k t.root []))).size = t.root.size + 1
  rw [size_repaint, rebalance_size, buildStack_size]
  rw [show (RBNode.node Color.red k v .nil .nil 1 : RBNode α β).size = 1 from rfl,
    framesSize]
  omega

/-- Witness for C10: inserting an already-present key into a concrete valid
tree still grows the length by one. -/
theorem C10_insert_always_adds_one_entry_witness :
    (((createRBTree defaultCompare : RedBlackTree Int Int).insert 1 10).insert 1 20).length
      = ((createRBTree defaultCompare : RedBlackTree Int Int).insert 1 10).length + 1 :=
  C10_insert_always_adds_one_entry _ 1 20 (by decide)



theorem mem_of_getElem?' {l : List Nat} {j x : Nat} (h : l[j]? = some x) : x ∈ l := by
  obtain ⟨hlt, rfl⟩ := List.getElem?_eq_some.mp h
  exact List.getElem_mem hlt

theorem GoodStack_set {lo : Nat} {s : List Nat} {x : Nat} (hs : GoodStack lo s)
    (hx : lo ≤ x) (n : Nat) : GoodStack lo (s.set n x) := by
  intro a ha
  rcases List.mem_or_eq_of_mem_set ha with h | h
  · exact hs a h
  · omega

theorem GoodStack_append {lo : Nat} {s t : List Nat} (hs : GoodStack lo s)
    (ht : GoodStack lo t) : GoodStack lo (s ++ t) := by
  intro a ha
  rcases List.mem_append.mp ha with h | h
  · exact hs a h
  · exact ht a h

theorem GoodStack_nil {lo : Nat} : GoodStack lo ([] : List Nat) := by
  intro a ha
  cases ha

theorem GoodStack_cons {lo x : Nat} {s : List Nat} (hx : lo ≤ x) (hs : GoodStack lo s) :
    GoodStack lo (x :: s) := by
  intro a ha
  rcases List.mem_cons.mp ha with h | h
  · omega
  · exact hs a h

theorem GoodStack_get {lo : Nat} {s : List Nat} (hs : GoodStack lo s) {j x : Nat}
    (h : s[j]? = some x) : lo ≤ x :=
  hs x (mem_of_getElem?' h)

theorem Pres_refl (lo : Nat) (h : Heap α β) : Pres lo h h :=
  ⟨Nat.le_refl _, fun _ _ => rfl⟩

theorem Pres_trans {lo : Nat} {h h2 h3 : Heap α β} (p1 : Pres lo h h2) (p2 : Pres lo h2 h3) :
    Pres lo h h3 :=
  ⟨Nat.le_trans p1.1 p2.1, fun a ha => (p2.2 a ha).trans (p1.2 a ha)⟩

theorem Pres_len {lo : Nat} {h h2 : Heap α β} (p : Pres lo h h2) (hlo : lo ≤ h.length) :
    lo ≤ h2.length :=
  Nat.le_trans hlo p.1

theorem Pres_write {lo : Nat} {h h2 : Heap α β} (p : Pres lo h h2) {a : Nat}
    (ha : lo ≤ a) (r : NodeR α β) : Pres lo h (writeH h2 a r) := by
  refine ⟨?_, ?_⟩
  · rw [writeH, List.length_set]
    exact p.1
  · intro b hb
    rw [writeH, List.getElem?_set_ne (by omega)]
    exact p.2 b hb

theorem Pres_alloc {lo : Nat} {h h2 : Heap α β} (p : Pres lo h h2) (hlo : lo ≤ h.length)
    (r : NodeR α β) : Pres lo h (allocH h2 r).1 := by
  have h1 := p.1
  refine ⟨?_, ?_⟩
  · show h.length ≤ (h2 ++ [r]).length
    rw [List.length_append]
    have h2' : [r].length = 1 := rfl
    omega
  · intro b hb
    have hb2 : b < h2.length := by omega
    show (h2 ++ [r])[b]? = h[b]?
    rw [List.getElem?_append, if_pos hb2]
    exact p.2 b hb

theorem Pres_recount {lo : Nat} {h h2 : Heap α β} (p : Pres lo h h2) {a : Nat}
    (ha : lo ≤ a) : Pres lo h (recountH h2 a) := by
  rw [recountH]
  cases readH h2 a with
  | none => exact p
  | some nd => exact Pres_write p ha _

theorem Pres_relinkH {lo : Nat} {h h2 : Heap α β} (p : Pres lo h h2) {pppA : Nat}
    (ha : lo ≤ pppA) (b : Bool) (oldA newA : Nat) :
    Pres lo h (relinkH b h2 pppA oldA newA) := by
  rw [relinkH]
  cases readH h2 pppA with
  | none => exact p
  | some ppp =>
    repeat' split
    all_goals first
    | exact Pres_write p ha _
    | exact p

theorem Pres_relinkAt {lo : Nat} {h h2 : Heap α β} (p : Pres lo h h2) {stack : List Nat}
    (hs : GoodStack lo stack) (b : Bool) (j oldA newA : Nat) :
    Pres lo h (relinkAt b h2 stack j oldA newA) := by
  rw [relinkAt]
  cases hj : stack[j]? with
  | none => exact p
  | some pppA => exact Pres_relinkH p (GoodStack_get hs hj) b oldA newA


theorem GoodStack_take {lo : Nat} {s : List Nat} (hs : GoodStack lo s) (n : Nat) :
    GoodStack lo (s.take n) :=
  fun a ha => hs a (List.take_subset n s ha)

theorem GoodStack_getLast {lo : Nat} {s : List Nat} (hs : GoodStack lo s) {x : Nat}
    (h : s.getLast? = some x) : lo ≤ x := by
  obtain ⟨hne, rfl⟩ := List.mem_getLast?_eq_getLast h
  exact hs _ (List.getLast_mem hne)

theorem GoodStack_head {lo : Nat} {s : List Nat} (hs : GoodStack lo s) {x : Nat}
    (h : s.head? = some x) : lo ≤ x :=
  hs x (List.mem_of_mem_head? h)

theorem rebuildGo_pres {lo : Nat} {h : Heap α β} (hlo : lo ≤ h.length) :
    ∀ (l : List (Nat × Int)) (h2 : Heap α β) (childA : Nat), Pres lo h h2 → lo ≤ childA →
      Pres lo h (rebuildGo h2 l childA).1 ∧ GoodStack lo (rebuildGo h2 l childA).2 := by
  intro l
  induction l with
  | nil =>
    intro h2 childA hp hc
    exact ⟨hp, GoodStack_cons hc GoodStack_nil⟩
  | cons ad rest ih =>
    intro h2 childA hp hc
    obtain ⟨a, d⟩ := ad
    rw [rebuildGo]
    cases readH h2 a with
    | none => exact ⟨hp, GoodStack_cons hc GoodStack_nil⟩
    | some nd =>
      obtain ⟨hp3, hg3⟩ := ih (allocH h2 (if d ≤ 0 then
          { nd with left := some childA, count := nd.count + 1 }
        else { nd with right := some childA, count := nd.count + 1 })).1 h2.length
        (Pres_alloc hp hlo _) (Pres_len hp hlo)
      exact ⟨hp3, GoodStack_append hg3 (GoodStack_cons hc GoodStack_nil)⟩

theorem copyStackH_pres {lo : Nat} {h : Heap α β} (f : NodeR α β → NodeR α β)
    (hlo : lo ≤ h.length) :
    ∀ (stack : List Nat) (h2 : Heap α β), Pres lo h h2 →
      Pres lo h (copyStackH h2 f stack).1 ∧ GoodStack lo (copyStackH h2 f stack).2 := by
  intro stack
  induction stack with
  | nil => intro h2 hp; exact ⟨hp, GoodStack_nil⟩
  | cons a tail ih =>
    intro h2 hp
    cases tail with
    | nil =>
      rw [copyStackH]
      cases readH h2 a with
      | none => exact ⟨hp, GoodStack_nil⟩
      | some nd =>
        refine ⟨Pres_alloc hp hlo _, GoodStack_cons ?_ GoodStack_nil⟩
        exact Pres_len hp hlo
    | cons a1 rest =>
      rw [copyStackH]
      obtain ⟨hp2, hg2⟩ := ih h2 hp
      cases readH h2 a with
      | none =>
        cases hh : (copyStackH h2 f (a1 :: rest)).2.head? with
        | none => exact ⟨hp2, hg2⟩
        | some newChild => exact ⟨hp2, hg2⟩
      | some nd =>
        cases hh : (copyStackH h2 f (a1 :: rest)).2.head? with
        | none => exact ⟨hp2, hg2⟩
        | some newChild =>
          refine ⟨Pres_alloc hp2 hlo _, GoodStack_cons ?_ hg2⟩
          exact Pres_len hp2 hlo

theorem decCounts_pres {lo : Nat} {h : Heap α β} :
    ∀ (cs : List Nat) (h2 : Heap α β), Pres lo h h2 → GoodStack lo cs →
      Pres lo h (decCounts h2 cs) := by
  intro cs
  induction cs with
  | nil => intro h2 hp _; exact hp
  | cons a rest ih =>
    intro h2 hp hg
    rw [decCounts]
    have ha : lo ≤ a := hg a (List.mem_cons_self a rest)
    have hrest : GoodStack lo rest := fun x hx => hg x (List.mem_cons_of_mem a hx)
    cases readH h2 a with
    | none => exact ih h2 hp hrest
    | some nd => exact ih _ (Pres_write hp ha _) hrest

theorem predFixupH_pres {lo : Nat} {h : Heap α β} (hlo : lo ≤ h.length) :
    ∀ (ms : List Nat) (h2 : Heap α β) (bottomA : Nat), Pres lo h h2 → lo ≤ bottomA →
      Pres lo h (predFixupH h2 ms bottomA).1 ∧ GoodStack lo (predFixupH h2 ms bottomA).2 := by
  intro ms
  induction ms with
  | nil =>
    intro h2 bottomA hp hb
    exact ⟨hp, GoodStack_cons hb GoodStack_nil⟩
  | cons m rest ih =>
    intro h2 bottomA hp hb
    rw [predFixupH]
    obtain ⟨hp2, hg2⟩ := ih h2 bottomA hp hb
    cases readH h2 m with
    | none =>
      cases (predFixupH h2 rest bottomA).2.head? with
      | none => exact ⟨hp2, hg2⟩
      | some c => exact ⟨hp2, hg2⟩
    | some nd =>
      cases (predFixupH h2 rest bottomA).2.head? with
      | none => exact ⟨hp2, hg2⟩
      | some c =>
        refine ⟨Pres_alloc hp2 hlo _, GoodStack_cons ?_ hg2⟩
        exact Pres_len hp2 hlo

theorem updateH_pres {lo : Nat} {h : Heap α β} (hlo : lo ≤ h.length)
    (stack : List Nat) (value : β) : Pres lo h (updateH h stack value).1 := by
  cases stack with
  | nil => exact Pres_refl lo h
  | cons a tail =>
    exact (copyStackH_pres (fun nd => { nd with value := value }) hlo (a :: tail) h
      (Pres_refl lo h)).1


theorem Pres_alloc_addr {lo : Nat} {h X : Heap α β} (p : Pres lo h X)
    (hlo : lo ≤ h.length) (r : NodeR α β) : lo ≤ (allocH X r).2 :=
  le_trans hlo p.1

set_option maxHeartbeats 2000000 in
theorem rebalanceH_pres {lo : Nat} (h : Heap α β) (stack : List Nat) (s : Nat) :
    lo ≤ h.length → GoodStack lo stack →
      Pres lo h (rebalanceH h stack s).1 ∧ GoodStack lo (rebalanceH h stack s).2 := by
  induction h, stack, s using rebalanceH.induct with
  | case1 h stack s hs1 =>
    intro hlo hg
    rw [rebalanceH.eq_def]
    simp only [if_pos hs1]
    exact ⟨Pres_refl lo h, hg⟩
  | case2 h stack s hns nA pA ppA hppA hpA hnA n p pp hpp hp hn hguard =>
    intro hlo hg
    rw [rebalanceH.eq_def]
    simp only [hppA, hpA, hnA, hpp, hp, hn, if_neg hns, if_pos hguard]
    exact ⟨Pres_refl lo h, hg⟩
  | case3 h stack s hns nA pA ppA hppA hpA hnA n p pp hpp hp hn hguard hppl hpl hy h1 py h3 ih =>
    intro hlo hg
    have hpAa := GoodStack_get hg hpA
    have hppAa := GoodStack_get hg hppA
    rw [rebalanceH.eq_def]
    simp only [hppA, hpA, hnA, hpp, hp, hn, if_neg hns, if_neg hguard, if_pos hppl,
      if_pos hpl, if_pos hy]
    unfold h3 at ih
    unfold py at ih
    unfold h1 at ih
    cases hppr : pp.right with
    | none =>
      simp only [hppr] at ih ⊢
      have base : Pres lo h (writeH (writeH h pA { p with color := Color.black }) ppA
          { pp with right := some 0, color := Color.red }) :=
        Pres_write (Pres_write (Pres_refl lo h) hpAa _) hppAa _
      obtain ⟨a1, a2⟩ := ih (Pres_len base hlo) hg
      exact ⟨Pres_trans base a1, a2⟩
    | some yA =>
      cases hry : readH (writeH h pA { p with color := Color.black }) yA with
      | none =>
        simp only [hppr, hry] at ih ⊢
        have base : Pres lo h (writeH (writeH h pA { p with color := Color.black }) ppA
            { pp with right := some 0, color := Color.red }) :=
          Pres_write (Pres_write (Pres_refl lo h) hpAa _) hppAa _
        obtain ⟨a1, a2⟩ := ih (Pres_len base hlo) hg
        exact ⟨Pres_trans base a1, a2⟩
      | some y =>
        simp only [hppr, hry] at ih ⊢
        have base : Pres lo h (writeH (allocH (writeH h pA { p with color := Color.black })
            { y with color := Color.black }).1 ppA
            { pp with right := some (writeH h pA { p with color := Color.black }).length, color := Color.red }) :=
          Pres_write (Pres_alloc (Pres_write (Pres_refl lo h) hpAa _) hlo _) hppAa _
        obtain ⟨a1, a2⟩ := ih (Pres_len base hlo) hg
        exact ⟨Pres_trans base a1, a2⟩
  | case4 h stack s hns nA pA ppA hppA hpA hnA n p pp hpp hp hn hguard hppl hpl hy =>
    intro hlo hg
    have hpAa := GoodStack_get hg hpA
    have hppAa := GoodStack_get hg hppA
    have hnAa := GoodStack_get hg hnA
    rw [rebalanceH.eq_def]
    simp only [hppA, hpA, hnA, hpp, hp, hn, if_neg hns, if_neg hguard, if_pos hppl,
      if_pos hpl, if_neg hy]
    have base : Pres lo h (recountH (recountH (writeH (writeH h ppA
        { pp with color := Color.red, left := p.right }) pA
        { p with color := Color.black, right := some ppA }) ppA) pA) :=
      Pres_recount (Pres_recount (Pres_write (Pres_write (Pres_refl lo h) hppAa _) hpAa _)
        hppAa) hpAa
    refine ⟨?_, GoodStack_set (GoodStack_set hg hpAa _) hnAa _⟩
    split
    · exact Pres_relinkAt base hg true _ _ _
    · exact base
  | case5 h stack s hns nA pA ppA hppA hpA hnA n p pp hpp hp hn hguard hppl hpl hy h1 py h3 ih =>
    intro hlo hg
    have hpAa := GoodStack_get hg hpA
    have hppAa := GoodStack_get hg hppA
    rw [rebalanceH.eq_def]
    simp only [hppA, hpA, hnA, hpp, hp, hn, if_neg hns, if_neg hguard, if_pos hppl,
      if_neg hpl, if_pos hy]
    unfold h3 at ih
    unfold py at ih
    unfold h1 at ih
    cases hppr : pp.right with
    | none =>
      simp only [hppr] at ih ⊢
      have base : Pres lo h (writeH (writeH h pA { p with color := Color.black }) ppA
          { pp with right := some 0, color := Color.red }) :=
        Pres_write (Pres_write (Pres_refl lo h) hpAa _) hppAa _
      obtain ⟨a1, a2⟩ := ih (Pres_len base hlo) hg
      exact ⟨Pres_trans base a1, a2⟩
    | some yA =>
      cases hry : readH (writeH h pA { p with color := Color.black }) yA with
      | none =>
        simp only [hppr, hry] at ih ⊢
        have base : Pres lo h (writeH (writeH h pA { p with color := Color.black }) ppA
            { pp with right := some 0, color := Color.red }) :=
          Pres_write (Pres_write (Pres_refl lo h) hpAa _) hppAa _
        obtain ⟨a1, a2⟩ := ih (Pres_len base hlo) hg
        exact ⟨Pres_trans base a1, a2⟩
      | some y =>
        simp only [hppr, hry] at ih ⊢
        have base : Pres lo h (writeH (allocH (writeH h pA { p with color := Color.black })
            { y with color := Color.black }).1 ppA
            { pp with right := some (writeH h pA { p with color := Color.black }).length, color := Color.red }) :=
          Pres_write (Pres_alloc (Pres_write (Pres_refl lo h) hpAa _) hlo _) hppAa _
        obtain ⟨a1, a2⟩ := ih (Pres_len base hlo) hg
        exact ⟨Pres_trans base a1, a2⟩
  | case6 h stack s hns nA pA ppA hppA hpA hnA n p pp hpp hp hn hguard hppl hpl hy =>
    intro hlo hg
    have hpAa := GoodStack_get hg hpA
    have hppAa := GoodStack_get hg hppA
    have hnAa := GoodStack_get hg hnA
    rw [rebalanceH.eq_def]
    simp only [hppA, hpA, hnA, hpp, hp, hn, if_neg hns, if_neg hguard, if_pos hppl,
      if_neg hpl, if_neg hy]
    have base : Pres lo h (recountH (recountH (recountH (writeH (writeH (writeH h pA
        { p with right := n.left }) ppA { pp with color := Color.red, left := n.right }) nA
        { n with color := Color.black, left := some pA, right := some ppA }) ppA) pA) nA) :=
      Pres_recount (Pres_recount (Pres_recount (Pres_write (Pres_write (Pres_write
        (Pres_refl lo h) hpAa _) hppAa _) hnAa _) hppAa) hpAa) hnAa
    refine ⟨?_, GoodStack_set (GoodStack_set hg hnAa _) hpAa _⟩
    split
    · exact Pres_relinkAt base hg true _ _ _
    · exact base
  | case7 h stack s hns nA pA ppA hppA hpA hnA n p pp hpp hp hn hguard hppl hpr hy h1 py h3 ih =>
    intro hlo hg
    have hpAa := GoodStack_get hg hpA
    have hppAa := GoodStack_get hg hppA
    rw [rebalanceH.eq_def]
    simp only [hppA, hpA, hnA, hpp, hp, hn, if_neg hns, if_neg hguard, if_neg hppl,
      if_pos hpr, if_pos hy]
    unfold h3 at ih
    unfold py at ih
    unfold h1 at ih
    cases hppr : pp.left with
    | none =>
      simp only [hppr] at ih ⊢
      have base : Pres lo h (writeH (writeH h pA { p with color := Color.black }) ppA
          { pp with left := some 0, color := Color.red }) :=
        Pres_write (Pres_write (Pres_refl lo h) hpAa _) hppAa _
      obtain ⟨a1, a2⟩ := ih (Pres_len base hlo) hg
      exact ⟨Pres_trans base a1, a2⟩
    | some yA =>
      cases hry : readH (writeH h pA { p with color := Color.black }) yA with
      | none =>
        simp only [hppr, hry] at ih ⊢
        have base : Pres lo h (writeH (writeH h pA { p with color := Color.black }) ppA
            { pp with left := some 0, color := Color.red }) :=
          Pres_write (Pres_write (Pres_refl lo h) hpAa _) hppAa _
        obtain ⟨a1, a2⟩ := ih (Pres_len base hlo) hg
        exact ⟨Pres_trans base a1, a2⟩
      | some y =>
        simp only [hppr, hry] at ih ⊢
        have base : Pres lo h (writeH (allocH (writeH h pA { p with color := Color.black })
            { y with color := Color.black }).1 ppA
            { pp with left := some (writeH h pA { p with color := Color.black }).length, color := Color.red }) :=
          Pres_write (Pres_alloc (Pres_write (Pres_refl lo h) hpAa _) hlo _) hppAa _
        obtain ⟨a1, a2⟩ := ih (Pres_len base hlo) hg
        exact ⟨Pres_trans base a1, a2⟩
  | case8 h stack s hns nA pA ppA hppA hpA hnA n p pp hpp hp hn hguard hppl hpr hy =>
    intro hlo hg
    have hpAa := GoodStack_get hg hpA
    have hppAa := GoodStack_get hg hppA
    have hnAa := GoodStack_get hg hnA
    rw [rebalanceH.eq_def]
    simp only [hppA, hpA, hnA, hpp, hp, hn, if_neg hns, if_neg hguard, if_neg hppl,
      if_pos hpr, if_neg hy]
    have base : Pres lo h (recountH (recountH (writeH (writeH h ppA
        { pp with color := Color.red, right := p.left }) pA
        { p with color := Color.black, left := some ppA }) ppA) pA) :=
      Pres_recount (Pres_recount (Pres_write (Pres_write (Pres_refl lo h) hppAa _) hpAa _)
        hppAa) hpAa
    refine ⟨?_, GoodStack_set (GoodStack_set hg hpAa _) hnAa _⟩
    split
    · exact Pres_relinkAt base hg false _ _ _
    · exact base
  | case9 h stack s hns nA pA ppA hppA hpA hnA n p pp hpp hp hn hguard hppl hpr hy h1 py h3 ih =>
    intro hlo hg
    have hpAa := GoodStack_get hg hpA
    have hppAa := GoodStack_get hg hppA
    rw [rebalanceH.eq_def]
    simp only [hppA, hpA, hnA, hpp, hp, hn, if_neg hns, if_neg hguard, if_neg hppl,
      if_neg hpr, if_pos hy]
    unfold h3 at ih
    unfold py at ih
    unfold h1 at ih
    cases hppr : pp.left with
    | none =>
      simp only [hppr] at ih ⊢
      have base : Pres lo h (writeH (writeH h pA { p with color := Color.black }) ppA
          { pp with left := some 0, color := Color.red }) :=
        Pres_write (Pres_write (Pres_refl lo h) hpAa _) hppAa _
      obtain ⟨a1, a2⟩ := ih (Pres_len base hlo) hg
      exact ⟨Pres_trans base a1, a2⟩
    | some yA =>
      cases hry : readH (writeH h pA { p with color := Color.black }) yA with
      | none =>
        simp only [hppr, hry] at ih ⊢
        have base : Pres lo h (writeH (writeH h pA { p with color := Color.black }) ppA
            { pp with left := some 0, color := Color.red }) :=
          Pres_write (Pres_write (Pres_refl lo h) hpAa _) hppAa _
        obtain ⟨a1, a2⟩ := ih (Pres_len base hlo) hg
        exact ⟨Pres_trans base a1, a2⟩
      | some y =>
        simp only [hppr, hry] at ih ⊢
        have base : Pres lo h (writeH (allocH (writeH h pA { p with color := Color.black })
            { y with color := Color.black }).1 ppA
            { pp with left := some (writeH h pA { p with color := Color.black }).length, color := Color.red }) :=
          Pres_write (Pres_alloc (Pres_write (Pres_refl lo h) hpAa _) hlo _) hppAa _
        obtain ⟨a1, a2⟩ := ih (Pres_len base hlo) hg
        exact ⟨Pres_trans base a1, a2⟩
  | case10 h stack s hns nA pA ppA hppA hpA hnA n p pp hpp hp hn hguard hppl hpr hy =>
    intro hlo hg
    have hpAa := GoodStack_get hg hpA
    have hppAa := GoodStack_get hg hppA
    have hnAa := GoodStack_get hg hnA
    rw [rebalanceH.eq_def]
    simp only [hppA, hpA, hnA, hpp, hp, hn, if_neg hns, if_neg hguard, if_neg hppl,
      if_neg hpr, if_neg hy]
    have base : Pres lo h (recountH (recountH (recountH (writeH (writeH (writeH h pA
        { p with left := n.right }) ppA { pp with color := Color.red, right := n.left }) nA
        { n with color := Color.black, left := some ppA, right := some pA }) ppA) pA) nA) :=
      Pres_recount (Pres_recount (Pres_recount (Pres_write (Pres_write (Pres_write
        (Pres_refl lo h) hpAa _) hppAa _) hnAa _) hppAa) hpAa) hnAa
    refine ⟨?_, GoodStack_set (GoodStack_set hg hnAa _) hpAa _⟩
    split
    · exact Pres_relinkAt base hg false _ _ _
    · exact base
  | case11 h stack s hns nA pA ppA hppA hpA hnA himp =>
    intro hlo hg
    rw [rebalanceH.eq_def]
    simp only [if_neg hns, hppA, hpA, hnA]
    exact ⟨Pres_refl lo h, hg⟩
  | case12 h stack s hns himp =>
    intro hlo hg
    rw [rebalanceH.eq_def]
    simp only [if_neg hns]
    exact ⟨Pres_refl lo h, hg⟩


set_option maxHeartbeats 4000000 in
theorem fixDBH_pres {lo : Nat} (fuel : Nat) :
    ∀ (h : Heap α β) (stack : List Nat) (i : Nat), lo ≤ h.length → GoodStack lo stack →
      Pres lo h (fixDBH h stack fuel i) := by
  induction fuel with
  | zero =>
    intro h stack i hlo hg
    exact Pres_refl lo h
  | succ fuel ih =>
    intro h stack i hlo hg
    rw [fixDBH.eq_def]
    repeat' (first
      | exact Pres_refl lo h
      | exact hg
      | exact hlo
      | exact GoodStack_get hg (by assumption)
      | refine Pres_trans ?_ (ih _ _ _ ?_ ?_)
      | refine Pres_relinkAt ?_ hg _ _ _ _
      | refine Pres_recount ?_ ?_
      | refine Pres_write ?_ ?_ _
      | refine Pres_alloc ?_ hlo _
      | refine Pres_alloc_addr ?_ hlo _
      | refine Pres_len ?_ hlo
      | refine GoodStack_set ?_ ?_ _
      | refine GoodStack_append ?_ ?_
      | refine GoodStack_cons ?_ GoodStack_nil
      | exact GoodStack_nil
      | simp only []
      | split)

set_option maxHeartbeats 4000000 in
theorem insertH_pres {lo : Nat} {h : Heap α β} (hlo : lo ≤ h.length)
    (cmp : α → α → Int) (rootA : Option Nat) (key : α) (value : β) :
    Pres lo h (insertH cmp h rootA key value).1 := by
  rw [insertH]
  repeat' (first
    | exact Pres_refl lo h
    | exact Pres_alloc (Pres_refl lo h) hlo _
    | exact Pres_alloc_addr (Pres_refl lo h) hlo _
    | exact hlo
    | refine GoodStack_get ((rebalanceH_pres _ _ _ ?_ ?_).2) (by assumption)
    | refine Pres_write ?_ ?_ _
    | refine Pres_trans ?_ ((rebalanceH_pres _ _ _ ?_ ?_).1)
    | refine (rebuildGo_pres hlo _ _ _ ?_ ?_).1
    | refine (rebuildGo_pres hlo _ _ _ ?_ ?_).2
    | refine Pres_len ?_ hlo
    | simp only []
    | split)

set_option maxHeartbeats 4000000 in
theorem removePhase3_pres {lo : Nat} {h : Heap α β} (hlo : lo ≤ h.length) :
    ∀ (h2 : Heap α β) (cs : List Nat), Pres lo h h2 → GoodStack lo cs →
      Pres lo h (removePhase3 h2 cs).1 := by
  intro h2 cs hp hg
  rw [removePhase3]
  repeat' (first
    | exact hp
    | exact GoodStack_getLast hg (by assumption)
    | exact GoodStack_get hg (by assumption)
    | exact GoodStack_take hg _
    | exact hg
    | refine Pres_trans ?_ (fixDBH_pres _ _ _ _ ?_ ?_)
    | refine decCounts_pres _ _ ?_ ?_
    | refine Pres_write ?_ ?_ _
    | refine Pres_len ?_ hlo
    | simp only []
    | split)

set_option maxHeartbeats 4000000 in
theorem removePhase2_pres {lo : Nat} {h : Heap α β} (hlo : lo ≤ h.length) :
    ∀ (h2 : Heap α β) (cs : List Nat), Pres lo h h2 → GoodStack lo cs →
      Pres lo h (removePhase2 h2 cs).1 := by
  intro h2 cs hp hg
  rw [removePhase2]
  repeat' (first
    | exact hp
    | exact GoodStack_getLast hg (by assumption)
    | refine removePhase3_pres hlo _ _ ?_ ?_
    | refine GoodStack_append ?_ ?_
    | exact hg
    | refine (predFixupH_pres hlo _ _ _ ?_ ?_).1
    | refine (predFixupH_pres hlo _ _ _ ?_ ?_).2
    | refine Pres_write ?_ ?_ _
    | refine Pres_alloc ?_ hlo _
    | refine Pres_alloc_addr ?_ hlo _
    | refine Pres_len ?_ hlo
    | simp only []
    | split)

theorem removeH_pres {lo : Nat} {h : Heap α β} (hlo : lo ≤ h.length)
    (stack : List Nat) (rootA : Option Nat) : Pres lo h (removeH h stack rootA).1 := by
  cases stack with
  | nil => exact Pres_refl lo h
  | cons a tail =>
    rw [removeH]
    refine removePhase2_pres hlo _ _ ?_ ?_
    · exact (copyStackH_pres id hlo (a :: tail) h (Pres_refl lo h)).1
    · exact (copyStackH_pres id hlo (a :: tail) h (Pres_refl lo h)).2


theorem readH_pres {h h2 : Heap α β} (p : Pres h.length h h2) {a : Nat}
    (ha : a < h.length) : readH h2 a = readH h a := p.2 a ha

theorem mem_of_readH {h : Heap α β} {a : Nat} {nd : NodeR α β}
    (hr : readH h a = some nd) : nd ∈ h := by
  obtain ⟨hlt, rfl⟩ := List.getElem?_eq_some.mp hr
  exact List.getElem_mem hlt

theorem WF_read {h : Heap α β} (hwf : WFHeapB h = true) {a : Nat} {nd : NodeR α β}
    (hr : readH h a = some nd) :
    okRef h.length nd.left = true ∧ okRef h.length nd.right = true := by
  have hmem := mem_of_readH hr
  rw [WFHeapB, List.all_eq_true] at hwf
  exact (Bool.and_eq_true _ _).mp (hwf nd hmem)

theorem okRef_lt {len x : Nat} (hr : okRef len (some x) = true) : x < len := by
  simpa [okRef] using hr

theorem getH_pres (cmp : α → α → Int) (qkey : α) {h h2 : Heap α β}
    (hwf : WFHeapB h = true) (p : Pres h.length h h2) :
    ∀ (fuel : Nat) (r : Option Nat), okRef h.length r = true →
      getH cmp qkey h2 fuel r = getH cmp qkey h fuel r := by
  intro fuel
  induction fuel with
  | zero => intro r hr; rfl
  | succ fuel ih =>
    intro r hr
    cases r with
    | none => rfl
    | some a =>
      have ha : a < h.length := okRef_lt hr
      rw [getH, getH, readH_pres p ha]
      cases hread : readH h a with
      | none => rfl
      | some nd =>
        obtain ⟨hl, hrr⟩ := WF_read hwf hread
        by_cases hd : cmp qkey nd.key = 0
        · simp [hd]
        · by_cases hd2 : cmp qkey nd.key ≤ 0
          · simp [hd, hd2, ih nd.left hl]
          · simp [hd, hd2, ih nd.right hrr]

theorem keysH_pres {h h2 : Heap α β}
    (hwf : WFHeapB h = true) (p : Pres h.length h h2) :
    ∀ (fuel : Nat) (r : Option Nat), okRef h.length r = true →
      keysH h2 fuel r = keysH h fuel r := by
  intro fuel
  induction fuel with
  | zero => intro r hr; rfl
  | succ fuel ih =>
    intro r hr
    cases r with
    | none => rfl
    | some a =>
      have ha : a < h.length := okRef_lt hr
      rw [keysH, keysH, readH_pres p ha]
      cases hread : readH h a with
      | none => rfl
      | some nd =>
        obtain ⟨hl, hrr⟩ := WF_read hwf hread
        simp [ih nd.left hl, ih nd.right hrr]

theorem findH_pres (cmp : α → α → Int) (qkey : α) {h h2 : Heap α β}
    (hwf : WFHeapB h = true) (p : Pres h.length h h2) :
    ∀ (fuel : Nat) (r : Option Nat) (acc : List Nat), okRef h.length r = true →
      findH cmp qkey h2 fuel r acc = findH cmp qkey h fuel r acc := by
  intro fuel
  induction fuel with
  | zero => intro r acc hr; rfl
  | succ fuel ih =>
    intro r acc hr
    cases r with
    | none => rfl
    | some a =>
      have ha : a < h.length := okRef_lt hr
      rw [findH, findH, readH_pres p ha]
      cases hread : readH h a with
      | none => rfl
      | some nd =>
        obtain ⟨hl, hrr⟩ := WF_read hwf hread
        by_cases hd : cmp qkey nd.key = 0
        · simp [hd]
        · by_cases hd2 : cmp qkey nd.key ≤ 0
          · simp [hd, hd2, ih nd.left (acc ++ [a]) hl]
          · simp [hd, hd2, ih nd.right (acc ++ [a]) hrr]

theorem lengthH_pres {h h2 : Heap α β} (p : Pres h.length h h2) {r : Option Nat}
    (hr : okRef h.length r = true) : lengthH h2 r = lengthH h r := by
  cases r with
  | none => rfl
  | some a =>
    have ha : a < h.length := okRef_lt hr
    rw [lengthH, lengthH, countRef, countRef, readH_pres p ha]


/-- **C6** (persistence / frame effect): `insert`, `remove` and `update`
never mutate the original version.  On the heap embedding (a node's address
is its allocation index), for a well-formed heap whose root reference is in
range: each operation leaves every cell of the original heap identical, and
`get`, `keys`, `find` and `length` run against the old root on the new heap
return exactly what they returned on the old heap. -/
theorem C6_operations_preserve_original_version
    (cmp : α → α → Int) (h : Heap α β) (rootA : Option Nat) (stack : List Nat)
    (key qkey : α) (value : β) (fuel : Nat)
    (hwf : WFHeapB h = true) (hroot : okRef h.length rootA = true) :
    (∀ a, a < h.length →
      (insertH cmp h rootA key value).1[a]? = h[a]? ∧
      (removeH h stack rootA).1[a]? = h[a]? ∧
      (updateH h stack value).1[a]? = h[a]?) ∧
    (getH cmp qkey (insertH cmp h rootA key value).1 fuel rootA =
        getH cmp qkey h fuel rootA ∧
      keysH (insertH cmp h rootA key value).1 fuel rootA = keysH h fuel rootA ∧
      findH cmp qkey (insertH cmp h rootA key value).1 fuel rootA [] =
        findH cmp qkey h fuel rootA [] ∧
      lengthH (insertH cmp h rootA key value).1 rootA = lengthH h rootA) ∧
    (getH cmp qkey (removeH h stack rootA).1 fuel rootA = getH cmp qkey h fuel rootA ∧
      keysH (removeH h stack rootA).1 fuel rootA = keysH h fuel rootA ∧
      findH cmp qkey (removeH h stack rootA).1 fuel rootA [] =
        findH cmp qkey h fuel rootA [] ∧
      lengthH (removeH h stack rootA).1 rootA = lengthH h rootA) ∧
    (getH cmp qkey (updateH h stack value).1 fuel rootA = getH cmp qkey h fuel rootA ∧
      keysH (updateH h stack value).1 fuel rootA = keysH h fuel rootA ∧
      findH cmp qkey (updateH h stack value).1 fuel rootA [] =
        findH cmp qkey h fuel rootA [] ∧
      lengthH (updateH h stack value).1 rootA = lengthH h rootA) := by
  have pI : Pres h.length h (insertH cmp h rootA key value).1 :=
    insertH_pres (le_refl _) cmp rootA key value
  have pR : Pres h.length h (removeH h stack rootA).1 :=
    removeH_pres (le_refl _) stack rootA
  have pU : Pres h.length h (updateH h stack value).1 :=
    updateH_pres (le_refl _) stack value
  refine ⟨fun a ha => ⟨pI.2 a ha, pR.2 a ha, pU.2 a ha⟩,
    ⟨?_, ?_, ?_, ?_⟩, ⟨?_, ?_, ?_, ?_⟩, ⟨?_, ?_, ?_, ?_⟩⟩
  · exact getH_pres cmp qkey hwf pI fuel rootA hroot
  · exact keysH_pres hwf pI fuel rootA hroot
  · exact findH_pres cmp qkey hwf pI fuel rootA [] hroot
  · exact lengthH_pres pI hroot
  · exact getH_pres cmp qkey hwf pR fuel rootA hroot
  · exact keysH_pres hwf pR fuel rootA hroot
  · exact findH_pres cmp qkey hwf pR fuel rootA [] hroot
  · exact lengthH_pres pR hroot
  · exact getH_pres cmp qkey hwf pU fuel rootA hroot
  · exact keysH_pres hwf pU fuel rootA hroot
  · exact findH_pres cmp qkey hwf pU fuel rootA [] hroot
  · exact lengthH_pres pU hroot

/-- C6 witness: a one-node heap; inserting key 2 leaves the original cell
and the original version's `get` untouched. -/
theorem C6_operations_preserve_original_version_witness :
    WFHeapB ([⟨Color.black, 1, 10, none, none, 1⟩] : Heap Int Int) = true ∧
    okRef ([⟨Color.black, 1, 10, none, none, 1⟩] : Heap Int Int).length (some 0) = true ∧
    getH defaultCompare 1
      (insertH defaultCompare ([⟨Color.black, 1, 10, none, none, 1⟩] : Heap Int Int)
        (some 0) 2 20).1 5 (some 0) =
      getH defaultCompare 1 ([⟨Color.black, 1, 10, none, none, 1⟩] : Heap Int Int) 5 (some 0) :=
  ⟨by decide, by decide,
    (C6_operations_preserve_original_version defaultCompare
      ([⟨Color.black, 1, 10, none, none, 1⟩] : Heap Int Int) (some 0) [0] 2 1 20 5
      (by decide) (by decide)).2.1.1⟩




end SnapDB
